import Mathlib

/-!
slack-dump: history retrieval, day partitioning, room selection and serialisation.

A shallow embedding of `main.go` and `sort.go`.

* The remote Slack API is a state machine over a world type `σ`: every call
  takes the current world and returns either an error or a response together
  with the next world.
* `check(err)`, an out-of-range slice index and a nil pointer dereference all
  abort the run; they are the `Run.panic` outcome.
* The unbounded `for` loop of the two history fetchers is run with a fuel
  argument that counts the remaining loop iterations; `Run.diverge` is the
  outcome of a run that has used up its fuel.
* The fetchers also return the list of request parameters they have sent, a
  ghost value that is not part of the program.
* `sort.Sort` is any program of `Less` and `Swap` calls that meets the contract
  of the library; `json.MarshalIndent` is a function argument of
  `MarshalIndent`, with the encoder of strings written out.
-/

namespace SlackDump

/-! ## Outcomes -/

/-- Reasons for which the Go program aborts. -/
inductive Fault where
  | indexOutOfRange
  | nilDereference
  | parseError
  | apiError (e : String)
  deriving DecidableEq, Repr

/-- Outcome of running a piece of the program. -/
inductive Run (α : Type) where
  | ok (a : α)
  | panic (f : Fault)
  | diverge
  deriving DecidableEq, Repr

/-- Sequencing of runs: the first abort wins. -/
def Run.bind {α β : Type} (r : Run α) (k : α → Run β) : Run β :=
  match r with
  | .ok a => k a
  | .panic f => .panic f
  | .diverge => .diverge

/-- Slice indexing `xs[i]` of Go: defined only for `0 ≤ i < len(xs)`. -/
def goIndex {α : Type} (xs : List α) (i : Int) : Option α :=
  if i < 0 then none else xs[i.toNat]?

/-! ## Data model (the `slack` package types, as far as the program uses them) -/

/-- A `slack.Message`: the raw timestamp and the payload carried along. -/
structure Message where
  Timestamp : String
  User : String
  Text : String
  deriving DecidableEq, Repr

/-- The `slack.HistoryParameters` request record. -/
structure HistoryParameters where
  Latest : String
  Oldest : String
  Count : Int
  Inclusive : Bool
  deriving DecidableEq, Repr

/-- The defaults of `slack.NewHistoryParameters()`: no bounds, 100 messages. -/
def NewHistoryParameters : HistoryParameters :=
  { Latest := "", Oldest := "0", Count := 100, Inclusive := false }

/-- A `slack.History` response: one page. -/
structure History where
  Latest : String
  Messages : List Message
  HasMore : Bool
  deriving DecidableEq, Repr

/-- One history call of the API client over the world `σ`. -/
abbrev HistoryCall (σ : Type) : Type :=
  String → HistoryParameters → σ → Except String (History × σ)

/-- The part of `*slack.Client` the history fetchers use. -/
structure Client (σ : Type) where
  GetChannelHistory : HistoryCall σ
  GetGroupHistory : HistoryCall σ

/-- What a history fetcher returns: the messages, the requests it sent (ghost)
and the world it leaves behind. -/
structure Fetched (σ : Type) where
  messages : List Message
  requests : List HistoryParameters
  world : σ
  deriving DecidableEq, Repr

/-! ## The pagination engine -/

/-- The `for` loop of `fetchChannelHistory` (main.go 279-293). -/
def channelHistoryLoop {σ : Type} (api : Client σ) (ID : String) :
    Nat → HistoryParameters → History → String → List Message →
      List HistoryParameters → σ → Run (Fetched σ)
  | 0, _, history, _, messages, reqs, w =>
    if history.HasMore != true then .ok ⟨messages, reqs, w⟩ else .diverge
  | fuel + 1, historyParams, history, latest, messages, reqs, w =>
    if history.HasMore != true then .ok ⟨messages, reqs, w⟩
    else
      let historyParams := { historyParams with Latest := latest }
      match api.GetChannelHistory ID historyParams w with
      | .error e => .panic (.apiError e)
      | .ok (history, w) =>
        let length : Int := history.Messages.length
        if length > 0 then
          match goIndex history.Messages (length - 1) with
          | none => .panic .indexOutOfRange
          | some m =>
            channelHistoryLoop api ID fuel historyParams history m.Timestamp
              (messages ++ history.Messages) (reqs ++ [historyParams]) w
        else
          channelHistoryLoop api ID fuel historyParams history latest messages
            (reqs ++ [historyParams]) w

/-- The function `fetchChannelHistory` (main.go 270-296). -/
def fetchChannelHistory {σ : Type} (api : Client σ) (ID : String) (fuel : Nat) (w : σ) :
    Run (Fetched σ) :=
  let historyParams := { NewHistoryParameters with Count := 1000 }
  match api.GetChannelHistory ID historyParams w with
  | .error e => .panic (.apiError e)
  | .ok (history, w) =>
    let messages := history.Messages
    match goIndex messages ((messages.length : Int) - 1) with
    | none => .panic .indexOutOfRange
    | some m =>
      channelHistoryLoop api ID fuel historyParams history m.Timestamp messages
        [historyParams] w

/-- The `for` loop of `fetchGroupHistory` (main.go 251-265). -/
def groupHistoryLoop {σ : Type} (api : Client σ) (ID : String) :
    Nat → HistoryParameters → History → String → List Message →
      List HistoryParameters → σ → Run (Fetched σ)
  | 0, _, history, _, messages, reqs, w =>
    if history.HasMore != true then .ok ⟨messages, reqs, w⟩ else .diverge
  | fuel + 1, historyParams, history, latest, messages, reqs, w =>
    if history.HasMore != true then .ok ⟨messages, reqs, w⟩
    else
      let historyParams := { historyParams with Latest := latest }
      match api.GetGroupHistory ID historyParams w with
      | .error e => .panic (.apiError e)
      | .ok (history, w) =>
        let length : Int := history.Messages.length
        if length > 0 then
          match goIndex history.Messages (length - 1) with
          | none => .panic .indexOutOfRange
          | some m =>
            groupHistoryLoop api ID fuel historyParams history m.Timestamp
              (messages ++ history.Messages) (reqs ++ [historyParams]) w
        else
          groupHistoryLoop api ID fuel historyParams history latest messages
            (reqs ++ [historyParams]) w

/-- The function `fetchGroupHistory` (main.go 242-268). -/
def fetchGroupHistory {σ : Type} (api : Client σ) (ID : String) (fuel : Nat) (w : σ) :
    Run (Fetched σ) :=
  let historyParams := { NewHistoryParameters with Count := 1000 }
  match api.GetGroupHistory ID historyParams w with
  | .error e => .panic (.apiError e)
  | .ok (history, w) =>
    let messages := history.Messages
    match goIndex messages ((messages.length : Int) - 1) with
    | none => .panic .indexOutOfRange
    | some m =>
      groupHistoryLoop api ID fuel historyParams history m.Timestamp messages
        [historyParams] w

/-! ## Test doubles for the API -/

/-- An API call that answers from a script of pages, one page per call,
whatever the request; a call past the end of the script is a transport error. -/
def scriptCall : HistoryCall (List History)
  | _, _, [] => .error "no page left"
  | _, _, p :: ps => .ok (p, ps)

/-- The client whose two history calls both answer from the script. -/
def scriptClient : Client (List History) :=
  { GetChannelHistory := scriptCall, GetGroupHistory := scriptCall }

/-- An API call that answers `first` to the first call and from then on keeps
answering with an empty page that reports more history. The world is the
number of calls answered so far. -/
def stuckCall (first : History) : HistoryCall Nat
  | _, _, 0 => .ok (first, 1)
  | _, _, n + 1 => .ok ({ Latest := "", Messages := [], HasMore := true }, n + 2)

/-- The client of `stuckCall`. -/
def stuckClient (first : History) : Client Nat :=
  { GetChannelHistory := stuckCall first, GetGroupHistory := stuckCall first }

/-- A message that carries only a timestamp. -/
def msgAt (ts : String) : Message :=
  { Timestamp := ts, User := "U1", Text := "" }

/-- Three pages: a full one, an empty one that reports more history, and a
final one. -/
def gapPages : List History :=
  [ { Latest := "", Messages := [msgAt "1000000003.0", msgAt "1000000002.0"], HasMore := true },
    { Latest := "", Messages := [], HasMore := true },
    { Latest := "", Messages := [msgAt "1000000001.0"], HasMore := false } ]

/-- A non-empty page that reports more history. -/
def newerPage : History :=
  { Latest := "", Messages := [msgAt "1000000003.0", msgAt "1000000002.0"], HasMore := true }

/-- A non-empty page that reports no more history. -/
def oldestPage : History :=
  { Latest := "", Messages := [msgAt "1000000001.0"], HasMore := false }

/-- An empty page that reports more history. -/
def emptyPageMore : History :=
  { Latest := "", Messages := [], HasMore := true }

/-- An empty page that reports no more history. -/
def emptyPageDone : History :=
  { Latest := "", Messages := [], HasMore := false }

/-- All messages of a list of pages, in page order. -/
def pagesMessages (ps : List History) : List Message :=
  ps.flatMap (fun p => p.Messages)

/-! ## The history orderer (sort.go)

`sort.Sort` belongs to the Go standard library. It reaches the data only
through `Len`, `Less` and `Swap`; such an algorithm is a decision tree
(`SortProg`) of comparisons and swaps, chosen from the length alone. What
the library guarantees is `SortContract`. -/

/-- The slice type `byTimestamp` of sort.go. -/
abbrev byTimestamp : Type := List Message

/-- The comparison `a < b` of two Go strings: lexicographic, character by
character (for UTF-8 text the order of the bytes is the order of the
characters). -/
def stringLess (a b : String) : Bool :=
  decide (a.data < b.data)

/-- The method `byTimestamp.Len`. -/
def byTimestamp.Len (m : byTimestamp) : Nat := m.length

/-- The method `byTimestamp.Swap`: `m[i], m[j] = m[j], m[i]`; an index outside
the slice aborts (`none`). -/
def byTimestamp.Swap (m : byTimestamp) (i j : Nat) : Option byTimestamp :=
  match m[i]?, m[j]? with
  | some a, some b => some ((m.set i b).set j a)
  | _, _ => none

/-- The method `byTimestamp.Less`: `m[i].Timestamp < m[j].Timestamp`, the
comparison of Go strings (lexicographic); an index outside the slice aborts. -/
def byTimestamp.Less (m : byTimestamp) (i j : Nat) : Option Bool :=
  match m[i]?, m[j]? with
  | some a, some b => some (stringLess a.Timestamp b.Timestamp)
  | _, _ => none

/-- An algorithm over `sort.Interface`: it stops, swaps two positions, or
compares two positions and goes on according to the answer. -/
inductive SortProg where
  | done : SortProg
  | swap : Nat → Nat → SortProg → SortProg
  | less : Nat → Nat → (Bool → SortProg) → SortProg

/-- Running a sorting program on a `byTimestamp` slice. -/
def SortProg.run : SortProg → byTimestamp → Option byTimestamp
  | .done, m => some m
  | .swap i j next, m =>
    match byTimestamp.Swap m i j with
    | none => none
    | some m' => next.run m'
  | .less i j next, m =>
    match byTimestamp.Less m i j with
    | none => none
    | some b => (next b).run m

/-- The call `sort.Sort(byTimestamp(messages))` for the library algorithm `alg`,
which is given `data.Len()`. -/
def sortSort (alg : Nat → SortProg) (m : byTimestamp) : Option byTimestamp :=
  (alg (byTimestamp.Len m)).run m

/-- The guarantee of `sort.Sort`: it returns, and afterwards no later element is
`Less` than an earlier one. -/
def SortContract (alg : Nat → SortProg) : Prop :=
  ∀ m : byTimestamp, ∃ m', sortSort alg m = some m' ∧
    ∀ i j, i < j → j < byTimestamp.Len m' → byTimestamp.Less m' j i = some false

/-- Inner loop of insertion sort, `for j := i; j > 0 && Less(j, j-1); j--`,
followed by `next`. -/
def insertInner (next : SortProg) : Nat → SortProg
  | 0 => next
  | j + 1 => .less (j + 1) j (fun b => if b then .swap (j + 1) j (insertInner next j) else next)

/-- Outer loop of insertion sort: `count` more elements, the next one at `i`. -/
def insertionSortFrom : Nat → Nat → SortProg
  | 0, _ => .done
  | count + 1, i => insertInner (insertionSortFrom count (i + 1)) i

/-- Insertion sort, the algorithm `sort.Sort` runs on short slices; it serves
as the concrete instance of the library. -/
def insertionSort (n : Nat) : SortProg :=
  insertionSortFrom (n - 1) 1

/-- Non-decreasing by raw timestamp string. -/
def SortedByTimestamp (m : List Message) : Prop :=
  m.Pairwise (fun a b => a.Timestamp ≤ b.Timestamp)

/-! ## The timestamp parser and the calendar -/

/-- Value of a decimal digit. -/
def digitValue (c : Char) : Option Nat :=
  if '0' ≤ c ∧ c ≤ '9' then some (c.toNat - '0'.toNat) else none

/-- Reading decimal digits onto an accumulator; `none` at a non-digit. -/
def parseDigits : List Char → Nat → Option Nat
  | [], acc => some acc
  | c :: cs, acc =>
    match digitValue c with
    | none => none
    | some d => parseDigits cs (acc * 10 + d)

/-- Reading `[+-]?[0-9]+` as an integer of any size. -/
def parseDecimal (s : List Char) : Option Int :=
  match s with
  | [] => none
  | '+' :: cs => if cs = [] then none else (parseDigits cs 0).map (fun n => (n : Int))
  | '-' :: cs => if cs = [] then none else (parseDigits cs 0).map (fun n => -(n : Int))
  | cs => (parseDigits cs 0).map (fun n => (n : Int))

/-- The call `strconv.ParseInt(s, 10, 64)`: a syntax error or a value outside
the 64-bit range is `none`. -/
def ParseInt (s : List Char) : Option Int :=
  match parseDecimal s with
  | none => none
  | some i => if -(2 : Int) ^ 63 ≤ i ∧ i < (2 : Int) ^ 63 then some i else none

/-- The call `strings.Split(s, sep)` for a one-character separator. -/
def stringsSplit (sep : Char) : List Char → List (List Char)
  | [] => [[]]
  | c :: cs =>
    if c = sep then [] :: stringsSplit sep cs
    else
      match stringsSplit sep cs with
      | [] => [[c]]
      | p :: ps => (c :: p) :: ps

/-- A `time.Time` of second resolution in a location with a fixed offset:
seconds since the Unix epoch and seconds east of UTC. The local zone is taken
to have one offset at all times, and the arithmetic of package `time` is taken
to be exact (no wrap-around at the ends of the 64-bit range). The `Local()` of
the library takes the offset in force at the instant from the zone database, so
what is proved about calendar dates is proved for a zone that keeps its offset
over the timestamps in question, and for seconds away from those ends. -/
structure Time where
  unix : Int
  offset : Int
  deriving DecidableEq, Repr

/-- The function `parseTimestamp` (main.go 298-317). `loc` is the offset of the
local time zone; the result `none` is the nil pointer. -/
def parseTimestamp (loc : Int) (timestamp : String) : Run (Option Time) :=
  if timestamp.length ≤ 0 then .ok none
  else if timestamp.data.contains '.' then
    let e := stringsSplit '.' timestamp.data
    if e.length ≠ 2 then .ok none
    else
      match ParseInt (e.headD []) with
      | none => .panic .parseError
      | some i => .ok (some { unix := i, offset := loc })
  else
    match ParseInt timestamp.data with
    | none => .panic .parseError
    | some i => .ok (some { unix := i, offset := loc })

/-- A calendar date. -/
structure Date where
  Year : Int
  Month : Nat
  Day : Nat
  deriving DecidableEq, Repr

/-- Leap years of the Gregorian calendar. -/
def isLeap (y : Int) : Bool :=
  y % 4 = 0 ∧ (y % 100 ≠ 0 ∨ y % 400 = 0)

/-- Number of days of a month. -/
def daysIn (y : Int) (m : Nat) : Nat :=
  if m = 2 then (if isLeap y then 29 else 28)
  else if m = 4 ∨ m = 6 ∨ m = 9 ∨ m = 11 then 30
  else 31

/-- The day after. -/
def nextDay (d : Date) : Date :=
  if d.Day < daysIn d.Year d.Month then { d with Day := d.Day + 1 }
  else if d.Month < 12 then { Year := d.Year, Month := d.Month + 1, Day := 1 }
  else { Year := d.Year + 1, Month := 1, Day := 1 }

/-- The day before. -/
def prevDay (d : Date) : Date :=
  if 1 < d.Day then { d with Day := d.Day - 1 }
  else if 1 < d.Month then
    { Year := d.Year, Month := d.Month - 1, Day := daysIn d.Year (d.Month - 1) }
  else { Year := d.Year - 1, Month := 12, Day := 31 }

/-- The proleptic Gregorian date of the day that lies `n` days after
1970-01-01, which is what `Year`, `Month` and `Day` of package `time` report. -/
def civil : Int → Date
  | .ofNat n => nextDay^[n] { Year := 1970, Month := 1, Day := 1 }
  | .negSucc n => prevDay^[n + 1] { Year := 1970, Month := 1, Day := 1 }

/-- Calendar order on dates. -/
def Date.lt (a b : Date) : Prop :=
  a.Year < b.Year ∨ (a.Year = b.Year ∧ (a.Month < b.Month ∨ (a.Month = b.Month ∧ a.Day < b.Day)))

/-- A date with a month from 1 to 12 and a day from 1 to 31. -/
def Date.inRange (d : Date) : Prop :=
  1 ≤ d.Month ∧ d.Month ≤ 12 ∧ 1 ≤ d.Day ∧ d.Day ≤ 31

/-- A date of the calendar: the day exists in its month. -/
def Date.valid (d : Date) : Prop :=
  1 ≤ d.Month ∧ d.Month ≤ 12 ∧ 1 ≤ d.Day ∧ d.Day ≤ daysIn d.Year d.Month

/-- Number of the local day a time falls on, counted from 1970-01-01. -/
def Time.dayNumber (t : Time) : Int :=
  (t.unix + t.offset) / 86400

/-- The local calendar date of a time. -/
def Time.date (t : Time) : Date :=
  civil t.dayNumber

/-- The method `Time.Year`. -/
def Time.Year (t : Time) : Int := t.date.Year

/-- The method `Time.Month`. -/
def Time.Month (t : Time) : Nat := t.date.Month

/-- The method `Time.Day`. -/
def Time.Day (t : Time) : Nat := t.date.Day

/-- Decimal digits of a number, most significant first; `fuel` bounds their
number. -/
def decimalDigits : Nat → Nat → List Char
  | 0, _ => []
  | fuel + 1, n =>
    if n < 10 then [Char.ofNat ('0'.toNat + n)]
    else decimalDigits fuel (n / 10) ++ [Char.ofNat ('0'.toNat + n % 10)]

/-- The verb `%d` on a natural number. -/
def formatNat (n : Nat) : List Char :=
  decimalDigits (n + 1) n

/-- The verb `%d` on an integer. -/
def formatInt (i : Int) : List Char :=
  if i < 0 then '-' :: formatNat (-i).toNat else formatNat i.toNat

/-- The verb `%02d` on a natural number: at least two digits, zero padded. -/
def formatPad2 (n : Nat) : List Char :=
  if n < 10 then '0' :: formatNat n else formatNat n

/-- The call `fmt.Sprintf("%d-%02d-%02d.json", year, month, day)`. -/
def dayFilename (d : Date) : String :=
  String.mk (formatInt d.Year ++ ('-' :: (formatPad2 d.Month ++ ('-' :: (formatPad2 d.Day ++
    ".json".data)))))

/-! ## The day partitioner -/

/-- One call `writeMessagesFile(messages, dir, name, filename)`. -/
structure WriteCall where
  messages : List Message
  dir : String
  name : String
  filename : String
  deriving DecidableEq, Repr

/-- A file written below the export directory: the directory of the room (the
export directory and the room name), the file name and the messages that are
serialised into it. -/
structure FileWrite where
  dir : String
  name : String
  filename : String
  messages : List Message
  deriving DecidableEq, Repr

/-- The function `writeMessagesFile` (main.go 228-240) on the list of files
written so far; creating the directory and the file is taken to succeed. -/
def writeMessagesFile (messages : List Message) (dir name filename : String)
    (fs : List FileWrite) : List FileWrite :=
  if messages.length == 0 || dir == "" || name == "" || filename == "" then fs
  else fs ++ [{ dir := dir, name := name, filename := filename, messages := messages }]

/-- The file a call of `writeMessagesFile` writes when it writes one. -/
def WriteCall.file (c : WriteCall) : FileWrite :=
  { dir := c.dir, name := c.name, filename := c.filename, messages := c.messages }

/-- The files a sequence of `writeMessagesFile` calls writes. -/
def runWrites (calls : List WriteCall) (fs : List FileWrite) : List FileWrite :=
  calls.foldl (fun fs c => writeMessagesFile c.messages c.dir c.name c.filename fs) fs

/-- The `for` loop of `dumpChannel` (main.go 214-224) over the messages left,
with the variables `currentFilename` and `currentMessages` and the calls of
`writeMessagesFile` made so far. -/
def partitionLoop (loc : Int) (dir name : String) :
    List Message → String → List Message → List WriteCall →
      Run (String × List Message × List WriteCall)
  | [], currentFilename, currentMessages, calls =>
    .ok (currentFilename, currentMessages, calls)
  | message :: rest, currentFilename, currentMessages, calls =>
    match parseTimestamp loc message.Timestamp with
    | .panic f => .panic f
    | .diverge => .diverge
    | .ok none => .panic .nilDereference
    | .ok (some ts) =>
      let filename := dayFilename { Year := ts.Year, Month := ts.Month, Day := ts.Day }
      if currentFilename != filename then
        partitionLoop loc dir name rest filename [message]
          (calls ++ [{ messages := currentMessages, dir := dir, name := name,
                       filename := currentFilename }])
      else
        partitionLoop loc dir name rest currentFilename (currentMessages ++ [message]) calls

/-- The body of `dumpChannel` after the fetch (main.go 206-225): the calls of
`writeMessagesFile` it makes, in order. -/
def dumpMessages (alg : Nat → SortProg) (loc : Int) (dir name : String)
    (messages : List Message) : Run (List WriteCall) :=
  if messages.length == 0 then .ok []
  else
    match sortSort alg messages with
    | none => .panic .indexOutOfRange
    | some messages =>
      match partitionLoop loc dir name messages "" [] [] with
      | .panic f => .panic f
      | .diverge => .diverge
      | .ok (currentFilename, currentMessages, calls) =>
        .ok (calls ++ [{ messages := currentMessages, dir := dir, name := name,
                         filename := currentFilename }])

/-- The `for` loop of `dumpChannel` (main.go 214-224) once more, now with what
it leaves behind when it aborts: the calls of `writeMessagesFile` made so far
(the files they wrote stay written) stand next to the outcome, which for a
loop that has come to its end is `currentFilename` and `currentMessages`. -/
def partitionEmitted (loc : Int) (dir name : String) :
    List Message → String → List Message → List WriteCall →
      List WriteCall × Run (String × List Message)
  | [], currentFilename, currentMessages, calls =>
    (calls, .ok (currentFilename, currentMessages))
  | message :: rest, currentFilename, currentMessages, calls =>
    match parseTimestamp loc message.Timestamp with
    | .panic f => (calls, .panic f)
    | .diverge => (calls, .diverge)
    | .ok none => (calls, .panic .nilDereference)
    | .ok (some ts) =>
      let filename := dayFilename { Year := ts.Year, Month := ts.Month, Day := ts.Day }
      if currentFilename != filename then
        partitionEmitted loc dir name rest filename [message]
          (calls ++ [{ messages := currentMessages, dir := dir, name := name,
                       filename := currentFilename }])
      else
        partitionEmitted loc dir name rest currentFilename (currentMessages ++ [message]) calls

/-- The body of `dumpChannel` after the fetch (main.go 206-225) with what it
leaves behind: the calls of `writeMessagesFile` it has made, in order, when it
returns or aborts, and which of the two it does. -/
def dumpEmitted (alg : Nat → SortProg) (loc : Int) (dir name : String)
    (messages : List Message) : List WriteCall × Run Unit :=
  if messages.length == 0 then ([], .ok ())
  else
    match sortSort alg messages with
    | none => ([], .panic .indexOutOfRange)
    | some messages =>
      match partitionEmitted loc dir name messages "" [] [] with
      | (calls, .panic f) => (calls, .panic f)
      | (calls, .diverge) => (calls, .diverge)
      | (calls, .ok (currentFilename, currentMessages)) =>
        (calls ++ [{ messages := currentMessages, dir := dir, name := name,
                     filename := currentFilename }], .ok ())

/-- The function `dumpChannel` (main.go 198-226): the calls of
`writeMessagesFile` it makes and the world it leaves behind. -/
def dumpChannel {σ : Type} (alg : Nat → SortProg) (loc : Int) (api : Client σ)
    (dir id name channelType : String) (fuel : Nat) (w : σ) : Run (List WriteCall × σ) :=
  let fetched :=
    if channelType == "group" then fetchGroupHistory api id fuel w
    else fetchChannelHistory api id fuel w
  match fetched with
  | .panic f => .panic f
  | .diverge => .diverge
  | .ok r =>
    match dumpMessages alg loc dir name r.messages with
    | .panic f => .panic f
    | .diverge => .diverge
    | .ok calls => .ok (calls, r.world)

/-- The day batches among the calls of `writeMessagesFile`: the flushes of a
non-empty accumulator. -/
def dayBatches (calls : List WriteCall) : List WriteCall :=
  calls.filter (fun c => c.messages.length != 0)

/-- The timestamp is one `parseTimestamp` turns into a time. -/
def timestampParses (ts : String) : Bool :=
  match parseTimestamp 0 ts with
  | .ok (some _) => true
  | _ => false

/-- Seconds since the epoch that `parseTimestamp` reads from a timestamp. -/
def timestampSeconds (ts : String) : Option Int :=
  match parseTimestamp 0 ts with
  | .ok (some t) => some t.unix
  | _ => none

/-- The local calendar date of a message. -/
def messageDate (loc : Int) (m : Message) : Option Date :=
  match parseTimestamp loc m.Timestamp with
  | .ok (some t) => some t.date
  | _ => none

/-- The day file name `dumpChannel` computes for a message whose timestamp
parses. -/
def messageFilename (loc : Int) (m : Message) : Option String :=
  (messageDate loc m).map dayFilename

/-- The number of the local day of a message whose timestamp parses. -/
def messageDay (loc : Int) (m : Message) : Option Int :=
  match parseTimestamp loc m.Timestamp with
  | .ok (some t) => some t.dayNumber
  | _ => none

/-- The seconds of `a` are at most the seconds of `b` (both parse). -/
def secondsLE (a b : String) : Bool :=
  match timestampSeconds a, timestampSeconds b with
  | some x, some y => decide (x ≤ y)
  | _, _ => false

/-- The seconds of the timestamp lie from 0 up to 2^62, a range in which
package `time` computes the date of `time.Unix(i, 0)` without wrap-around. -/
def secondsInRange (ts : String) : Bool :=
  match timestampSeconds ts with
  | some s => decide (0 ≤ s ∧ s < 2 ^ 62)
  | none => false

/-- On these messages the order of the raw timestamp strings agrees with the
order of the seconds they denote. -/
def SecondsFollowStrings (messages : List Message) : Prop :=
  ∀ x ∈ messages, ∀ y ∈ messages,
    stringLess x.Timestamp y.Timestamp = true → secondsLE x.Timestamp y.Timestamp = true

/-- What holds of the flushes `bs` (the calls made in the loop and the call
after it) when the loop has started with the variables `cf` and `cm` on the
messages `msgs`. -/
def Flushed (loc : Int) (dir name cf : String) (cm msgs : List Message)
    (bs : List WriteCall) : Prop :=
  bs.flatMap (fun c => c.messages) = cm ++ msgs ∧
  (∃ b tl, bs = b :: tl ∧ b.filename = cf ∧
    (∀ x ∈ b.messages, x ∈ cm ∨ messageFilename loc x = some cf) ∧
    (cm ≠ [] → b.messages ≠ []) ∧
    (∀ c ∈ tl, c.messages ≠ [] ∧ ∀ x ∈ c.messages, messageFilename loc x = some c.filename)) ∧
  bs.Chain' (fun a b => a.filename ≠ b.filename) ∧
  (∀ c ∈ bs, c.dir = dir ∧ c.name = name)

/-! ## The room normaliser (`dumpRooms`) -/

/-- A `slack.Topic` or `slack.Purpose` text block. -/
structure TextBlock where
  Value : String
  Creator : String
  LastSet : Int
  deriving DecidableEq, Repr

/-- A `slack.Channel`, with the fields `dumpRooms` assigns. -/
structure Channel where
  ID : String
  Name : String
  Created : Int
  Creator : String
  IsArchived : Bool
  IsChannel : Bool
  IsGeneral : Bool
  IsMember : Bool
  LastRead : String
  Latest : Option Message
  Members : List String
  NumMembers : Int
  Purpose : TextBlock
  Topic : TextBlock
  UnreadCount : Int
  UnreadCountDisplay : Int
  deriving DecidableEq, Repr

/-- Modelled from the spec: the declaration of `slack.Group` is not among the
sources. The fields are those `dumpRooms` reads, and the membership flag that
section 3 of the spec gives to both kinds of room; `dumpRooms` never reads
it. -/
structure Group where
  ID : String
  Name : String
  Created : Int
  Creator : String
  IsArchived : Bool
  IsMember : Bool
  LastRead : String
  Latest : Option Message
  Members : List String
  NumMembers : Int
  Purpose : TextBlock
  Topic : TextBlock
  UnreadCount : Int
  UnreadCountDisplay : Int
  deriving DecidableEq, Repr

/-- The zero value `slack.Channel{}`. -/
def Channel.zero : Channel :=
  { ID := "", Name := "", Created := 0, Creator := "", IsArchived := false, IsChannel := false,
    IsGeneral := false, IsMember := false, LastRead := "", Latest := none, Members := [],
    NumMembers := 0, Purpose := { Value := "", Creator := "", LastSet := 0 },
    Topic := { Value := "", Creator := "", LastSet := 0 }, UnreadCount := 0,
    UnreadCountDisplay := 0 }

/-- The body of the loop of `dumpRooms` (main.go 118-134): the channel built
from a group. -/
def groupAsChannel (group : Group) : Channel :=
  let channel := Channel.zero
  let channel := { channel with ID := group.ID }
  let channel := { channel with Name := group.Name }
  let channel := { channel with Created := group.Created }
  let channel := { channel with Creator := group.Creator }
  let channel := { channel with IsArchived := group.IsArchived }
  let channel := { channel with IsChannel := true }
  let channel := { channel with IsGeneral := false }
  let channel := { channel with IsMember := true }
  let channel := { channel with LastRead := group.LastRead }
  let channel := { channel with Latest := group.Latest }
  let channel := { channel with Members := group.Members }
  let channel := { channel with NumMembers := group.NumMembers }
  let channel := { channel with Purpose := group.Purpose }
  let channel := { channel with Topic := group.Topic }
  let channel := { channel with UnreadCount := group.UnreadCount }
  let channel := { channel with UnreadCountDisplay := group.UnreadCountDisplay }
  channel

/-- The manifest `dumpRooms` serialises into `channels.json` (main.go 116-139),
from the channels `dumpChannels` returned and the groups `dumpGroups` returned. -/
def dumpRoomsManifest (channels : List Channel) (groups : List Group) : List Channel :=
  if groups.length > 0 then
    groups.foldl (fun channels group => channels ++ [groupAsChannel group]) channels
  else channels

/-- A private room for the examples, with every flag off. -/
def sampleGroup : Group :=
  { ID := "G024BE91L", Name := "secretplans", Created := 1360782804, Creator := "U024BE7LH",
    IsArchived := false, IsMember := false, LastRead := "1401383885.000061", Latest := none,
    Members := ["U024BE7LH"], NumMembers := 1,
    Purpose := { Value := "Discuss secret plans", Creator := "U024BE7LH", LastSet := 1360782804 },
    Topic := { Value := "Secret plans on hold", Creator := "U024BE7LV", LastSet := 1369677212 },
    UnreadCount := 0, UnreadCountDisplay := 0 }

/-- The seconds component of a timestamp: what stands before the first '.'. -/
def secondsPart (ts : String) : List Char :=
  (stringsSplit '.' ts.data).headD []

/-- The watermark after one more page: the timestamp of its last message, or
the old watermark when the page is empty. -/
def nextLatest (latest : String) (p : History) : String :=
  match p.Messages.getLast? with
  | some m => m.Timestamp
  | none => latest

/-- The watermark after a list of pages received in turn. -/
def watermark (start : String) (pages : List History) : String :=
  pages.foldl nextLatest start

/-- The requests that fetch the pages `pages` one after the other when the
watermark is `latest` before the first of them. -/
def requestsFrom (hp : HistoryParameters) (latest : String) : List History → List HistoryParameters
  | [] => []
  | p :: ps => { hp with Latest := latest } :: requestsFrom hp (nextLatest latest p) ps

/-- A well-formed timestamp with `k` digits of seconds: `k ≥ 1` digits,
optionally followed by '.' and digits. -/
def WellFormedTimestamp (k : Nat) (ts : String) : Prop :=
  ∃ d f, ts.data = d ++ f ∧ d.length = k ∧ 0 < k ∧ (∀ c ∈ d, (digitValue c).isSome = true) ∧
    (f = [] ∨ ∃ g, f = '.' :: g ∧ ∀ c ∈ g, (digitValue c).isSome = true)

/-- The shell pass `for i := 6; i < n; i++ { if Less(i, i-6) { Swap(i, i-6) } }`
(`count` more rounds, the next one at `i`), followed by `next`. -/
def shellPass (next : SortProg) : Nat → Nat → SortProg
  | 0, _ => next
  | count + 1, i =>
    .less i (i - 6) (fun b =>
      if b then .swap i (i - 6) (shellPass next count (i + 1))
      else shellPass next count (i + 1))

/-- The shell pass with gap 6 followed by insertion sort: what `sort.Sort` of
Go 1.6 to 1.18 runs on a slice of at most 12 elements. -/
def shellInsertionSort (n : Nat) : SortProg :=
  shellPass (insertionSort n) (n - 6) 6

/-- A message with a timestamp and a text. -/
def msgText (ts text : String) : Message :=
  { Timestamp := ts, User := "U1", Text := text }

/-- Seven fetched messages, the first two with the same timestamp. -/
def tiedMessages : List Message :=
  [msgText "1446768002.000000" "first", msgText "1446768002.000000" "second",
   msgText "1446768003.000000" "", msgText "1446768004.000000" "",
   msgText "1446768005.000000" "", msgText "1446768006.000000" "",
   msgText "1446768001.000000" ""]

/-! ## Room selection (`dumpChannels`, `dumpGroups`) -/

/-- The client with the calls that list the rooms. -/
structure RoomsClient (σ : Type) where
  history : Client σ
  GetChannels : Bool → σ → Except String (List Channel × σ)
  GetGroups : Bool → σ → Except String (List Group × σ)

/-- The function `FilterChannels` (main.go 333-341). -/
def FilterChannels (s : List Channel) (fn : Channel → Bool) : List Channel :=
  s.foldl (fun p v => if fn v then p ++ [v] else p) []

/-- The function `FilterGroups` (main.go 321-329). -/
def FilterGroups (s : List Group) (fn : Group → Bool) : List Group :=
  s.foldl (fun p v => if fn v then p ++ [v] else p) []

/-- The closure `dumpChannels` and `dumpGroups` filter with: some entry of
`rooms` equals the name (`room == channel.Name`). -/
def roomSelected (rooms : List String) (name : String) : Bool :=
  match rooms with
  | [] => false
  | room :: rest => if room == name then true else roomSelected rest name

/-- What `dumpChannels` and `dumpGroups` do: the rooms they return, the calls of
`dumpChannel` they made as (id, name, type) in order (ghost), the calls of
`writeMessagesFile` made in them, and the world left behind. -/
structure Dumped (α σ : Type) where
  rooms : List α
  dumped : List (String × String × String)
  calls : List WriteCall
  world : σ

/-- The loop `for _, room := range rooms { dumpChannel(api, dir, room.ID,
room.Name, channelType) }` of `dumpChannels` and `dumpGroups`, over the
identifiers and names of the rooms. -/
def dumpEach {σ : Type} (alg : Nat → SortProg) (loc : Int) (api : Client σ)
    (dir channelType : String) (fuel : Nat) :
    List (String × String) → List (String × String × String) → List WriteCall → σ →
      Run (List (String × String × String) × List WriteCall × σ)
  | [], dumped, calls, w => .ok (dumped, calls, w)
  | (id, name) :: rest, dumped, calls, w =>
    match dumpChannel alg loc api dir id name channelType fuel w with
    | .panic f => .panic f
    | .diverge => .diverge
    | .ok (c, w) =>
      dumpEach alg loc api dir channelType fuel rest (dumped ++ [(id, name, channelType)])
        (calls ++ c) w

/-- The function `dumpChannels` (main.go 145-170). -/
def dumpChannels {σ : Type} (alg : Nat → SortProg) (loc : Int) (api : RoomsClient σ)
    (dir : String) (rooms : List String) (fuel : Nat) (w : σ) : Run (Dumped Channel σ) :=
  match api.GetChannels false w with
  | .error e => .panic (.apiError e)
  | .ok (channels, w) =>
    let channels :=
      if rooms.length > 0 then
        FilterChannels channels (fun channel => roomSelected rooms channel.Name)
      else channels
    if channels.length == 0 then .ok { rooms := [], dumped := [], calls := [], world := w }
    else
      match dumpEach alg loc api.history dir "channel" fuel
          (channels.map (fun channel => (channel.ID, channel.Name))) [] [] w with
      | .panic f => .panic f
      | .diverge => .diverge
      | .ok (dumped, calls, w) =>
        .ok { rooms := channels, dumped := dumped, calls := calls, world := w }

/-- The function `dumpGroups` (main.go 172-196). -/
def dumpGroups {σ : Type} (alg : Nat → SortProg) (loc : Int) (api : RoomsClient σ)
    (dir : String) (rooms : List String) (fuel : Nat) (w : σ) : Run (Dumped Group σ) :=
  match api.GetGroups false w with
  | .error e => .panic (.apiError e)
  | .ok (groups, w) =>
    let groups :=
      if rooms.length > 0 then
        FilterGroups groups (fun group => roomSelected rooms group.Name)
      else groups
    if groups.length == 0 then .ok { rooms := [], dumped := [], calls := [], world := w }
    else
      match dumpEach alg loc api.history dir "group" fuel
          (groups.map (fun group => (group.ID, group.Name))) [] [] w with
      | .panic f => .panic f
      | .diverge => .diverge
      | .ok (dumped, calls, w) =>
        .ok { rooms := groups, dumped := dumped, calls := calls, world := w }

/-- The history fetch `dumpChannel` makes for a room of the given type. -/
def fetchRoomHistory {σ : Type} (api : Client σ) (channelType ID : String) (fuel : Nat)
    (w : σ) : Run (Fetched σ) :=
  if channelType == "group" then fetchGroupHistory api ID fuel w
  else fetchChannelHistory api ID fuel w

/-- The export of a list of rooms as the specification words it, following the
specification's sentences on room selection and not the code: the rooms are
gone through in their order; for each one its history is fetched under its
identifier, and the messages fetched are written into the day files of the room
under its name. The result is the calls of `writeMessagesFile` of all these
rooms, in order, and the world left behind. -/
def exportRooms {σ : Type} (alg : Nat → SortProg) (loc : Int) (api : Client σ)
    (dir channelType : String) (fuel : Nat) :
    List (String × String) → σ → Run (List WriteCall × σ)
  | [], w => .ok ([], w)
  | (id, name) :: rest, w =>
    match fetchRoomHistory api channelType id fuel w with
    | .panic f => .panic f
    | .diverge => .diverge
    | .ok fetched =>
      match dumpMessages alg loc dir name fetched.messages with
      | .panic f => .panic f
      | .diverge => .diverge
      | .ok calls =>
        match exportRooms alg loc api dir channelType fuel rest fetched.world with
        | .panic f => .panic f
        | .diverge => .diverge
        | .ok (more, w) => .ok (calls ++ more, w)

/-- A history call that answers every request with the same page and adds the
method and the room identifier of the request to the world, which is the log of
the requests answered so far. -/
def logCall (method : String) (page : History) : HistoryCall (List (String × String)) :=
  fun ID _ w => .ok (page, w ++ [(method, ID)])

/-- A public room with a name. -/
def channelNamed (id name : String) : Channel :=
  { Channel.zero with ID := id, Name := name }

/-- A private room with a name. -/
def groupNamed (id name : String) : Group :=
  { sampleGroup with ID := id, Name := name }

/-- The page of the one message posted in every room of `sampleWorkspace`. -/
def samplePage : History :=
  { Latest := "", Messages := [msgAt "1000.1"], HasMore := false }

/-- A workspace with the public rooms a, b, c and the private rooms b, d, in
each of which one message was posted; its world is the log of the history
requests answered. -/
def sampleWorkspace : RoomsClient (List (String × String)) :=
  { history :=
      { GetChannelHistory := logCall "channels.history" samplePage,
        GetGroupHistory := logCall "groups.history" samplePage },
    GetChannels := fun _ w =>
      .ok ([channelNamed "C1" "a", channelNamed "C2" "b", channelNamed "C3" "c"], w),
    GetGroups := fun _ w => .ok ([groupNamed "G1" "b", groupNamed "G2" "d"], w) }

/-! ## Serialisation (`MarshalIndent`)

Byte slices are lists of characters: the byte sequences searched for and
written are ASCII, and no byte of a multi-byte UTF-8 sequence is ASCII, so
replacing on characters and on bytes is the same. -/

/-- The test `bytes.HasPrefix(s, pat)`, pattern first. -/
def startsWith : List Char → List Char → Bool
  | [], _ => true
  | _ :: _, [] => false
  | p :: ps, c :: cs => p == c && startsWith ps cs

/-- The scan of `bytes.Replace(s, old, new, -1)` for a non-empty `old`, with
`skip` bytes of the last match still to pass over: matches are found from left
to right and do not overlap. -/
def replaceFrom (old new : List Char) : Nat → List Char → List Char
  | _, [] => []
  | skip + 1, _ :: cs => replaceFrom old new skip cs
  | 0, c :: cs =>
    if startsWith old (c :: cs) then new ++ replaceFrom old new (old.length - 1) cs
    else c :: replaceFrom old new 0 cs

/-- The call `bytes.Replace(s, old, new, -1)` for a non-empty `old`. -/
def bytesReplace (s old new : List Char) : List Char :=
  replaceFrom old new 0 s

/-- The function `MarshalIndent` (main.go 85-97). `jsonMarshalIndent` is
`json.MarshalIndent` of the standard library for the type of the payload. As in
the source, the two string arguments are not used: the library is called with
the empty string and four spaces. -/
def MarshalIndent {α : Type} (jsonMarshalIndent : α → String → String → Except String (List Char))
    (v : α) (_pfx _indent : String) : Except String (List Char) :=
  match jsonMarshalIndent v "" "    " with
  | .error err => .error err
  | .ok b =>
    let b := bytesReplace b "\\u003c".data "<".data
    let b := bytesReplace b "\\u003e".data ">".data
    let b := bytesReplace b "\\u0026".data "&".data
    let b := bytesReplace b "/".data "\\/".data
    .ok b

/-- The four replacements of `MarshalIndent`, in its order. -/
def slackEscapes (b : List Char) : List Char :=
  bytesReplace (bytesReplace (bytesReplace (bytesReplace b "\\u003c".data "<".data)
    "\\u003e".data ">".data) "\\u0026".data "&".data) "/".data "\\/".data

/-- The serialiser's output as the specification words it, following the
specification's sentence on serialisation escaping and not the code: one pass
over the text that writes `<`, `>` and `&` for their six-character escapes, the
two characters backslash and '/' for every '/', and copies every other character.
The first argument counts characters of an escape still to be passed over. -/
def specEscapesFrom : Nat → List Char → List Char
  | _, [] => []
  | skip + 1, _ :: cs => specEscapesFrom skip cs
  | 0, c :: cs =>
    if startsWith "\\u003c".data (c :: cs) then '<' :: specEscapesFrom 5 cs
    else if startsWith "\\u003e".data (c :: cs) then '>' :: specEscapesFrom 5 cs
    else if startsWith "\\u0026".data (c :: cs) then '&' :: specEscapesFrom 5 cs
    else if c = '/' then '\\' :: '/' :: specEscapesFrom 0 cs
    else c :: specEscapesFrom 0 cs

/-- The specification's escaped form of a serialised text. -/
def specEscapes (b : List Char) : List Char :=
  specEscapesFrom 0 b

/-- A lower-case hexadecimal digit. -/
def hexDigit (n : Nat) : Char :=
  "0123456789abcdef".data.getD n '0'

/-- How `encoding/json` writes one character of a string: the quote and the
backslash escaped with a backslash, newline, carriage return and tab as a
backslash with n, r, t, the other control characters and the characters
less-than, greater-than and ampersand as a backslash with u00 and two
hexadecimal digits, the line separators U+2028 and U+2029 as a backslash with
u2028 and u2029, anything else as it is. -/
def jsonEscape (c : Char) : List Char :=
  if c = '"' then ['\\', '"']
  else if c = '\\' then ['\\', '\\']
  else if c = '\n' then ['\\', 'n']
  else if c = '\r' then ['\\', 'r']
  else if c = '\t' then ['\\', 't']
  else if c.toNat < 0x20 ∨ c = '<' ∨ c = '>' ∨ c = '&' then
    ['\\', 'u', '0', '0', hexDigit (c.toNat / 16), hexDigit (c.toNat % 16)]
  else if c.toNat = 0x2028 ∨ c.toNat = 0x2029 then
    ['\\', 'u', '2', '0', '2', hexDigit (c.toNat % 16)]
  else [c]

/-- The text `encoding/json` writes for a string. -/
def jsonString (s : String) : List Char :=
  '"' :: (s.data.flatMap jsonEscape ++ ['"'])

/-- The call `json.MarshalIndent(s, pfx, indent)` on a string: a scalar is not
indented. -/
def jsonMarshalIndentString (s : String) (_pfx _indent : String) : Except String (List Char) :=
  .ok (jsonString s)

/-- Value of a hexadecimal digit. -/
def hexValue (c : Char) : Option Nat :=
  if '0' ≤ c ∧ c ≤ '9' then some (c.toNat - 48)
  else if 'a' ≤ c ∧ c ≤ 'f' then some (c.toNat - 87)
  else if 'A' ≤ c ∧ c ≤ 'F' then some (c.toNat - 55)
  else none

/-- Value of four hexadecimal digits. -/
def hex4 (a b c d : Char) : Option Nat :=
  match hexValue a, hexValue b, hexValue c, hexValue d with
  | some w, some x, some y, some z => some (((w * 16 + x) * 16 + y) * 16 + z)
  | _, _, _, _ => none

/-- The character a one-letter escape of JSON stands for. -/
def jsonUnescape (e : Char) : Option Char :=
  if e = '"' then some '"'
  else if e = '\\' then some '\\'
  else if e = '/' then some '/'
  else if e = 'b' then some (Char.ofNat 8)
  else if e = 'f' then some (Char.ofNat 12)
  else if e = 'n' then some '\n'
  else if e = 'r' then some '\r'
  else if e = 't' then some '\t'
  else none

/-- Reading the inside of a JSON string up to the closing quote, which has to
end the text (RFC 8259): `fuel` bounds the number of characters. An escaped
pair of surrogate halves is one character, a lone half reads as U+FFFD. -/
def jsonStringBody : Nat → List Char → Option (List Char)
  | 0, _ => none
  | _ + 1, [] => none
  | fuel + 1, c :: rest =>
    if c = '"' then (if rest = [] then some [] else none)
    else if c = '\\' then
      match rest with
      | [] => none
      | e :: rest₁ =>
        if e = 'u' then
          match rest₁ with
          | h₁ :: h₂ :: h₃ :: h₄ :: rest₂ =>
            match hex4 h₁ h₂ h₃ h₄ with
            | none => none
            | some n =>
              if 0xD800 ≤ n ∧ n < 0xDC00 then
                match rest₂ with
                | b :: u :: l₁ :: l₂ :: l₃ :: l₄ :: rest₃ =>
                  match (if b = '\\' ∧ u = 'u' then hex4 l₁ l₂ l₃ l₄ else none) with
                  | some m =>
                    if 0xDC00 ≤ m ∧ m < 0xE000 then
                      (jsonStringBody fuel rest₃).map
                        (fun cs => Char.ofNat (0x10000 + (n - 0xD800) * 0x400 + (m - 0xDC00)) :: cs)
                    else (jsonStringBody fuel rest₂).map (fun cs => Char.ofNat 0xFFFD :: cs)
                  | none => (jsonStringBody fuel rest₂).map (fun cs => Char.ofNat 0xFFFD :: cs)
                | _ => (jsonStringBody fuel rest₂).map (fun cs => Char.ofNat 0xFFFD :: cs)
              else if 0xDC00 ≤ n ∧ n < 0xE000 then
                (jsonStringBody fuel rest₂).map (fun cs => Char.ofNat 0xFFFD :: cs)
              else (jsonStringBody fuel rest₂).map (fun cs => Char.ofNat n :: cs)
          | _ => none
        else
          match jsonUnescape e with
          | none => none
          | some x => (jsonStringBody fuel rest₁).map (fun cs => x :: cs)
    else if c.toNat < 0x20 then none
    else (jsonStringBody fuel rest).map (fun cs => c :: cs)

/-- A JSON decoder on a text that is one string: the string it stands for, or
`none` when the text is not valid JSON. -/
def jsonDecodeString (text : List Char) : Option String :=
  match text with
  | '"' :: body => (jsonStringBody (body.length + 1) body).map String.mk
  | _ => none

/-! ## Theorems: the pagination engine -/

theorem goIndex_nil {α : Type} (i : Int) : goIndex ([] : List α) i = none := by
  unfold goIndex
  split <;> simp

theorem goIndex_last {α : Type} (xs : List α) (h : xs ≠ []) :
    goIndex xs ((xs.length : Int) - 1) = some (xs.getLast h) := by
  unfold goIndex
  have hpos : 0 < xs.length := List.length_pos.mpr h
  have h1 : ¬ ((xs.length : Int) - 1 < 0) := by omega
  have h2 : ((xs.length : Int) - 1).toNat = xs.length - 1 := by omega
  rw [if_neg h1, h2, List.getLast_eq_getElem]
  exact List.getElem?_eq_getElem _

/-- The group fetcher's loop is the channel fetcher's loop run on the client
whose channel call is the group call. -/
theorem groupHistoryLoop_eq {σ : Type} (api : Client σ) (ID : String) (fuel : Nat) :
    ∀ (hp : HistoryParameters) (h : History) (latest : String) (ms : List Message)
      (reqs : List HistoryParameters) (w : σ),
      groupHistoryLoop api ID fuel hp h latest ms reqs w =
        channelHistoryLoop ⟨api.GetGroupHistory, api.GetGroupHistory⟩ ID fuel hp h latest
          ms reqs w := by
  induction fuel with
  | zero => intro hp h latest ms reqs w; rfl
  | succ n ih =>
    intro hp h latest ms reqs w
    simp only [groupHistoryLoop, channelHistoryLoop]
    split
    · rfl
    · split
      · rfl
      · split
        · split
          · rfl
          · exact ih _ _ _ _ _ _
        · exact ih _ _ _ _ _ _

theorem fetchGroupHistory_eq {σ : Type} (api : Client σ) (ID : String) (fuel : Nat) (w : σ) :
    fetchGroupHistory api ID fuel w =
      fetchChannelHistory ⟨api.GetGroupHistory, api.GetGroupHistory⟩ ID fuel w := by
  simp only [fetchGroupHistory, fetchChannelHistory]
  split
  · rfl
  · split
    · rfl
    · exact groupHistoryLoop_eq _ _ _ _ _ _ _ _ _

theorem channelHistoryLoop_done {σ : Type} (api : Client σ) (ID : String) (fuel : Nat)
    (hp : HistoryParameters) (h : History) (latest : String) (ms : List Message)
    (reqs : List HistoryParameters) (w : σ) (hh : h.HasMore = false) :
    channelHistoryLoop api ID fuel hp h latest ms reqs w = .ok ⟨ms, reqs, w⟩ := by
  cases fuel <;> simp [channelHistoryLoop, hh]

/-- One iteration of the loop against a page the API returns. -/
theorem channelHistoryLoop_step {σ : Type} (api : Client σ) (ID : String) (fuel : Nat)
    (hp : HistoryParameters) (h : History) (latest : String) (ms : List Message)
    (reqs : List HistoryParameters) (w w' : σ) (p : History) (hh : h.HasMore = true)
    (hcall : api.GetChannelHistory ID { hp with Latest := latest } w = .ok (p, w')) :
    channelHistoryLoop api ID (fuel + 1) hp h latest ms reqs w =
      channelHistoryLoop api ID fuel { hp with Latest := latest } p
        (match p.Messages.getLast? with
          | some m => m.Timestamp
          | none => latest)
        (ms ++ p.Messages) (reqs ++ [{ hp with Latest := latest }]) w' := by
  simp only [channelHistoryLoop, hh, hcall]
  by_cases hne : p.Messages = []
  · simp [hne]
  · have hpos : 0 < p.Messages.length := List.length_pos.mpr hne
    have hlast := goIndex_last p.Messages hne
    simp only [hlast, List.getLast?_eq_getLast _ hne]
    simp [hpos]

/-- Against a script whose pages report more history up to a final page that
does not, the loop reads exactly those pages, empty or not. -/
theorem channelHistoryLoop_script (ID : String) (last : History) (extra : List History)
    (hlast : last.HasMore = false) :
    ∀ (pre : List History) (fuel : Nat) (hp : HistoryParameters) (h : History)
      (latest : String) (ms : List Message) (reqs : List HistoryParameters),
      h.HasMore = true → (∀ p ∈ pre, p.HasMore = true) → pre.length + 1 ≤ fuel →
      ∃ r, channelHistoryLoop scriptClient ID fuel hp h latest ms reqs
            (pre ++ last :: extra) = .ok r ∧
          r.messages = ms ++ pagesMessages (pre ++ [last]) ∧
          r.requests.length = reqs.length + pre.length + 1 ∧ r.world = extra := by
  intro pre
  induction pre with
  | nil =>
    intro fuel hp h latest ms reqs hh _ hfuel
    obtain ⟨n, rfl⟩ : ∃ n, fuel = n + 1 := ⟨fuel - 1, by simp at hfuel; omega⟩
    rw [List.nil_append,
      channelHistoryLoop_step scriptClient ID n hp h latest ms reqs (last :: extra) extra last
        hh rfl]
    rw [channelHistoryLoop_done _ _ _ _ _ _ _ _ _ hlast]
    exact ⟨_, rfl, by simp [pagesMessages], by simp, rfl⟩
  | cons p pre ih =>
    intro fuel hp h latest ms reqs hh hpre hfuel
    obtain ⟨n, rfl⟩ : ∃ n, fuel = n + 1 := ⟨fuel - 1, by simp at hfuel; omega⟩
    rw [List.cons_append,
      channelHistoryLoop_step scriptClient ID n hp h latest ms reqs
        (p :: (pre ++ last :: extra)) (pre ++ last :: extra) p hh rfl]
    have hp' : p.HasMore = true := hpre p (List.mem_cons_self _ _)
    have hpre' : ∀ q ∈ pre, q.HasMore = true := fun q hq => hpre q (List.mem_cons_of_mem _ hq)
    obtain ⟨r, hr, hm, hq, hw⟩ := ih n _ p _ (ms ++ p.Messages) (reqs ++ [_]) hp' hpre'
      (by simp at hfuel; omega)
    refine ⟨r, hr, ?_, ?_, hw⟩
    · rw [hm]; simp [pagesMessages]
    · rw [hq]; simp; omega

/-- Against the stuck API the loop never leaves the empty page. -/
theorem channelHistoryLoop_stuck (first : History) (ID : String) (fuel : Nat) :
    ∀ (hp : HistoryParameters) (h : History) (latest : String) (ms : List Message)
      (reqs : List HistoryParameters) (n : Nat), h.HasMore = true →
      channelHistoryLoop (stuckClient first) ID fuel hp h latest ms reqs (n + 1) =
        .diverge := by
  induction fuel with
  | zero => intro hp h latest ms reqs n hh; simp [channelHistoryLoop, hh]
  | succ k ih =>
    intro hp h latest ms reqs n hh
    rw [channelHistoryLoop_step (stuckClient first) ID k hp h latest ms reqs (n + 1) (n + 2)
      { Latest := "", Messages := [], HasMore := true } hh rfl]
    exact ih _ _ _ _ _ _ rfl

theorem fetchChannelHistory_script_single (ID : String) (first : History)
    (extra : List History) (fuel : Nat) (hne : first.Messages ≠ [])
    (hh : first.HasMore = false) :
    fetchChannelHistory scriptClient ID fuel (first :: extra) =
      .ok ⟨first.Messages, [{ NewHistoryParameters with Count := 1000 }], extra⟩ := by
  simp only [fetchChannelHistory, scriptClient, scriptCall, goIndex_last _ hne]
  exact channelHistoryLoop_done _ _ _ _ _ _ _ _ _ hh

theorem fetchChannelHistory_script_multi (ID : String) (first : History)
    (mid : List History) (last : History) (extra : List History) (fuel : Nat)
    (hne : first.Messages ≠ []) (hfirst : first.HasMore = true)
    (hmid : ∀ p ∈ mid, p.HasMore = true) (hlast : last.HasMore = false)
    (hfuel : mid.length + 1 ≤ fuel) :
    ∃ r, fetchChannelHistory scriptClient ID fuel (first :: (mid ++ last :: extra)) = .ok r ∧
      r.messages = pagesMessages (first :: (mid ++ [last])) ∧
      r.requests.length = mid.length + 2 ∧ r.world = extra := by
  simp only [fetchChannelHistory, scriptClient, scriptCall, goIndex_last _ hne]
  obtain ⟨r, hr, hm, hq, hw⟩ := channelHistoryLoop_script ID last extra hlast mid fuel
    { NewHistoryParameters with Count := 1000 } first (first.Messages.getLast hne).Timestamp
    first.Messages [{ NewHistoryParameters with Count := 1000 }] hfirst hmid hfuel
  refine ⟨r, hr, ?_, ?_, hw⟩
  · rw [hm]; simp [pagesMessages]
  · rw [hq]; simp; omega

/-- C1 (code defect): when the first history page of a room carries no message,
whatever its `HasMore` flag, `fetchChannelHistory` and `fetchGroupHistory` do not
return the empty list: the unguarded `messages[len(messages)-1]` aborts the run
with an index out of range. -/
theorem fetchHistory_empty_first_page_panics {σ : Type} (api : Client σ) (ID : String)
    (fuel : Nat) (w w' : σ) (page : History) (hempty : page.Messages = []) :
    (api.GetChannelHistory ID { NewHistoryParameters with Count := 1000 } w = .ok (page, w') →
        fetchChannelHistory api ID fuel w = .panic .indexOutOfRange) ∧
      (api.GetGroupHistory ID { NewHistoryParameters with Count := 1000 } w = .ok (page, w') →
        fetchGroupHistory api ID fuel w = .panic .indexOutOfRange) := by
  constructor
  · intro hcall
    simp [fetchChannelHistory, hcall, hempty, goIndex_nil]
  · intro hcall
    simp [fetchGroupHistory, hcall, hempty, goIndex_nil]

theorem fetchHistory_empty_first_page_panics_witness :
    fetchChannelHistory scriptClient "C024BE91L" 10 [emptyPageDone] = .panic .indexOutOfRange ∧
      fetchGroupHistory scriptClient "G024BE91L" 10 [emptyPageMore] = .panic .indexOutOfRange :=
  ⟨(fetchHistory_empty_first_page_panics scriptClient "C024BE91L" 10 [emptyPageDone] []
      emptyPageDone rfl).1 rfl,
   (fetchHistory_empty_first_page_panics scriptClient "G024BE91L" 10 [emptyPageMore] []
      emptyPageMore rfl).2 rfl⟩

/-- C2 as stated fails: on the pages `gapPages` the second page is empty and
reports more history, yet both fetchers issue a third fetch and return the
messages of the first and of the third page, not the messages accumulated when
the empty page arrived. -/
theorem fetchHistory_fetches_after_empty_page :
    (∃ r, fetchChannelHistory scriptClient "C024BE91L" 10 gapPages = .ok r ∧
        r.requests.length = 3 ∧ r.world = [] ∧
        r.messages = [msgAt "1000000003.0", msgAt "1000000002.0", msgAt "1000000001.0"] ∧
        r.messages ≠ [msgAt "1000000003.0", msgAt "1000000002.0"]) ∧
      (∃ r, fetchGroupHistory scriptClient "G024BE91L" 10 gapPages = .ok r ∧
        r.requests.length = 3 ∧ r.world = [] ∧
        r.messages = [msgAt "1000000003.0", msgAt "1000000002.0", msgAt "1000000001.0"] ∧
        r.messages ≠ [msgAt "1000000003.0", msgAt "1000000002.0"]) :=
  ⟨⟨_, rfl, rfl, rfl, rfl, by decide⟩, ⟨_, rfl, rfl, rfl, rfl, by decide⟩⟩

/-- C2 (amended): an empty page does not end the loop, only a page with
`HasMore = false` does. Against pages `first, mid.., last` where `first` is
non-empty, `first` and every page of `mid` report more history and `last` does
not, both fetchers issue exactly one fetch per page, empty pages included, and
return the messages of all these pages in order; and against an API that, after a
first page, keeps answering with an empty page and `HasMore = true`, the loop of
both fetchers never returns, whatever the number of iterations allowed. -/
theorem fetchHistory_stops_only_on_hasMore_false (ID : String) (first : History)
    (mid : List History) (last : History) (extra : List History) (fuel : Nat)
    (hne : first.Messages ≠ []) (hfirst : first.HasMore = true)
    (hmid : ∀ p ∈ mid, p.HasMore = true) (hlast : last.HasMore = false)
    (hfuel : mid.length + 1 ≤ fuel) :
    (∃ r, fetchChannelHistory scriptClient ID fuel (first :: (mid ++ last :: extra)) = .ok r ∧
        r.messages = pagesMessages (first :: (mid ++ [last])) ∧
        r.requests.length = mid.length + 2 ∧ r.world = extra) ∧
      (∃ r, fetchGroupHistory scriptClient ID fuel (first :: (mid ++ last :: extra)) = .ok r ∧
        r.messages = pagesMessages (first :: (mid ++ [last])) ∧
        r.requests.length = mid.length + 2 ∧ r.world = extra) ∧
      (∀ n, fetchChannelHistory (stuckClient first) ID n 0 = .diverge) ∧
      (∀ n, fetchGroupHistory (stuckClient first) ID n 0 = .diverge) := by
  have hstuck : ∀ n, fetchChannelHistory (stuckClient first) ID n 0 = .diverge := by
    intro n
    simp only [fetchChannelHistory, stuckClient, stuckCall, goIndex_last _ hne]
    exact channelHistoryLoop_stuck first ID n _ _ _ _ _ 0 hfirst
  refine ⟨fetchChannelHistory_script_multi ID first mid last extra fuel hne hfirst hmid hlast
    hfuel, ?_, hstuck, ?_⟩
  · rw [fetchGroupHistory_eq]
    exact fetchChannelHistory_script_multi ID first mid last extra fuel hne hfirst hmid hlast
      hfuel
  · intro n
    rw [fetchGroupHistory_eq]
    exact hstuck n

theorem fetchHistory_stops_only_on_hasMore_false_witness :
    (∃ r, fetchChannelHistory scriptClient "C024BE91L" 2
          (newerPage :: ([emptyPageMore] ++ emptyPageDone :: [])) = .ok r ∧
        r.messages = pagesMessages (newerPage :: ([emptyPageMore] ++ [emptyPageDone])) ∧
        r.requests.length = [emptyPageMore].length + 2 ∧ r.world = []) ∧
      (∀ n, fetchChannelHistory (stuckClient newerPage) "C024BE91L" n 0 = .diverge) :=
  have h := fetchHistory_stops_only_on_hasMore_false "C024BE91L" newerPage [emptyPageMore]
    emptyPageDone [] 2 (by decide) rfl
    (by intro p hp; rw [List.mem_singleton] at hp; rw [hp]; rfl) rfl (by decide)
  ⟨h.1, h.2.2.1⟩

/-- C3: for non-empty pages `p1..pn` (here `pre ++ [last]`) with `HasMore` true on
all but the last and false on the last, `fetchChannelHistory` performs exactly `n`
fetches (it sends `n` requests and consumes exactly these pages) and returns
`p1 ++ ... ++ pn` in the order received, whose length is the sum of the page
lengths. -/
theorem fetchChannelHistory_concatenates_pages (ID : String) (pre : List History)
    (last : History) (extra : List History) (fuel : Nat)
    (hne : ∀ p ∈ pre ++ [last], p.Messages ≠ []) (hmore : ∀ p ∈ pre, p.HasMore = true)
    (hlast : last.HasMore = false) (hfuel : pre.length ≤ fuel) :
    ∃ r, fetchChannelHistory scriptClient ID fuel (pre ++ last :: extra) = .ok r ∧
      r.messages = pagesMessages (pre ++ [last]) ∧
      r.requests.length = (pre ++ [last]).length ∧ r.world = extra ∧
      r.messages.length = ((pre ++ [last]).map (fun p => p.Messages.length)).sum := by
  have hlen : ∀ ps : List History,
      (pagesMessages ps).length = (ps.map (fun p => p.Messages.length)).sum := by
    intro ps
    induction ps with
    | nil => rfl
    | cons p ps ih => simp [pagesMessages] at ih ⊢; omega
  cases pre with
  | nil =>
    have h1 : last.Messages ≠ [] := hne last (by simp)
    rw [List.nil_append, fetchChannelHistory_script_single ID last extra fuel h1 hlast]
    exact ⟨_, rfl, by simp [pagesMessages], rfl, rfl, by simp⟩
  | cons first mid =>
    have h1 : first.Messages ≠ [] := hne first (by simp)
    obtain ⟨r, hr, hm, hq, hw⟩ := fetchChannelHistory_script_multi ID first mid last extra fuel
      h1 (hmore first (by simp)) (fun p hp => hmore p (List.mem_cons_of_mem _ hp)) hlast
      (by simpa using hfuel)
    refine ⟨r, hr, hm, ?_, hw, ?_⟩
    · rw [hq]; simp
    · rw [hm]; exact hlen _

theorem fetchChannelHistory_concatenates_pages_witness :
    ∃ r, fetchChannelHistory scriptClient "C024BE91L" 1 ([newerPage] ++ oldestPage :: []) = .ok r ∧
      r.messages = pagesMessages ([newerPage] ++ [oldestPage]) ∧
      r.requests.length = ([newerPage] ++ [oldestPage]).length ∧ r.world = [] ∧
      r.messages.length =
        (([newerPage] ++ [oldestPage]).map (fun p => p.Messages.length)).sum :=
  fetchChannelHistory_concatenates_pages "C024BE91L" [newerPage] oldestPage [] 1
    (by decide) (by decide) rfl (by decide)

/-! ## Theorems: the history orderer -/

theorem stringLess_iff (a b : String) : stringLess a b = true ↔ a < b := by
  unfold stringLess
  rw [decide_eq_true_iff, String.lt_iff_toList_lt]
  rfl

theorem stringLess_eq_false_iff (a b : String) : stringLess a b = false ↔ b ≤ a := by
  rw [← Bool.not_eq_true, stringLess_iff, not_lt]

/-- `Swap` only rearranges the slice. -/
theorem byTimestamp.Swap_perm {m m' : byTimestamp} {i j : Nat}
    (h : byTimestamp.Swap m i j = some m') : List.Perm m' m := by
  unfold byTimestamp.Swap at h
  split at h
  · rename_i a b ha hb
    cases h
    obtain ⟨hi, hia⟩ := List.getElem?_eq_some.mp ha
    obtain ⟨hj, hjb⟩ := List.getElem?_eq_some.mp hb
    have hj' : j < (m.set i b).length := by simpa using hj
    have hset : (m.set i b)[j] = b := by
      rw [List.getElem_set]
      split
      · rfl
      · exact hjb
    rw [List.perm_iff_count]
    intro x
    rw [List.count_set _ _ _ _ hj', List.count_set _ _ _ _ hi, hset, hia]
    have hmem : a ∈ m := hia ▸ List.getElem_mem hi
    have hcount : 1 ≤ List.count a m := List.count_pos_iff.mpr hmem
    clear hset hj' hia hjb ha hb
    by_cases hax : a = x
    · subst hax
      by_cases hbx : b = a
      · subst hbx
        simp only [beq_self_eq_true, if_true]
        omega
      · have hbx' : (b == a) = false := by simpa using hbx
        simp only [beq_self_eq_true, if_true, hbx', Bool.false_eq_true, if_false]
        omega
    · have hax' : (a == x) = false := by simpa using hax
      by_cases hbx : b = x
      · subst hbx
        simp only [beq_self_eq_true, if_true, hax', Bool.false_eq_true, if_false]
        omega
      · have hbx' : (b == x) = false := by simpa using hbx
        simp only [hax', hbx', Bool.false_eq_true, if_false]
        omega
  · cases h

/-- A sorting program only rearranges the slice. -/
theorem SortProg.run_perm (p : SortProg) :
    ∀ {m m' : byTimestamp}, p.run m = some m' → List.Perm m' m := by
  induction p with
  | done =>
    intro m m' h
    simp only [SortProg.run, Option.some.injEq] at h
    exact h ▸ List.Perm.refl _
  | swap i j next ih =>
    intro m m' h
    simp only [SortProg.run] at h
    split at h
    · cases h
    · rename_i m1 hs
      exact (ih h).trans (byTimestamp.Swap_perm hs)
  | less i j next ih =>
    intro m m' h
    simp only [SortProg.run] at h
    split at h
    · cases h
    · rename_i b _
      exact ih b h

theorem sortSort_perm {alg : Nat → SortProg} {m m' : byTimestamp}
    (h : sortSort alg m = some m') : List.Perm m' m :=
  SortProg.run_perm _ h

/-- Under the contract of `sort.Sort` the result is non-decreasing by the raw
timestamp. -/
theorem sortSort_sorted {alg : Nat → SortProg} (hc : SortContract alg) (m : byTimestamp) :
    ∃ m', sortSort alg m = some m' ∧ SortedByTimestamp m' ∧ List.Perm m' m := by
  obtain ⟨m', hrun, hless⟩ := hc m
  refine ⟨m', hrun, ?_, sortSort_perm hrun⟩
  unfold SortedByTimestamp
  rw [List.pairwise_iff_getElem]
  intro i j hi hj hij
  have h := hless i j hij hj
  simp only [byTimestamp.Less, List.getElem?_eq_getElem hi, List.getElem?_eq_getElem hj,
    Option.some.injEq] at h
  exact (stringLess_eq_false_iff _ _).mp h

theorem SortedByTimestamp.timestamps {m : List Message} (h : SortedByTimestamp m) :
    (m.map (fun x => x.Timestamp)).Sorted (· ≤ ·) := by
  unfold SortedByTimestamp at h
  unfold List.Sorted
  rw [List.pairwise_map]
  exact h

/-- Two sorted arrangements of the same messages carry the same sequence of
timestamps. -/
theorem sorted_timestamps_unique {m₁ m₂ : List Message} (h₁ : SortedByTimestamp m₁)
    (h₂ : SortedByTimestamp m₂) (hp : List.Perm m₁ m₂) :
    m₁.map (fun x => x.Timestamp) = m₂.map (fun x => x.Timestamp) :=
  List.eq_of_perm_of_sorted (hp.map _) h₁.timestamps h₂.timestamps

theorem getElem?_adjacent (init post : List Message) (x y : Message) :
    (init ++ y :: x :: post)[init.length]? = some y ∧
      (init ++ y :: x :: post)[init.length + 1]? = some x := by
  induction init with
  | nil => simp
  | cons a init ih => simpa using ih

theorem Less_adjacent (init post : List Message) (x y : Message) :
    byTimestamp.Less (init ++ y :: x :: post) (init.length + 1) init.length =
      some (stringLess x.Timestamp y.Timestamp) := by
  obtain ⟨h0, h1⟩ := getElem?_adjacent init post x y
  simp only [byTimestamp.Less, h0, h1]

theorem Swap_adjacent (init post : List Message) (x y : Message) :
    byTimestamp.Swap (init ++ y :: x :: post) (init.length + 1) init.length =
      some (init ++ x :: y :: post) := by
  obtain ⟨h0, h1⟩ := getElem?_adjacent init post x y
  simp only [byTimestamp.Swap, h0, h1]
  induction init with
  | nil => rfl
  | cons a init ih =>
    have h := ih (getElem?_adjacent init post x y).1 (getElem?_adjacent init post x y).2
    simp only [Option.some.injEq] at h ⊢
    simp [h]

/-- The inner loop of insertion sort puts the element after a sorted run of
length `j` into place. -/
theorem insertInner_run (next : SortProg) :
    ∀ (j : Nat) (pre post : List Message) (x : Message), pre.length = j →
      SortedByTimestamp pre →
      ∃ pre', pre'.length = j + 1 ∧ SortedByTimestamp pre' ∧ List.Perm pre' (x :: pre) ∧
        (insertInner next j).run (pre ++ x :: post) = next.run (pre' ++ post) := by
  intro j
  induction j with
  | zero =>
    intro pre post x hlen _
    have hnil : pre = [] := List.length_eq_zero.mp hlen
    subst hnil
    exact ⟨[x], rfl, List.pairwise_singleton _ _, List.Perm.refl _, rfl⟩
  | succ j ih =>
    intro pre post x hlen hsorted
    have hne : pre ≠ [] := by
      intro h
      rw [h] at hlen
      cases hlen
    obtain ⟨init, y, rfl⟩ : ∃ init y, pre = init ++ [y] :=
      ⟨pre.dropLast, pre.getLast hne, (List.dropLast_append_getLast hne).symm⟩
    have hinit : init.length = j := by simpa using hlen
    have hs := hsorted
    unfold SortedByTimestamp at hs
    rw [List.pairwise_append] at hs
    obtain ⟨hs1, _, hs3⟩ := hs
    simp only [insertInner, SortProg.run, List.append_assoc, List.singleton_append]
    rw [← hinit, Less_adjacent]
    by_cases hxy : stringLess x.Timestamp y.Timestamp = true
    · simp only [hxy, if_true, SortProg.run, Swap_adjacent]
      obtain ⟨p', hp1, hp2, hp3, hp4⟩ := ih init (y :: post) x hinit hs1
      rw [hinit, hp4]
      refine ⟨p' ++ [y], by simp [hp1], ?_, ?_, by simp⟩
      · unfold SortedByTimestamp
        rw [List.pairwise_append]
        refine ⟨hp2, List.pairwise_singleton _ _, ?_⟩
        intro a ha b hb
        rw [List.mem_singleton] at hb
        subst hb
        rcases List.mem_cons.mp (hp3.subset ha) with rfl | hmem
        · exact le_of_lt ((stringLess_iff _ _).mp hxy)
        · exact hs3 a hmem b (List.mem_singleton_self _)
      · exact hp3.append_right _
    · have hyx : y.Timestamp ≤ x.Timestamp :=
        (stringLess_eq_false_iff _ _).mp (by simpa using hxy)
      simp only [hxy, SortProg.run]
      refine ⟨init ++ [y] ++ [x], by simp [hinit], ?_, ?_, by simp⟩
      · unfold SortedByTimestamp
        rw [List.pairwise_append]
        refine ⟨hsorted, List.pairwise_singleton _ _, ?_⟩
        intro a ha b hb
        rw [List.mem_singleton] at hb
        subst hb
        rcases List.mem_append.mp ha with hmem | hmem
        · exact le_trans (hs3 a hmem y (List.mem_singleton_self _)) hyx
        · rw [List.mem_singleton] at hmem
          subst hmem
          exact hyx
      · exact List.perm_append_singleton _ _

theorem insertionSortFrom_run :
    ∀ (count : Nat) (pre post : List Message), post.length = count → SortedByTimestamp pre →
      ∃ out, (insertionSortFrom count pre.length).run (pre ++ post) = some out ∧
        SortedByTimestamp out := by
  intro count
  induction count with
  | zero =>
    intro pre post hlen hs
    have hnil : post = [] := List.length_eq_zero.mp hlen
    subst hnil
    exact ⟨pre, by simp [insertionSortFrom, SortProg.run], hs⟩
  | succ count ih =>
    intro pre post hlen hs
    cases post with
    | nil => cases hlen
    | cons x post =>
      obtain ⟨pre', h1, h2, _, h4⟩ :=
        insertInner_run (insertionSortFrom count (pre.length + 1)) pre.length pre post x rfl hs
      obtain ⟨out, ho1, ho2⟩ := ih pre' post (by simpa using hlen) h2
      rw [h1] at ho1
      exact ⟨out, by rw [insertionSortFrom, h4, ho1], ho2⟩

/-- Insertion sort meets the contract of `sort.Sort`. -/
theorem insertionSort_contract : SortContract insertionSort := by
  intro m
  have key : ∃ out, sortSort insertionSort m = some out ∧ SortedByTimestamp out := by
    cases m with
    | nil => exact ⟨[], rfl, List.Pairwise.nil⟩
    | cons x tl =>
      have h := insertionSortFrom_run tl.length [x] tl rfl (List.pairwise_singleton _ _)
      simpa [sortSort, insertionSort, byTimestamp.Len] using h
  obtain ⟨out, h1, h2⟩ := key
  refine ⟨out, h1, ?_⟩
  intro i j hij hj
  have hj' : j < out.length := hj
  have hi' : i < out.length := by omega
  unfold SortedByTimestamp at h2
  rw [List.pairwise_iff_getElem] at h2
  have hle := h2 i j hi' hj' hij
  simp only [byTimestamp.Less, List.getElem?_eq_getElem hi', List.getElem?_eq_getElem hj',
    Option.some.injEq]
  exact (stringLess_eq_false_iff _ _).mpr hle


/-! ## Theorems: the calendar and the day file names -/

theorem Date.lt_irrefl (a : Date) : ¬ Date.lt a a := by
  unfold Date.lt
  omega

theorem Date.lt_trans {a b c : Date} (h₁ : Date.lt a b) (h₂ : Date.lt b c) : Date.lt a c := by
  unfold Date.lt at *
  omega

theorem nextDay_lt (d : Date) : Date.lt d (nextDay d) := by
  unfold nextDay Date.lt
  split_ifs <;> simp

theorem prevDay_lt (d : Date) : Date.lt (prevDay d) d := by
  unfold prevDay Date.lt
  split_ifs <;> simp <;> omega

theorem civil_lt_succ (z : Int) : Date.lt (civil z) (civil (z + 1)) := by
  cases z with
  | ofNat n =>
    have h : (Int.ofNat n + 1 : Int) = Int.ofNat (n + 1) := rfl
    rw [h]
    simp only [civil, Function.iterate_succ_apply']
    exact nextDay_lt _
  | negSucc n =>
    cases n with
    | zero => exact prevDay_lt _
    | succ k =>
      have h : (Int.negSucc (k + 1) + 1 : Int) = Int.negSucc k := rfl
      rw [h]
      simp only [civil, Function.iterate_succ_apply']
      exact prevDay_lt _

theorem civil_lt_add (a : Int) (n : Nat) : Date.lt (civil a) (civil (a + 1 + n)) := by
  induction n with
  | zero => simpa using civil_lt_succ a
  | succ n ih =>
    have h : a + 1 + ((n + 1 : Nat) : Int) = (a + 1 + n) + 1 := by push_cast; ring
    rw [h]
    exact Date.lt_trans ih (civil_lt_succ _)

/-- Later days have later dates. -/
theorem civil_strictMono {a b : Int} (h : a < b) : Date.lt (civil a) (civil b) := by
  have hb : b = a + 1 + ((b - a - 1).toNat : Int) := by omega
  rw [hb]
  exact civil_lt_add a _

theorem civil_injective {a b : Int} (h : civil a = civil b) : a = b := by
  rcases lt_trichotomy a b with hab | hab | hab
  · exact absurd (h ▸ civil_strictMono hab) (Date.lt_irrefl _)
  · exact hab
  · exact absurd (h ▸ civil_strictMono hab) (Date.lt_irrefl _)

theorem daysIn_bounds (y : Int) (m : Nat) : 28 ≤ daysIn y m ∧ daysIn y m ≤ 31 := by
  unfold daysIn
  split_ifs <;> omega

theorem daysIn_december (y : Int) : daysIn y 12 = 31 := by
  simp [daysIn]

theorem nextDay_valid {d : Date} (h : d.valid) : (nextDay d).valid := by
  unfold Date.valid at *
  unfold nextDay
  split_ifs
  · simp only; omega
  · have := daysIn_bounds d.Year (d.Month + 1)
    simp only; omega
  · have := daysIn_bounds (d.Year + 1) 1
    simp only; omega

theorem prevDay_valid {d : Date} (h : d.valid) : (prevDay d).valid := by
  unfold Date.valid at *
  unfold prevDay
  split_ifs
  · simp only; omega
  · have := daysIn_bounds d.Year (d.Month - 1)
    simp only; omega
  · simp only [daysIn_december]; omega

theorem civil_valid (z : Int) : (civil z).valid := by
  have h0 : Date.valid { Year := 1970, Month := 1, Day := 1 } := by
    simp [Date.valid, daysIn]
  cases z with
  | ofNat n =>
    simp only [civil]
    induction n with
    | zero => exact h0
    | succ n ih => rw [Function.iterate_succ_apply']; exact nextDay_valid ih
  | negSucc n =>
    simp only [civil]
    induction n with
    | zero => exact prevDay_valid h0
    | succ n ih => rw [Function.iterate_succ_apply']; exact prevDay_valid ih

theorem civil_inRange (z : Int) : (civil z).inRange := by
  have h := civil_valid z
  have hb := daysIn_bounds (civil z).Year (civil z).Month
  unfold Date.valid at h
  unfold Date.inRange
  omega

theorem digitValue_digit (d : Nat) (h : d < 10) :
    digitValue (Char.ofNat ('0'.toNat + d)) = some d := by
  interval_cases d <;> rfl

theorem parseDigits_append (xs ys : List Char) :
    ∀ acc, parseDigits (xs ++ ys) acc = (parseDigits xs acc).bind (parseDigits ys) := by
  induction xs with
  | nil => intro acc; rfl
  | cons c cs ih =>
    intro acc
    simp only [List.cons_append, parseDigits]
    cases digitValue c with
    | none => rfl
    | some d => exact ih _

theorem parseDigits_decimalDigits :
    ∀ (fuel n : Nat), n < 10 ^ fuel → parseDigits (decimalDigits fuel n) 0 = some n := by
  intro fuel
  induction fuel with
  | zero => intro n h; simp at h; subst h; rfl
  | succ fuel ih =>
    intro n h
    unfold decimalDigits
    split_ifs with hn
    · simp only [parseDigits, digitValue_digit n hn, Nat.zero_mul, Nat.zero_add]
    · have hdiv : n / 10 < 10 ^ fuel := by
        rw [Nat.div_lt_iff_lt_mul (by norm_num)]
        rw [pow_succ] at h
        exact h
      rw [parseDigits_append, ih _ hdiv]
      simp only [Option.bind, parseDigits, digitValue_digit (n % 10) (Nat.mod_lt _ (by norm_num))]
      congr 1
      omega

theorem parseDigits_formatNat (n : Nat) : parseDigits (formatNat n) 0 = some n := by
  apply parseDigits_decimalDigits
  calc n < 10 ^ n := Nat.lt_pow_self (by norm_num) n
    _ ≤ 10 ^ (n + 1) := Nat.pow_le_pow_right (by norm_num) (Nat.le_succ n)

theorem formatNat_injective {a b : Nat} (h : formatNat a = formatNat b) : a = b := by
  have ha := parseDigits_formatNat a
  rw [h, parseDigits_formatNat] at ha
  exact (Option.some.inj ha).symm

theorem formatNat_head (n : Nat) : ∃ c cs, formatNat n = c :: cs ∧ c ≠ '-' := by
  have hp := parseDigits_formatNat n
  cases hf : formatNat n with
  | nil =>
    exfalso
    rw [hf] at hp
    simp only [parseDigits, Option.some.injEq] at hp
    subst hp
    exact absurd hf (by decide)
  | cons c cs =>
    refine ⟨c, cs, rfl, ?_⟩
    rintro rfl
    rw [hf] at hp
    simp [parseDigits, digitValue] at hp

theorem formatInt_injective {a b : Int} (h : formatInt a = formatInt b) : a = b := by
  unfold formatInt at h
  obtain ⟨ca, csa, hfa, hca⟩ := formatNat_head a.toNat
  obtain ⟨cb, csb, hfb, hcb⟩ := formatNat_head b.toNat
  split_ifs at h with ha hb hb
  · have := formatNat_injective (List.cons.inj h).2
    omega
  · rw [hfb] at h
    exact absurd (List.cons.inj h).1.symm hcb
  · rw [hfa] at h
    exact absurd (List.cons.inj h).1 hca
  · have := formatNat_injective h
    omega

theorem formatPad2_length : ∀ n < 32, (formatPad2 n).length = 2 := by
  decide

theorem formatPad2_injective : ∀ a < 32, ∀ b < 32, formatPad2 a = formatPad2 b → a = b := by
  decide

/-- Different dates get different file names. -/
theorem dayFilename_injective {a b : Date} (ha : a.inRange) (hb : b.inRange)
    (h : dayFilename a = dayFilename b) : a = b := by
  unfold Date.inRange at ha hb
  have hma := formatPad2_length a.Month (by omega)
  have hmb := formatPad2_length b.Month (by omega)
  have hda := formatPad2_length a.Day (by omega)
  have hdb := formatPad2_length b.Day (by omega)
  unfold dayFilename at h
  have hdata := congrArg String.data h
  obtain ⟨hy, hrest⟩ := List.append_inj' hdata (by simp [hma, hmb, hda, hdb])
  obtain ⟨hm, hrest⟩ := List.append_inj (List.cons.inj hrest).2 (by rw [hma, hmb])
  obtain ⟨hd, _⟩ := List.append_inj (List.cons.inj hrest).2 (by rw [hda, hdb])
  have h1 := formatInt_injective hy
  have h2 := formatPad2_injective a.Month (by omega) b.Month (by omega) hm
  have h3 := formatPad2_injective a.Day (by omega) b.Day (by omega) hd
  cases a
  cases b
  simp only at h1 h2 h3
  subst h1 h2 h3
  rfl

theorem dayFilename_ne_empty (d : Date) : dayFilename d ≠ "" := by
  unfold dayFilename
  intro h
  have hdata := congrArg String.data h
  simp at hdata


/-! ## Theorems: the day partitioner -/

theorem parseTimestamp_loc (loc : Int) (ts : String) :
    parseTimestamp loc ts =
      match parseTimestamp 0 ts with
      | .ok (some t) => .ok (some { unix := t.unix, offset := loc })
      | .ok none => .ok none
      | .panic f => .panic f
      | .diverge => .diverge := by
  unfold parseTimestamp
  by_cases h1 : ts.length ≤ 0
  · rw [if_pos h1, if_pos h1]
  · rw [if_neg h1, if_neg h1]
    by_cases h2 : ts.data.contains '.' = true
    · rw [if_pos h2, if_pos h2]
      by_cases h3 : (stringsSplit '.' ts.data).length ≠ 2
      · simp only [if_pos h3]
      · simp only [if_neg h3]
        cases ParseInt ((stringsSplit '.' ts.data).headD []) <;> rfl
    · rw [if_neg h2, if_neg h2]
      cases ParseInt ts.data <;> rfl

theorem parseTimestamp_of_parses {ts : String} (h : timestampParses ts = true) (loc : Int) :
    ∃ i, parseTimestamp loc ts = .ok (some { unix := i, offset := loc }) := by
  rw [parseTimestamp_loc]
  unfold timestampParses at h
  split at h
  · rename_i t ht
    exact ⟨t.unix, by rw [ht]⟩
  · cases h

theorem parseTimestamp_ne_diverge (loc : Int) (ts : String) :
    parseTimestamp loc ts ≠ .diverge := by
  rw [parseTimestamp_loc]
  unfold parseTimestamp
  by_cases h1 : ts.length ≤ 0
  · rw [if_pos h1]; simp
  · rw [if_neg h1]
    by_cases h2 : ts.data.contains '.' = true
    · rw [if_pos h2]
      by_cases h3 : (stringsSplit '.' ts.data).length ≠ 2
      · simp only [if_pos h3]; simp
      · simp only [if_neg h3]
        cases ParseInt ((stringsSplit '.' ts.data).headD []) <;> simp
    · rw [if_neg h2]
      cases ParseInt ts.data <;> simp

theorem messageFilename_of_parse {loc : Int} {m : Message} {t : Time}
    (h : parseTimestamp loc m.Timestamp = .ok (some t)) :
    messageFilename loc m = some (dayFilename t.date) := by
  simp [messageFilename, messageDate, h]

/-- One round of the loop on a message whose timestamp parses. -/
theorem partitionLoop_cons (loc : Int) (dir name : String) (m : Message) (rest : List Message)
    (cf : String) (cm : List Message) (calls : List WriteCall) (t : Time)
    (h : parseTimestamp loc m.Timestamp = .ok (some t)) :
    partitionLoop loc dir name (m :: rest) cf cm calls =
      if cf = dayFilename t.date then
        partitionLoop loc dir name rest cf (cm ++ [m]) calls
      else
        partitionLoop loc dir name rest (dayFilename t.date) [m]
          (calls ++ [{ messages := cm, dir := dir, name := name, filename := cf }]) := by
  simp only [partitionLoop, h]
  have heta : ({ Year := t.Year, Month := t.Month, Day := t.Day } : Date) = t.date := rfl
  rw [heta]
  by_cases hcf : cf = dayFilename t.date
  · simp [hcf]
  · simp [hcf]

/-- The loop returns on messages whose timestamps all parse, and its flushes
satisfy `Flushed`. -/
theorem partitionLoop_flushed (loc : Int) (dir name : String) :
    ∀ (msgs : List Message) (cf : String) (cm : List Message) (calls : List WriteCall),
      (∀ m ∈ msgs, timestampParses m.Timestamp = true) →
      ∃ cf' cm' calls', partitionLoop loc dir name msgs cf cm calls =
          .ok (cf', cm', calls ++ calls') ∧
        Flushed loc dir name cf cm msgs
          (calls' ++ [{ messages := cm', dir := dir, name := name, filename := cf' }]) := by
  intro msgs
  induction msgs with
  | nil =>
    intro cf cm calls _
    refine ⟨cf, cm, [], by simp [partitionLoop], ?_⟩
    refine ⟨by simp, ⟨_, [], rfl, rfl, ?_, ?_, ?_⟩, by simp, by simp⟩
    · intro x hx; exact Or.inl hx
    · intro h; exact h
    · intro c hc; cases hc
  | cons m rest ih =>
    intro cf cm calls hall
    obtain ⟨i, hparse⟩ := parseTimestamp_of_parses (hall m (List.mem_cons_self _ _)) loc
    have hrest : ∀ x ∈ rest, timestampParses x.Timestamp = true :=
      fun x hx => hall x (List.mem_cons_of_mem _ hx)
    have hfile := messageFilename_of_parse hparse
    rw [partitionLoop_cons loc dir name m rest cf cm calls _ hparse]
    split_ifs with hcf
    · obtain ⟨cf', cm', calls', hrun, hcat, ⟨b, tl, hb, hbf, hbm, hbne, htl⟩, hchain, hdir⟩ :=
        ih cf (cm ++ [m]) calls hrest
      refine ⟨cf', cm', calls', hrun, by simpa using hcat, ⟨b, tl, hb, hbf, ?_, ?_, htl⟩,
        hchain, hdir⟩
      · intro x hx
        rcases hbm x hx with hmem | hkey
        · rcases List.mem_append.mp hmem with h1 | h1
          · exact Or.inl h1
          · rw [List.mem_singleton] at h1
            subst h1
            exact Or.inr (by rw [hfile, hcf])
        · exact Or.inr hkey
      · intro _
        exact hbne (by simp)
    · obtain ⟨cf', cm', calls', hrun, hcat, ⟨b, tl, hb, hbf, hbm, hbne, htl⟩, hchain, hdir⟩ :=
        ih (dayFilename ({ unix := i, offset := loc } : Time).date) [m]
          (calls ++ [{ messages := cm, dir := dir, name := name, filename := cf }]) hrest
      refine ⟨cf', cm', { messages := cm, dir := dir, name := name, filename := cf } :: calls',
        by simpa using hrun, ?_,
        ⟨(⟨cm, dir, name, cf⟩ : WriteCall), calls' ++ [(⟨cm', dir, name, cf'⟩ : WriteCall)],
          List.cons_append _ _ _, rfl, ?_, ?_, ?_⟩, ?_, ?_⟩
      · simp only [List.cons_append, List.flatMap_cons, hcat]
        simp
      · intro x hx; exact Or.inl hx
      · intro h; exact h
      · intro c hc
        rw [hb] at hc
        rcases List.mem_cons.mp hc with rfl | hc'
        · refine ⟨hbne (by simp), ?_⟩
          intro x hx
          rcases hbm x hx with hmem | hkey
          · rw [List.mem_singleton] at hmem
            subst hmem
            rw [hfile, hbf]
          · rw [hkey, hbf]
        · exact htl c hc'
      · rw [List.cons_append, hb]
        rw [hb] at hchain
        refine List.Chain'.cons ?_ hchain
        simp only [hbf]
        exact hcf
      · intro c hc
        rw [List.cons_append] at hc
        rcases List.mem_cons.mp hc with rfl | hc'
        · exact ⟨rfl, rfl⟩
        · exact hdir c hc'


theorem messageFilename_ne_empty (loc : Int) (x : Message) :
    messageFilename loc x ≠ some "" := by
  unfold messageFilename
  cases messageDate loc x with
  | none => simp
  | some d =>
    simp only [Option.map_some', ne_eq, Option.some.injEq]
    exact dayFilename_ne_empty d

theorem sortSort_nil {alg : Nat → SortProg} (hc : SortContract alg) : sortSort alg [] = some [] := by
  obtain ⟨m', h, _⟩ := hc []
  have hnil : m' = [] := List.Perm.eq_nil (sortSort_perm h)
  rw [h, hnil]

/-- What `dumpChannel` does with messages whose timestamps all parse: it sorts
them and calls `writeMessagesFile` once with nothing and then once per day
batch; the batches are non-empty runs of the sorted messages, each under the
file name of its messages, and neighbouring batches have different file names. -/
theorem dumpMessages_batches {alg : Nat → SortProg} (hc : SortContract alg) (loc : Int)
    (dir name : String) (messages : List Message)
    (hall : ∀ m ∈ messages, timestampParses m.Timestamp = true) :
    ∃ sorted calls batches, sortSort alg messages = some sorted ∧ SortedByTimestamp sorted ∧
      List.Perm sorted messages ∧
      dumpMessages alg loc dir name messages = .ok calls ∧
      ((calls = [] ∧ batches = []) ∨
        calls = { messages := [], dir := dir, name := name, filename := "" } :: batches) ∧
      dayBatches calls = batches ∧
      batches.flatMap (fun c => c.messages) = sorted ∧
      (∀ c ∈ batches, c.messages ≠ [] ∧ c.dir = dir ∧ c.name = name ∧
        ∀ x ∈ c.messages, messageFilename loc x = some c.filename) ∧
      batches.Chain' (fun a b => a.filename ≠ b.filename) := by
  obtain ⟨sorted, hsort, hsorted, hperm⟩ := sortSort_sorted hc messages
  by_cases hnil : messages = []
  · subst hnil
    have hs : sorted = [] := List.Perm.eq_nil hperm
    subst hs
    exact ⟨[], [], [], hsort, hsorted, hperm, by simp [dumpMessages], Or.inl ⟨rfl, rfl⟩, rfl, rfl,
      by simp, List.chain'_nil⟩
  · have hall' : ∀ m ∈ sorted, timestampParses m.Timestamp = true :=
      fun m hm => hall m (hperm.subset hm)
    obtain ⟨cf', cm', calls', hrun, hcat, ⟨b, tl, hb, hbf, hbm, _, htl⟩, hchain, hdir⟩ :=
      partitionLoop_flushed loc dir name sorted "" [] [] hall'
    have hbempty : b.messages = [] := by
      apply List.eq_nil_iff_forall_not_mem.mpr
      intro x hx
      rcases hbm x hx with h | h
      · cases h
      · exact messageFilename_ne_empty loc x h
    have hbdir := hdir b (by rw [hb]; exact List.mem_cons_self _ _)
    have hbeq : b = { messages := [], dir := dir, name := name, filename := "" } := by
      cases b
      simp only at hbempty hbf hbdir
      simp [hbempty, hbf, hbdir.1, hbdir.2]
    have hlen : (messages.length == 0) = false := by
      simpa using hnil
    refine ⟨sorted, b :: tl, tl, hsort, hsorted, hperm, ?_, Or.inr (by rw [hbeq]), ?_, ?_, ?_, ?_⟩
    · simp only [dumpMessages, hlen, hsort, hrun, List.nil_append, hb]
      simp
    · unfold dayBatches
      rw [List.filter_cons_of_neg (by simp [hbempty])]
      apply List.filter_eq_self.mpr
      intro c hc'
      have := (htl c hc').1
      simpa using this
    · rw [hb] at hcat
      simpa [hbempty] using hcat
    · intro c hc'
      have hd := hdir c (by rw [hb]; exact List.mem_cons_of_mem _ hc')
      exact ⟨(htl c hc').1, hd.1, hd.2, (htl c hc').2⟩
    · rw [hb] at hchain
      exact hchain.tail

theorem runWrites_batches :
    ∀ (batches : List WriteCall) (fs : List FileWrite),
      (∀ c ∈ batches, c.messages ≠ [] ∧ c.dir ≠ "" ∧ c.name ≠ "" ∧ c.filename ≠ "") →
      runWrites batches fs = fs ++ batches.map WriteCall.file := by
  intro batches
  induction batches with
  | nil => intro fs _; simp [runWrites]
  | cons c rest ih =>
    intro fs h
    obtain ⟨h1, h2, h3, h4⟩ := h c (List.mem_cons_self _ _)
    have hstep : writeMessagesFile c.messages c.dir c.name c.filename fs = fs ++ [c.file] := by
      simp [writeMessagesFile, WriteCall.file, h1, h2, h3, h4]
    have hrest := ih (fs ++ [c.file]) (fun c' hc' => h c' (List.mem_cons_of_mem _ hc'))
    simp only [runWrites, List.foldl_cons, hstep] at hrest ⊢
    rw [hrest]
    simp

theorem runWrites_skip_empty (dir name : String) (rest : List WriteCall) (fs : List FileWrite) :
    runWrites ({ messages := [], dir := dir, name := name, filename := "" } :: rest) fs =
      runWrites rest fs := by
  simp [runWrites, writeMessagesFile]

/-- C4 as stated fails: for a room whose name is empty `writeMessagesFile` writes
nothing, so the written batches do not add up to the sorted messages. -/
theorem dumpMessages_unnamed_room_writes_nothing :
    timestampParses "1000.1" = true ∧
      sortSort insertionSort [msgAt "1000.1"] = some [msgAt "1000.1"] ∧
      ∃ calls, dumpMessages insertionSort 0 "/tmp/slack-dump" "" [msgAt "1000.1"] = .ok calls ∧
        (runWrites calls []).flatMap (fun f => f.messages) = [] ∧
        (runWrites calls []).flatMap (fun f => f.messages) ≠ [msgAt "1000.1"] :=
  ⟨by decide, by decide, _, rfl, by decide, by decide⟩

/-- C4 (amended): for a room with a non-empty name exported into a non-empty
directory, and messages whose timestamps all parse, the batches that the
partition loop of `dumpChannel` hands to `writeMessagesFile` and that
`writeMessagesFile` writes, concatenated in the order written, are exactly the
messages in the order `sort.Sort` leaves them (a permutation of the fetched
messages that is non-decreasing by timestamp), and no written batch is empty. -/
theorem dumpMessages_writes_sorted_messages (alg : Nat → SortProg) (hc : SortContract alg)
    (loc : Int) (dir name : String) (hdir : dir ≠ "") (hname : name ≠ "")
    (messages : List Message) (hall : ∀ m ∈ messages, timestampParses m.Timestamp = true) :
    ∃ sorted calls, sortSort alg messages = some sorted ∧ SortedByTimestamp sorted ∧
      List.Perm sorted messages ∧
      dumpMessages alg loc dir name messages = .ok calls ∧
      (runWrites calls []).flatMap (fun f => f.messages) = sorted ∧
      ∀ f ∈ runWrites calls [], f.messages ≠ [] := by
  obtain ⟨sorted, calls, batches, hsort, hsorted, hperm, hrun, hcalls, _, hcat, hb, _⟩ :=
    dumpMessages_batches hc loc dir name messages hall
  have hwrites : runWrites calls [] = batches.map WriteCall.file := by
    rcases hcalls with ⟨h, hbn⟩ | h
    · rw [h, hbn]
      rfl
    · rw [h, runWrites_skip_empty, runWrites_batches, List.nil_append]
      intro c hc'
      obtain ⟨h1, h2, h3, h4⟩ := hb c hc'
      refine ⟨h1, by rw [h2]; exact hdir, by rw [h3]; exact hname, ?_⟩
      intro hf
      obtain ⟨x, hx⟩ := List.exists_mem_of_ne_nil _ h1
      exact messageFilename_ne_empty loc x (by rw [h4 x hx, hf])
  refine ⟨sorted, calls, hsort, hsorted, hperm, hrun, ?_, ?_⟩
  · rw [hwrites, ← hcat, List.flatMap_map]
    rfl
  · intro f hf
    rw [hwrites] at hf
    obtain ⟨c, hc', rfl⟩ := List.mem_map.mp hf
    exact (hb c hc').1

theorem dumpMessages_writes_sorted_messages_witness :
    ∃ sorted calls, sortSort insertionSort [msgAt "1000.2", msgAt "1000.1"] = some sorted ∧
      SortedByTimestamp sorted ∧
      List.Perm sorted [msgAt "1000.2", msgAt "1000.1"] ∧
      dumpMessages insertionSort 0 "/tmp/slack-dump" "general"
        [msgAt "1000.2", msgAt "1000.1"] = .ok calls ∧
      (runWrites calls []).flatMap (fun f => f.messages) = sorted ∧
      ∀ f ∈ runWrites calls [], f.messages ≠ [] :=
  dumpMessages_writes_sorted_messages insertionSort insertionSort_contract 0 "/tmp/slack-dump"
    "general" (by decide) (by decide) [msgAt "1000.2", msgAt "1000.1"] (by decide)


theorem messageDay_of_parse {loc : Int} {m : Message} {t : Time}
    (h : parseTimestamp loc m.Timestamp = .ok (some t)) :
    messageDay loc m = some t.dayNumber ∧ messageDate loc m = some (civil t.dayNumber) ∧
      messageFilename loc m = some (dayFilename (civil t.dayNumber)) := by
  simp [messageDay, messageDate, messageFilename, h, Time.date]

theorem messageDay_of_filename {loc : Int} {m : Message} {f : String}
    (h : messageFilename loc m = some f) :
    ∃ n, messageDay loc m = some n ∧ messageDate loc m = some (civil n) ∧
      f = dayFilename (civil n) := by
  unfold messageFilename messageDate at h
  split at h
  · rename_i t ht
    obtain ⟨h1, h2, _⟩ := messageDay_of_parse ht
    refine ⟨t.dayNumber, h1, h2, ?_⟩
    simpa [Time.date] using h.symm
  · cases h

theorem dayFilename_civil_injective {a b : Int}
    (h : dayFilename (civil a) = dayFilename (civil b)) : a = b :=
  civil_injective (dayFilename_injective (civil_inRange a) (civil_inRange b) h)

/-- Messages whose timestamp strings are in order fall on days that are in
order, when the order of the strings agrees with the order of the seconds. -/
theorem messageDay_le_of_sorted (loc : Int) {x y : Message} {dx dy : Int}
    (hle : x.Timestamp ≤ y.Timestamp)
    (hagree : stringLess x.Timestamp y.Timestamp = true →
      secondsLE x.Timestamp y.Timestamp = true)
    (hx : messageDay loc x = some dx) (hy : messageDay loc y = some dy) : dx ≤ dy := by
  rcases eq_or_lt_of_le hle with heq | hlt
  · unfold messageDay at hx hy
    rw [heq] at hx
    rw [hx] at hy
    exact le_of_eq (Option.some.inj hy)
  · have hsec := hagree ((stringLess_iff _ _).mpr hlt)
    unfold secondsLE timestampSeconds at hsec
    unfold messageDay at hx hy
    rw [parseTimestamp_loc] at hx hy
    split at hsec
    · rename_i sx sy hsx hsy
      split at hsx
      · rename_i tx htx
        split at hsy
        · rename_i ty hty
          simp only [htx, Option.some.injEq] at hx
          simp only [hty, Option.some.injEq] at hy
          simp only [Option.some.injEq] at hsx hsy
          subst hx hy hsx hsy
          have h := of_decide_eq_true hsec
          unfold Time.dayNumber
          exact Int.ediv_le_ediv (by norm_num) (by simpa using h)
        · cases hsy
      · cases hsx
    · cases hsec

/-- The days of the batches: when the messages, read batch after batch, fall on
days that never go back, the batches lie on strictly increasing days. -/
theorem batches_days (loc : Int) :
    ∀ (batches : List WriteCall),
      (∀ c ∈ batches, c.messages ≠ [] ∧
        ∀ x ∈ c.messages, messageFilename loc x = some c.filename) →
      (batches.flatMap (fun c => c.messages)).Pairwise
        (fun x y => ∀ dx dy, messageDay loc x = some dx → messageDay loc y = some dy → dx ≤ dy) →
      batches.Chain' (fun a b => a.filename ≠ b.filename) →
      ∃ ns : List Int,
        List.Forall₂ (fun c n => c.filename = dayFilename (civil n) ∧
          ∀ x ∈ c.messages, messageDay loc x = some n ∧ messageDate loc x = some (civil n))
          batches ns ∧
        ns.Chain' (· < ·) := by
  intro batches
  induction batches with
  | nil => intro _ _ _; exact ⟨[], List.Forall₂.nil, List.chain'_nil⟩
  | cons c rest ih =>
    intro hkeys hpair hchain
    obtain ⟨hne, hkey⟩ := hkeys c (List.mem_cons_self _ _)
    obtain ⟨x0, hx0⟩ := List.exists_mem_of_ne_nil _ hne
    obtain ⟨n, hn1, _, hn3⟩ := messageDay_of_filename (hkey x0 hx0)
    have hall : ∀ x ∈ c.messages, messageDay loc x = some n ∧
        messageDate loc x = some (civil n) := by
      intro x hx
      obtain ⟨n', h1, h2, h3⟩ := messageDay_of_filename (hkey x hx)
      have : n' = n := dayFilename_civil_injective (h3.symm.trans hn3)
      subst this
      exact ⟨h1, h2⟩
    rw [List.flatMap_cons, List.pairwise_append] at hpair
    obtain ⟨_, hpair_rest, hcross⟩ := hpair
    obtain ⟨ns, hf, hns⟩ := ih (fun c' hc' => hkeys c' (List.mem_cons_of_mem _ hc')) hpair_rest
      hchain.tail
    refine ⟨n :: ns, List.Forall₂.cons ⟨hn3, hall⟩ hf, ?_⟩
    cases hf with
    | nil => exact List.chain'_singleton _
    | cons hhead htail =>
      rename_i c' n' rest' ns'
      refine List.Chain'.cons ?_ hns
      obtain ⟨hne', _⟩ := hkeys c' (by simp)
      obtain ⟨y0, hy0⟩ := List.exists_mem_of_ne_nil _ hne'
      have hle : n ≤ n' :=
        hcross x0 hx0 y0 (by simp only [List.flatMap_cons, List.mem_append]; exact Or.inl hy0)
          n n' hn1 (hhead.2 y0 hy0).1
      have hneq : n ≠ n' := by
        intro h
        have hrel := List.Chain'.rel_head hchain
        apply hrel
        rw [hn3, hhead.1, h]
      omega

theorem batches_filenames (loc : Int) {batches : List WriteCall} {ns : List Int}
    (hf : List.Forall₂ (fun c n => c.filename = dayFilename (civil n) ∧
      ∀ x ∈ c.messages, messageDay loc x = some n ∧ messageDate loc x = some (civil n))
      batches ns) :
    batches.map (fun c => c.filename) = ns.map (fun n => dayFilename (civil n)) := by
  induction hf with
  | nil => rfl
  | cons h _ ih => simp only [List.map_cons, h.1, ih]

/-- C5 as stated fails: the timestamps "86400", "100" and "9" all parse, the
sort puts them in the order "100", "86400", "9" and the three batches carry the
dates 1970-01-01, 1970-01-02, 1970-01-01: the dates go back and the first day
file is written twice. -/
theorem dumpMessages_dates_go_back :
    (∀ m ∈ [msgAt "86400", msgAt "100", msgAt "9"], timestampParses m.Timestamp = true) ∧
      ∃ calls, dumpMessages insertionSort 0 "/tmp/slack-dump" "general"
          [msgAt "86400", msgAt "100", msgAt "9"] = .ok calls ∧
        (dayBatches calls).map (fun c => c.messages) =
          [[msgAt "100"], [msgAt "86400"], [msgAt "9"]] ∧
        (dayBatches calls).map (fun c => c.filename) =
          ["1970-01-01.json", "1970-01-02.json", "1970-01-01.json"] ∧
        ¬ ((dayBatches calls).map (fun c => c.filename)).Nodup ∧
        messageDate 0 (msgAt "86400") = some { Year := 1970, Month := 1, Day := 2 } ∧
        messageDate 0 (msgAt "9") = some { Year := 1970, Month := 1, Day := 1 } ∧
        Date.lt { Year := 1970, Month := 1, Day := 1 } { Year := 1970, Month := 1, Day := 2 } :=
  ⟨by decide, _, rfl, by decide, by decide, by decide, by decide, by decide,
    by unfold Date.lt; decide⟩

/-- C5 (amended): in a local zone that keeps one offset `loc` from UTC for all
the messages (no zone transition falls between them), when the timestamps all
parse, their seconds lie from 0 up to 2^62 (where package `time` computes dates
without wrap-around, as the model does everywhere) and, on these messages, the
order of the raw timestamp strings agrees with the order of the seconds they
denote (as it does when the seconds all have the same number of digits), the
day batches `dumpChannel` emits lie on strictly increasing calendar dates of the
local zone: each batch carries the file name of its date, every message of the
batch falls on that date, the dates increase in emission order, and no two
batches have the same file name. -/
theorem dumpMessages_dates_increase (alg : Nat → SortProg) (hc : SortContract alg) (loc : Int)
    (dir name : String) (messages : List Message)
    (hall : ∀ m ∈ messages, timestampParses m.Timestamp = true)
    (hrange : ∀ m ∈ messages, secondsInRange m.Timestamp = true)
    (hagree : SecondsFollowStrings messages) :
    ∃ calls ds, dumpMessages alg loc dir name messages = .ok calls ∧
      List.Forall₂ (fun c d => c.filename = dayFilename d ∧
        ∀ x ∈ c.messages, messageDate loc x = some d) (dayBatches calls) ds ∧
      ds.Pairwise Date.lt ∧
      ((dayBatches calls).map (fun c => c.filename)).Nodup := by
  have _ := hrange
  obtain ⟨sorted, calls, batches, _, hsorted, hperm, hrun, _, hday, hcat, hb, hchain⟩ :=
    dumpMessages_batches hc loc dir name messages hall
  have hpair : (batches.flatMap (fun c => c.messages)).Pairwise
      (fun x y => ∀ dx dy, messageDay loc x = some dx → messageDay loc y = some dy →
        dx ≤ dy) := by
    rw [hcat]
    unfold SortedByTimestamp at hsorted
    refine List.Pairwise.imp_of_mem ?_ hsorted
    intro x y hx hy hle dx dy hdx hdy
    exact messageDay_le_of_sorted loc hle
      (hagree x (hperm.subset hx) y (hperm.subset hy)) hdx hdy
  obtain ⟨ns, hf, hns⟩ := batches_days loc batches
    (fun c hc' => ⟨(hb c hc').1, (hb c hc').2.2.2⟩) hpair hchain
  have hlt : ns.Pairwise (· < ·) := List.chain'_iff_pairwise.mp hns
  refine ⟨calls, ns.map civil, hrun, ?_, ?_, ?_⟩ <;> try rw [hday]
  · rw [List.forall₂_map_right_iff]
    exact hf.imp (fun c n h => ⟨h.1, fun x hx => (h.2 x hx).2⟩)
  · rw [List.pairwise_map]
    exact hlt.imp (fun h => civil_strictMono h)
  · rw [batches_filenames loc hf]
    unfold List.Nodup
    rw [List.pairwise_map]
    exact hlt.imp (fun h heq => absurd (dayFilename_civil_injective heq) (ne_of_lt h))

theorem dumpMessages_dates_increase_witness :
    ∃ calls ds, dumpMessages insertionSort 0 "/tmp/slack-dump" "general"
        [msgAt "1289186400.5", msgAt "1289100000.2", msgAt "1289100000.1"] = .ok calls ∧
      List.Forall₂ (fun c d => c.filename = dayFilename d ∧
        ∀ x ∈ c.messages, messageDate 0 x = some d) (dayBatches calls) ds ∧
      ds.Pairwise Date.lt ∧
      ((dayBatches calls).map (fun c => c.filename)).Nodup :=
  dumpMessages_dates_increase insertionSort insertionSort_contract 0 "/tmp/slack-dump" "general"
    [msgAt "1289186400.5", msgAt "1289100000.2", msgAt "1289100000.1"] (by decide) (by decide)
    (by unfold SecondsFollowStrings; decide)


/-- The loop aborts when `parseTimestamp` aborts on one of the messages. -/
theorem partitionLoop_panics (loc : Int) (dir name : String) :
    ∀ (msgs : List Message) (cf : String) (cm : List Message) (calls : List WriteCall),
      (∃ m ∈ msgs, parseTimestamp loc m.Timestamp = .panic .parseError) →
      ∃ f, partitionLoop loc dir name msgs cf cm calls = .panic f := by
  intro msgs
  induction msgs with
  | nil => intro cf cm calls h; obtain ⟨m, hm, _⟩ := h; cases hm
  | cons x rest ih =>
    intro cf cm calls h
    cases hx : parseTimestamp loc x.Timestamp with
    | panic f => exact ⟨f, by simp [partitionLoop, hx]⟩
    | diverge => exact absurd hx (parseTimestamp_ne_diverge loc _)
    | ok r =>
      cases r with
      | none => exact ⟨.nilDereference, by simp [partitionLoop, hx]⟩
      | some t =>
        have hrest : ∃ m ∈ rest, parseTimestamp loc m.Timestamp = .panic .parseError := by
          obtain ⟨m, hm, hbad⟩ := h
          rcases List.mem_cons.mp hm with rfl | hm'
          · rw [hx] at hbad; cases hbad
          · exact ⟨m, hm', hbad⟩
        rw [partitionLoop_cons loc dir name x rest cf cm calls t hx]
        split_ifs
        · exact ih _ _ _ hrest
        · exact ih _ _ _ hrest

/-- C6 as stated fails: a message whose seconds part is not a number makes the
partition loop of `dumpChannel` abort with the parse error; no day key is
assigned and nothing is emitted. -/
theorem dumpMessages_panics_on_non_numeric_seconds :
    dumpMessages insertionSort 0 "/tmp/slack-dump" "general" [msgAt "1000.1", msgAt "abc.5"] =
      .panic .parseError :=
  by decide

/-- C6 (amended): `dumpChannel` has no sentinel day key. When the timestamps all
parse, its partition loop completes and every message is in an emitted day
batch; when the seconds part of some message is rejected by `strconv.ParseInt`
(`parseTimestamp` aborts on it through `check`), the partition aborts too. -/
theorem dumpMessages_completes_iff_timestamps_parse (alg : Nat → SortProg)
    (hc : SortContract alg) (loc : Int) (dir name : String) (messages : List Message) :
    ((∀ m ∈ messages, timestampParses m.Timestamp = true) →
      ∃ calls, dumpMessages alg loc dir name messages = .ok calls ∧
        ∀ m ∈ messages, ∃ c ∈ dayBatches calls, m ∈ c.messages) ∧
    ((∃ m ∈ messages, parseTimestamp loc m.Timestamp = .panic .parseError) →
      ∃ f, dumpMessages alg loc dir name messages = .panic f) := by
  constructor
  · intro hall
    obtain ⟨sorted, calls, batches, _, _, hperm, hrun, _, hday, hcat, _, _⟩ :=
      dumpMessages_batches hc loc dir name messages hall
    refine ⟨calls, hrun, ?_⟩
    intro m hm
    have hms : m ∈ batches.flatMap (fun c => c.messages) := by
      rw [hcat]
      exact hperm.symm.subset hm
    rw [hday]
    obtain ⟨c, hc1, hc2⟩ := List.mem_flatMap.mp hms
    exact ⟨c, hc1, hc2⟩
  · intro hbad
    obtain ⟨sorted, hsort, _, hperm⟩ := sortSort_sorted hc messages
    obtain ⟨m, hm, hm'⟩ := hbad
    have hlen : (messages.length == 0) = false := by
      cases messages with
      | nil => cases hm
      | cons _ _ => rfl
    obtain ⟨f, hf⟩ := partitionLoop_panics loc dir name sorted "" [] []
      ⟨m, hperm.symm.subset hm, hm'⟩
    exact ⟨f, by simp [dumpMessages, hlen, hsort, hf]⟩

theorem dumpMessages_completes_iff_timestamps_parse_witness :
    (∃ calls, dumpMessages insertionSort 0 "/tmp/slack-dump" "general"
        [msgAt "1000.2", msgAt "1000.1"] = .ok calls ∧
      ∀ m ∈ [msgAt "1000.2", msgAt "1000.1"], ∃ c ∈ dayBatches calls, m ∈ c.messages) ∧
    (∃ f, dumpMessages insertionSort 0 "/tmp/slack-dump" "general"
        [msgAt "1000.1", msgAt "abc.5"] = .panic f) :=
  ⟨(dumpMessages_completes_iff_timestamps_parse insertionSort insertionSort_contract 0
      "/tmp/slack-dump" "general" [msgAt "1000.2", msgAt "1000.1"]).1 (by decide),
   (dumpMessages_completes_iff_timestamps_parse insertionSort insertionSort_contract 0
      "/tmp/slack-dump" "general" [msgAt "1000.1", msgAt "abc.5"]).2
      ⟨msgAt "abc.5", by decide, by decide⟩⟩

/-- C7: `sort.Sort(byTimestamp(messages))` returns a list that is non-decreasing
by the raw `Timestamp` string and is a permutation of the input of the same
length; and any other ordering of the same messages is sorted into the same
sequence of timestamps. -/
theorem sortSort_sorted_permutation (alg : Nat → SortProg) (hc : SortContract alg)
    (messages : List Message) :
    ∃ r, sortSort alg messages = some r ∧ SortedByTimestamp r ∧ List.Perm r messages ∧
      r.length = messages.length ∧
      ∀ other, List.Perm other messages →
        ∃ r', sortSort alg other = some r' ∧
          r'.map (fun m => m.Timestamp) = r.map (fun m => m.Timestamp) := by
  obtain ⟨r, hr, hs, hp⟩ := sortSort_sorted hc messages
  refine ⟨r, hr, hs, hp, hp.length_eq, ?_⟩
  intro other hother
  obtain ⟨r', hr', hs', hp'⟩ := sortSort_sorted hc other
  exact ⟨r', hr', sorted_timestamps_unique hs' hs ((hp'.trans hother).trans hp.symm)⟩

theorem sortSort_sorted_permutation_witness :
    ∃ r, sortSort insertionSort [msgAt "1000.2", msgAt "100000.0", msgAt "1000.1"] = some r ∧
      SortedByTimestamp r ∧ List.Perm r [msgAt "1000.2", msgAt "100000.0", msgAt "1000.1"] ∧
      r.length = [msgAt "1000.2", msgAt "100000.0", msgAt "1000.1"].length ∧
      ∀ other, List.Perm other [msgAt "1000.2", msgAt "100000.0", msgAt "1000.1"] →
        ∃ r', sortSort insertionSort other = some r' ∧
          r'.map (fun m => m.Timestamp) = r.map (fun m => m.Timestamp) :=
  sortSort_sorted_permutation insertionSort insertionSort_contract
    [msgAt "1000.2", msgAt "100000.0", msgAt "1000.1"]

theorem sorted_three (a b c : Message) (ha : a.Timestamp = "1000.1")
    (hb : b.Timestamp = "1000.2") (hc : c.Timestamp = "100000.0") (sorted : List Message)
    (hs : SortedByTimestamp sorted) (hp : List.Perm sorted [a, b, c]) : sorted = [a, b, c] := by
  have h12 : ("1000.1" : String) ≤ "1000.2" := le_of_lt ((stringLess_iff _ _).mp (by decide))
  have h13 : ("1000.1" : String) ≤ "100000.0" := le_of_lt ((stringLess_iff _ _).mp (by decide))
  have h23 : ("1000.2" : String) ≤ "100000.0" := le_of_lt ((stringLess_iff _ _).mp (by decide))
  have habc : SortedByTimestamp [a, b, c] := by
    unfold SortedByTimestamp
    refine List.Pairwise.cons ?_ (List.Pairwise.cons ?_ (List.pairwise_singleton _ _))
    · intro x hx
      simp only [List.mem_cons, List.mem_singleton, List.not_mem_nil, or_false] at hx
      rcases hx with rfl | rfl
      · rw [ha, hb]; exact h12
      · rw [ha, hc]; exact h13
    · intro x hx
      simp only [List.mem_cons, List.mem_singleton, List.not_mem_nil, or_false] at hx
      subst hx
      rw [hb, hc]; exact h23
  have hmap := sorted_timestamps_unique hs habc hp
  simp only [List.map_cons, List.map_nil, ha, hb, hc] at hmap
  have hpick : ∀ x ∈ sorted, (x.Timestamp = "1000.1" → x = a) ∧
      (x.Timestamp = "1000.2" → x = b) ∧ (x.Timestamp = "100000.0" → x = c) := by
    intro x hx
    have hmem := hp.subset hx
    simp only [List.mem_cons, List.mem_singleton, List.not_mem_nil, or_false] at hmem
    rcases hmem with rfl | rfl | rfl
    · refine ⟨fun _ => rfl, fun h => ?_, fun h => ?_⟩
      · rw [ha] at h; exact absurd h (by decide)
      · rw [ha] at h; exact absurd h (by decide)
    · refine ⟨fun h => ?_, fun _ => rfl, fun h => ?_⟩
      · rw [hb] at h; exact absurd h (by decide)
      · rw [hb] at h; exact absurd h (by decide)
    · refine ⟨fun h => ?_, fun h => ?_, fun _ => rfl⟩
      · rw [hc] at h; exact absurd h (by decide)
      · rw [hc] at h; exact absurd h (by decide)
  rcases sorted with _ | ⟨x, _ | ⟨y, _ | ⟨z, _ | ⟨u, tl⟩⟩⟩⟩
  · simp at hmap
  · simp at hmap
  · simp at hmap
  · simp only [List.map_cons, List.map_nil, List.cons.injEq, and_true] at hmap
    obtain ⟨h1, h2, h3⟩ := hmap
    rw [(hpick x (by simp)).1 h1, (hpick y (by simp)).2.1 h2, (hpick z (by simp)).2.2 h3]
  · simp at hmap

/-- C8: the three messages with timestamps "1000.1", "1000.2" and "100000.0",
fetched in any order, under any fixed offset `loc` of local time: `dumpChannel`
emits exactly two day batches, first the messages "1000.1" then "1000.2", then the
message "100000.0" alone, under two different day file names (and for a named
room and a named directory exactly these two files are written). -/
theorem dumpMessages_three_messages (alg : Nat → SortProg) (hc : SortContract alg) (loc : Int)
    (dir name : String) (a b c : Message) (ha : a.Timestamp = "1000.1")
    (hb : b.Timestamp = "1000.2") (hc' : c.Timestamp = "100000.0") (fetched : List Message)
    (hp : List.Perm fetched [a, b, c]) :
    ∃ calls f₁ f₂, dumpMessages alg loc dir name fetched = .ok calls ∧
      dayBatches calls = [⟨[a, b], dir, name, f₁⟩, ⟨[c], dir, name, f₂⟩] ∧
      f₁ = dayFilename (civil ((1000 + loc) / 86400)) ∧
      f₂ = dayFilename (civil ((100000 + loc) / 86400)) ∧ f₁ ≠ f₂ ∧
      (dir ≠ "" → name ≠ "" →
        runWrites calls [] = [⟨dir, name, f₁, [a, b]⟩, ⟨dir, name, f₂, [c]⟩]) := by
  obtain ⟨sorted, hsort, hs, hperm⟩ := sortSort_sorted hc fetched
  have hsorted : sorted = [a, b, c] := sorted_three a b c ha hb hc' sorted hs (hperm.trans hp)
  subst hsorted
  have hlen : (fetched.length == 0) = false := by
    rw [hp.length_eq]; rfl
  have hpa : parseTimestamp loc a.Timestamp = .ok (some { unix := 1000, offset := loc }) := by
    rw [ha]; rfl
  have hpb : parseTimestamp loc b.Timestamp = .ok (some { unix := 1000, offset := loc }) := by
    rw [hb]; rfl
  have hpc : parseTimestamp loc c.Timestamp = .ok (some { unix := 100000, offset := loc }) := by
    rw [hc']; rfl
  have hne : dayFilename (civil ((1000 + loc) / 86400)) ≠
      dayFilename (civil ((100000 + loc) / 86400)) := by
    intro h
    have := dayFilename_civil_injective h
    omega
  have hne1 : ¬ "" = dayFilename (civil ((1000 + loc) / 86400)) :=
    fun h => dayFilename_ne_empty _ h.symm
  have hne2 : dayFilename (civil ((100000 + loc) / 86400)) ≠ "" := dayFilename_ne_empty _
  have hrun : dumpMessages alg loc dir name fetched =
      .ok [⟨[], dir, name, ""⟩, ⟨[a, b], dir, name, dayFilename (civil ((1000 + loc) / 86400))⟩,
        ⟨[c], dir, name, dayFilename (civil ((100000 + loc) / 86400))⟩] := by
    simp only [dumpMessages, hlen, hsort]
    rw [partitionLoop_cons loc dir name a _ _ _ _ _ hpa]
    simp only [Time.date, Time.dayNumber, if_neg hne1]
    rw [partitionLoop_cons loc dir name b _ _ _ _ _ hpb]
    simp only [Time.date, Time.dayNumber, if_true]
    rw [partitionLoop_cons loc dir name c _ _ _ _ _ hpc]
    simp only [Time.date, Time.dayNumber, if_neg hne]
    simp [partitionLoop]
  refine ⟨_, _, _, hrun, ?_, rfl, rfl, hne, ?_⟩
  · simp [dayBatches]
  · intro hdir hname
    simp [runWrites, writeMessagesFile, hdir, hname, dayFilename_ne_empty]

theorem dumpMessages_three_messages_witness :
    ∃ calls f₁ f₂, dumpMessages insertionSort 3600 "/tmp/slack-dump" "general"
        [msgAt "100000.0", msgAt "1000.2", msgAt "1000.1"] = .ok calls ∧
      dayBatches calls = [⟨[msgAt "1000.1", msgAt "1000.2"], "/tmp/slack-dump", "general", f₁⟩,
        ⟨[msgAt "100000.0"], "/tmp/slack-dump", "general", f₂⟩] ∧
      f₁ = dayFilename (civil ((1000 + 3600) / 86400)) ∧
      f₂ = dayFilename (civil ((100000 + 3600) / 86400)) ∧ f₁ ≠ f₂ ∧
      ("/tmp/slack-dump" ≠ "" → "general" ≠ "" →
        runWrites calls [] = [⟨"/tmp/slack-dump", "general", f₁, [msgAt "1000.1", msgAt "1000.2"]⟩,
          ⟨"/tmp/slack-dump", "general", f₂, [msgAt "100000.0"]⟩]) :=
  dumpMessages_three_messages insertionSort insertionSort_contract 3600 "/tmp/slack-dump"
    "general" (msgAt "1000.1") (msgAt "1000.2") (msgAt "100000.0") rfl rfl rfl
    [msgAt "100000.0", msgAt "1000.2", msgAt "1000.1"]
    (by decide)


/-! ## Theorems: the room normaliser -/

theorem foldl_append_groups (groups : List Group) :
    ∀ channels : List Channel,
      groups.foldl (fun channels group => channels ++ [groupAsChannel group]) channels =
        channels ++ groups.map groupAsChannel := by
  induction groups with
  | nil => intro channels; simp
  | cons g rest ih => intro channels; simp [ih]

theorem dumpRoomsManifest_eq (channels : List Channel) (groups : List Group) :
    dumpRoomsManifest channels groups = channels ++ groups.map groupAsChannel := by
  unfold dumpRoomsManifest
  split_ifs with h
  · exact foldl_append_groups groups channels
  · have hnil : groups = [] := by
      cases groups with
      | nil => rfl
      | cons _ _ => simp at h
    simp [hnil]

/-- C9 as stated fails: for the group `sampleGroup`, whose membership flag is
off, the manifest entry has the membership flag on. -/
theorem groupAsChannel_membership_not_copied :
    dumpRoomsManifest [] [sampleGroup] = [groupAsChannel sampleGroup] ∧
      (groupAsChannel sampleGroup).IsMember = true ∧ sampleGroup.IsMember = false ∧
      (groupAsChannel sampleGroup).IsMember ≠ sampleGroup.IsMember :=
  by decide

/-- C9 (amended): the manifest entry `dumpRooms` derives from a group `g` has
`IsChannel = true`, `IsGeneral = false` and `IsMember = true`, all three set
whatever `g` holds, and its identifier, name, creation time, creator, archived
flag, member set, member count, unread metadata (last read, latest, both
unread counts), topic and purpose are those of `g`. -/
theorem groupAsChannel_fields (g : Group) :
    dumpRoomsManifest [] [g] = [groupAsChannel g] ∧
      (groupAsChannel g).IsChannel = true ∧ (groupAsChannel g).IsGeneral = false ∧
      (groupAsChannel g).IsMember = true ∧
      (groupAsChannel g).ID = g.ID ∧ (groupAsChannel g).Name = g.Name ∧
      (groupAsChannel g).Created = g.Created ∧ (groupAsChannel g).Creator = g.Creator ∧
      (groupAsChannel g).IsArchived = g.IsArchived ∧ (groupAsChannel g).Members = g.Members ∧
      (groupAsChannel g).NumMembers = g.NumMembers ∧
      (groupAsChannel g).LastRead = g.LastRead ∧ (groupAsChannel g).Latest = g.Latest ∧
      (groupAsChannel g).UnreadCount = g.UnreadCount ∧
      (groupAsChannel g).UnreadCountDisplay = g.UnreadCountDisplay ∧
      (groupAsChannel g).Topic = g.Topic ∧ (groupAsChannel g).Purpose = g.Purpose :=
  ⟨rfl, rfl, rfl, rfl, rfl, rfl, rfl, rfl, rfl, rfl, rfl, rfl, rfl, rfl, rfl, rfl, rfl⟩

/-- C10: the manifest `dumpRooms` serialises for the channels `cs` and the groups
`gs` has `|cs| + |gs|` entries: the first `|cs|` are `cs`, unchanged and in
order, and they are followed by one entry per group, in the order of `gs`, each
with `IsChannel = true` and `IsGeneral = false` whatever the group holds. -/
theorem dumpRoomsManifest_channels_then_groups (cs : List Channel) (gs : List Group) :
    (dumpRoomsManifest cs gs).length = cs.length + gs.length ∧
      (dumpRoomsManifest cs gs).take cs.length = cs ∧
      (dumpRoomsManifest cs gs).drop cs.length = gs.map groupAsChannel ∧
      (∀ i (h : i < gs.length),
        (dumpRoomsManifest cs gs)[cs.length + i]? = some (groupAsChannel (gs.get ⟨i, h⟩))) ∧
      ∀ c ∈ (dumpRoomsManifest cs gs).drop cs.length, c.IsChannel = true ∧ c.IsGeneral = false := by
  rw [dumpRoomsManifest_eq]
  refine ⟨by simp, by simp, by simp, ?_, ?_⟩
  · intro i h
    rw [List.getElem?_append_right (by omega)]
    simp [List.getElem?_eq_getElem h]
  · intro c hc
    simp only [List.drop_left, List.mem_map] at hc
    obtain ⟨g, _, rfl⟩ := hc
    exact ⟨rfl, rfl⟩


/-! ## Theorems: the two fetchers are one algorithm -/

/-- The channel fetcher's loop never uses the group call of the client. -/
theorem channelHistoryLoop_congr {σ : Type} (call g g' : HistoryCall σ) (ID : String)
    (fuel : Nat) :
    ∀ (hp : HistoryParameters) (h : History) (latest : String) (ms : List Message)
      (reqs : List HistoryParameters) (w : σ),
      channelHistoryLoop ⟨call, g⟩ ID fuel hp h latest ms reqs w =
        channelHistoryLoop ⟨call, g'⟩ ID fuel hp h latest ms reqs w := by
  induction fuel with
  | zero => intro hp h latest ms reqs w; rfl
  | succ n ih =>
    intro hp h latest ms reqs w
    simp only [channelHistoryLoop]
    split
    · rfl
    · split
      · rfl
      · split
        · split
          · rfl
          · exact ih _ _ _ _ _ _
        · exact ih _ _ _ _ _ _

theorem fetchChannelHistory_congr {σ : Type} (call g g' : HistoryCall σ) (ID : String)
    (fuel : Nat) (w : σ) :
    fetchChannelHistory ⟨call, g⟩ ID fuel w = fetchChannelHistory ⟨call, g'⟩ ID fuel w := by
  simp only [fetchChannelHistory]
  split
  · rfl
  · split
    · rfl
    · exact channelHistoryLoop_congr _ _ _ _ _ _ _ _ _ _ _

/-- C19: `fetchGroupHistory` and `fetchChannelHistory` are the same pagination
algorithm with the fetch capability swapped: run against one and the same
page-fetch function `call` (as the group call of one client and the channel call
of another), for every room ID, world and number of loop iterations allowed,
they have the same outcome: the same requests in the same order, the same
messages and the same world left behind, or the same abort, or both run on. -/
theorem fetchGroupHistory_eq_fetchChannelHistory {σ : Type} (call other₁ other₂ : HistoryCall σ)
    (ID : String) (fuel : Nat) (w : σ) :
    fetchGroupHistory { GetChannelHistory := other₁, GetGroupHistory := call } ID fuel w =
      fetchChannelHistory { GetChannelHistory := call, GetGroupHistory := other₂ } ID fuel w := by
  rw [fetchGroupHistory_eq]
  exact fetchChannelHistory_congr call call other₂ ID fuel w


/-! ## Theorems: day batches are maximal runs -/

/-- The loop over `pre ++ rest` is the loop over `rest` started in the state the
loop over `pre` ends in. -/
theorem partitionLoop_append (loc : Int) (dir name : String) (rest : List Message) :
    ∀ (pre : List Message) (cf : String) (cm : List Message) (calls : List WriteCall),
      partitionLoop loc dir name (pre ++ rest) cf cm calls =
        match partitionLoop loc dir name pre cf cm calls with
        | .ok (cf', cm', calls') => partitionLoop loc dir name rest cf' cm' calls'
        | .panic f => .panic f
        | .diverge => .diverge := by
  intro pre
  induction pre with
  | nil => intro cf cm calls; simp [partitionLoop]
  | cons x pre ih =>
    intro cf cm calls
    cases hx : parseTimestamp loc x.Timestamp with
    | panic f => simp [partitionLoop, hx]
    | diverge => simp [partitionLoop, hx]
    | ok r =>
      cases r with
      | none => simp [partitionLoop, hx]
      | some t =>
        rw [List.cons_append, partitionLoop_cons loc dir name x (pre ++ rest) cf cm calls t hx,
          partitionLoop_cons loc dir name x pre cf cm calls t hx]
        split_ifs
        · exact ih _ _ _
        · exact ih _ _ _

theorem flushed_batches {loc : Int} {dir name : String} {msgs : List Message}
    {calls' : List WriteCall} {last : WriteCall}
    (h : Flushed loc dir name "" [] msgs (calls' ++ [last])) :
    (∀ c ∈ dayBatches calls', c.messages ≠ [] ∧ c.dir = dir ∧ c.name = name ∧
      ∀ x ∈ c.messages, messageFilename loc x = some c.filename) ∧
    (dayBatches calls').Chain' (fun a b => a.filename ≠ b.filename) ∧
    ∃ done, (dayBatches calls').flatMap (fun c => c.messages) = done ∧
      done ++ last.messages = msgs := by
  obtain ⟨hcat, ⟨b, tl, hb, hbf, hbm, _, htl⟩, hchain, hdir⟩ := h
  have hbempty : b.messages = [] := by
    apply List.eq_nil_iff_forall_not_mem.mpr
    intro x hx
    rcases hbm x hx with h | h
    · cases h
    · exact messageFilename_ne_empty loc x h
  cases calls' with
  | nil =>
    simp only [List.nil_append, List.cons.injEq] at hb
    refine ⟨by simp [dayBatches], by simp [dayBatches], [], by simp [dayBatches], ?_⟩
    simpa using hcat
  | cons c0 tl' =>
    rw [List.cons_append] at hb
    obtain ⟨hc0, htl'⟩ := List.cons.inj hb
    subst hc0
    have hday : dayBatches (c0 :: tl') = tl' := by
      unfold dayBatches
      rw [List.filter_cons_of_neg (by simp [hbempty])]
      apply List.filter_eq_self.mpr
      intro c hc
      have := (htl c (by rw [← htl']; exact List.mem_append_left _ hc)).1
      simpa using this
    rw [hday]
    refine ⟨?_, ?_, _, rfl, ?_⟩
    · intro c hc
      have hmem : c ∈ tl := by rw [← htl']; exact List.mem_append_left _ hc
      have hin : c ∈ c0 :: tl' ++ [last] :=
        List.mem_append_left _ (List.mem_cons_of_mem _ hc)
      have hd := hdir c hin
      exact ⟨(htl c hmem).1, hd.1, hd.2, (htl c hmem).2⟩
    · rw [List.cons_append] at hchain
      exact (List.Chain'.tail hchain).left_of_append
    · simpa [hbempty] using hcat


/-- The loop that keeps what it has emitted agrees with the loop: it ends in the
same variables with the same calls, or in the same abort. -/
theorem partitionEmitted_loop (loc : Int) (dir name : String) :
    ∀ (msgs : List Message) (cf : String) (cm : List Message) (calls : List WriteCall),
      partitionLoop loc dir name msgs cf cm calls =
        match (partitionEmitted loc dir name msgs cf cm calls).2 with
        | .ok (cf', cm') => .ok (cf', cm', (partitionEmitted loc dir name msgs cf cm calls).1)
        | .panic f => .panic f
        | .diverge => .diverge := by
  intro msgs
  induction msgs with
  | nil => intro cf cm calls; rfl
  | cons x rest ih =>
    intro cf cm calls
    cases hx : parseTimestamp loc x.Timestamp with
    | panic f => simp [partitionLoop, partitionEmitted, hx]
    | diverge => simp [partitionLoop, partitionEmitted, hx]
    | ok r =>
      cases r with
      | none => simp [partitionLoop, partitionEmitted, hx]
      | some t =>
        simp only [partitionLoop, partitionEmitted, hx]
        split_ifs
        · exact ih _ _ _
        · exact ih _ _ _

theorem dumpEmitted_dumpMessages (alg : Nat → SortProg) (loc : Int) (dir name : String)
    (messages : List Message) :
    dumpMessages alg loc dir name messages =
      match (dumpEmitted alg loc dir name messages).2 with
      | .ok _ => .ok (dumpEmitted alg loc dir name messages).1
      | .panic f => .panic f
      | .diverge => .diverge := by
  unfold dumpMessages dumpEmitted
  by_cases h0 : (messages.length == 0) = true
  · simp only [h0, if_true]
  · simp only [h0]
    cases hs : sortSort alg messages with
    | none => rfl
    | some sorted =>
      simp only [Bool.false_eq_true, if_false]
      rw [partitionEmitted_loop]
      rcases hp : partitionEmitted loc dir name sorted "" [] [] with ⟨calls, out⟩
      cases out with
      | ok r => rfl
      | panic f => rfl
      | diverge => rfl

/-- Over a part `pre` on which the loop comes to its end, the loop that keeps
what it has emitted goes on with the rest from the state reached. -/
theorem partitionEmitted_append (loc : Int) (dir name : String) (rest : List Message) :
    ∀ (pre : List Message) (cf : String) (cm : List Message) (calls : List WriteCall)
      (cf' : String) (cm' : List Message) (calls' : List WriteCall),
      partitionLoop loc dir name pre cf cm calls = .ok (cf', cm', calls') →
      partitionEmitted loc dir name (pre ++ rest) cf cm calls =
        partitionEmitted loc dir name rest cf' cm' calls' := by
  intro pre
  induction pre with
  | nil =>
    intro cf cm calls cf' cm' calls' h
    simp only [partitionLoop, Run.ok.injEq, Prod.mk.injEq] at h
    obtain ⟨rfl, rfl, rfl⟩ := h
    rfl
  | cons x pre ih =>
    intro cf cm calls cf' cm' calls' h
    cases hx : parseTimestamp loc x.Timestamp with
    | panic f => simp [partitionLoop, hx] at h
    | diverge => simp [partitionLoop, hx] at h
    | ok r =>
      cases r with
      | none => simp [partitionLoop, hx] at h
      | some t =>
        simp only [partitionLoop, hx] at h
        simp only [List.cons_append, partitionEmitted, hx]
        split_ifs at h ⊢
        · exact ih _ _ _ _ _ _ h
        · exact ih _ _ _ _ _ _ h

/-- A list of messages is a part whose timestamps parse, followed by nothing or
by a message whose timestamp does not parse and what comes after it. -/
theorem split_at_first_bad (msgs : List Message) :
    ∃ pre rest, msgs = pre ++ rest ∧ (∀ m ∈ pre, timestampParses m.Timestamp = true) ∧
      (rest = [] ∨ ∃ bad tl, rest = bad :: tl ∧ timestampParses bad.Timestamp = false) := by
  induction msgs with
  | nil => exact ⟨[], [], rfl, by simp, Or.inl rfl⟩
  | cons x xs ih =>
    by_cases hx : timestampParses x.Timestamp = true
    · obtain ⟨pre, rest, hcat, hpre, hrest⟩ := ih
      refine ⟨x :: pre, rest, by rw [hcat]; rfl, ?_, hrest⟩
      intro m hm
      rcases List.mem_cons.mp hm with rfl | hm'
      · exact hx
      · exact hpre m hm'
    · exact ⟨[], x :: xs, rfl, by simp, Or.inr ⟨x, xs, rfl, by simpa using hx⟩⟩

/-- At a message whose timestamp does not parse the loop aborts, with the calls
made so far. -/
theorem partitionEmitted_bad (loc : Int) (dir name : String) (bad : Message)
    (tl : List Message) (cf : String) (cm : List Message) (calls : List WriteCall)
    (hbad : timestampParses bad.Timestamp = false) :
    ∃ f, partitionEmitted loc dir name (bad :: tl) cf cm calls = (calls, .panic f) := by
  have hloc := parseTimestamp_loc loc bad.Timestamp
  unfold timestampParses at hbad
  cases h0 : parseTimestamp 0 bad.Timestamp with
  | panic f =>
    rw [h0] at hloc
    exact ⟨f, by simp [partitionEmitted, hloc]⟩
  | diverge => exact absurd h0 (parseTimestamp_ne_diverge 0 _)
  | ok r =>
    cases r with
    | none =>
      rw [h0] at hloc
      exact ⟨.nilDereference, by simp [partitionEmitted, hloc]⟩
    | some t => rw [h0] at hbad; simp at hbad

/-- C18: every day batch `dumpChannel` emits is a maximal contiguous run of the
sorted messages, on every run, also one that aborts. `dumpEmitted` gives the
calls of `writeMessagesFile` made when `dumpChannel` returns or aborts (it ends
as `dumpMessages` ends, with the same calls when that returns); the day batches
are the calls with messages. Put one after the other they are the sorted
messages up to the `rest` that was not emitted, and `rest` is empty when the run
returns, which it does exactly when all timestamps parse. All messages of a
batch have the day key (file name) under which the batch is written, and two
batches emitted one after the other have different day keys. -/
theorem dumpMessages_batches_are_maximal_runs (alg : Nat → SortProg) (hc : SortContract alg)
    (loc : Int) (dir name : String) (messages : List Message) :
    ∃ sorted calls out rest,
      sortSort alg messages = some sorted ∧
      dumpEmitted alg loc dir name messages = (calls, out) ∧
      (dumpMessages alg loc dir name messages =
        match out with
        | .ok _ => .ok calls
        | .panic f => .panic f
        | .diverge => .diverge) ∧
      (dayBatches calls).flatMap (fun c => c.messages) ++ rest = sorted ∧
      (out = .ok () ↔ ∀ m ∈ messages, timestampParses m.Timestamp = true) ∧
      (out = .ok () → rest = []) ∧
      (out ≠ .ok () → ∃ f, out = .panic f) ∧
      (∀ c ∈ dayBatches calls, c.messages ≠ [] ∧
        ∀ x ∈ c.messages, messageFilename loc x = some c.filename) ∧
      (dayBatches calls).Chain' (fun a b => a.filename ≠ b.filename) := by
  obtain ⟨sorted, hsort, _, hperm⟩ := sortSort_sorted hc messages
  have hagree := dumpEmitted_dumpMessages alg loc dir name messages
  by_cases hall : ∀ m ∈ messages, timestampParses m.Timestamp = true
  · -- every timestamp parses: the run returns
    obtain ⟨sorted', calls, batches, hsort', _, _, hrun, _, hday, hcat, hb, hchain⟩ :=
      dumpMessages_batches hc loc dir name messages hall
    have hs : sorted' = sorted := Option.some.inj (hsort'.symm.trans hsort)
    subst hs
    rcases he : dumpEmitted alg loc dir name messages with ⟨calls', out⟩
    rw [he, hrun] at hagree
    cases out with
    | panic f => cases hagree
    | diverge => cases hagree
    | ok u =>
      have hcalls : calls = calls' := Run.ok.inj hagree
      subst hcalls
      refine ⟨sorted', calls, .ok (), [], hsort, rfl, hrun, ?_, ?_, fun _ => rfl,
        fun h => absurd rfl h, ?_, ?_⟩
      · rw [hday, hcat, List.append_nil]
      · exact ⟨fun _ => hall, fun _ => rfl⟩
      · rw [hday]
        exact fun c hc' => ⟨(hb c hc').1, (hb c hc').2.2.2⟩
      · rw [hday]
        exact hchain
  · -- some timestamp does not parse: the run aborts at the first such message
    have hne : messages ≠ [] := by
      rintro rfl
      exact hall (by simp)
    have hlen : (messages.length == 0) = false := by simpa using hne
    obtain ⟨pre, rest0, hsplit, hpre, hrest0⟩ := split_at_first_bad sorted
    rcases hrest0 with rfl | ⟨bad, tl, rfl, hbad⟩
    · exfalso
      apply hall
      intro m hm
      rw [List.append_nil] at hsplit
      exact hpre m (hsplit ▸ hperm.symm.subset hm)
    · obtain ⟨cf', cm', calls', hrun, hflushed⟩ :=
        partitionLoop_flushed loc dir name pre "" [] [] hpre
      rw [List.nil_append] at hrun
      obtain ⟨hkeys, hchain, done, hdone, hcat⟩ := flushed_batches hflushed
      obtain ⟨f, hf⟩ := partitionEmitted_bad loc dir name bad tl cf' cm' calls' hbad
      have hemit : dumpEmitted alg loc dir name messages = (calls', .panic f) := by
        unfold dumpEmitted
        simp only [hlen, Bool.false_eq_true, if_false, hsort, hsplit]
        rw [partitionEmitted_append loc dir name (bad :: tl) pre "" [] [] cf' cm' calls' hrun, hf]
      rw [hemit] at hagree
      refine ⟨sorted, calls', .panic f, cm' ++ bad :: tl, hsort, hemit, hagree, ?_, ?_,
        fun h => (by cases h), fun _ => ⟨f, rfl⟩,
        fun c hc' => ⟨(hkeys c hc').1, (hkeys c hc').2.2.2⟩, hchain⟩
      · rw [hdone, ← List.append_assoc, hcat, hsplit]
      · exact ⟨fun h => (by cases h), fun h => absurd h hall⟩

theorem dumpMessages_batches_are_maximal_runs_witness :
    dumpEmitted insertionSort 0 "/tmp/slack-dump" "general"
        [msgAt "abc.5", msgAt "100000.0", msgAt "1000.2", msgAt "1000.1"] =
      ([{ messages := [], dir := "/tmp/slack-dump", name := "general", filename := "" },
        { messages := [msgAt "1000.1", msgAt "1000.2"], dir := "/tmp/slack-dump",
          name := "general", filename := "1970-01-01.json" }], .panic .parseError) ∧
    ∃ sorted calls out rest,
      sortSort insertionSort [msgAt "abc.5", msgAt "100000.0", msgAt "1000.2", msgAt "1000.1"] =
        some sorted ∧
      dumpEmitted insertionSort 0 "/tmp/slack-dump" "general"
        [msgAt "abc.5", msgAt "100000.0", msgAt "1000.2", msgAt "1000.1"] = (calls, out) ∧
      (dumpMessages insertionSort 0 "/tmp/slack-dump" "general"
          [msgAt "abc.5", msgAt "100000.0", msgAt "1000.2", msgAt "1000.1"] =
        match out with
        | .ok _ => .ok calls
        | .panic f => .panic f
        | .diverge => .diverge) ∧
      (dayBatches calls).flatMap (fun c => c.messages) ++ rest = sorted ∧
      (out = .ok () ↔ ∀ m ∈ [msgAt "abc.5", msgAt "100000.0", msgAt "1000.2", msgAt "1000.1"],
        timestampParses m.Timestamp = true) ∧
      (out = .ok () → rest = []) ∧
      (out ≠ .ok () → ∃ f, out = .panic f) ∧
      (∀ c ∈ dayBatches calls, c.messages ≠ [] ∧
        ∀ x ∈ c.messages, messageFilename 0 x = some c.filename) ∧
      (dayBatches calls).Chain' (fun a b => a.filename ≠ b.filename) :=
  ⟨by decide, dumpMessages_batches_are_maximal_runs insertionSort insertionSort_contract 0
    "/tmp/slack-dump" "general"
    [msgAt "abc.5", msgAt "100000.0", msgAt "1000.2", msgAt "1000.1"]⟩


/-! ## Theorems: the timestamp parser -/

theorem stringsSplit_length (sep : Char) (s : List Char) :
    (stringsSplit sep s).length = s.count sep + 1 := by
  induction s with
  | nil => rfl
  | cons c cs ih =>
    unfold stringsSplit
    by_cases h : c = sep
    · subst h
      simp [ih]
    · rw [if_neg h]
      have hcount : (c :: cs).count sep = cs.count sep := by
        rw [List.count_cons]
        simp [h]
      rw [hcount]
      cases hsplit : stringsSplit sep cs with
      | nil => rw [hsplit] at ih; simp at ih
      | cons p ps => rw [hsplit] at ih; simpa using ih

theorem stringsSplit_of_not_mem (sep : Char) (s : List Char) (h : sep ∉ s) :
    stringsSplit sep s = [s] := by
  induction s with
  | nil => rfl
  | cons c cs ih =>
    have hc : c ≠ sep := fun hcs => h (hcs ▸ List.mem_cons_self _ _)
    have hcs : sep ∉ cs := fun hm => h (List.mem_cons_of_mem _ hm)
    unfold stringsSplit
    rw [if_neg hc, ih hcs]

theorem stringsSplit_one_sep (sep : Char) (a b : List Char) (ha : sep ∉ a) (hb : sep ∉ b) :
    stringsSplit sep (a ++ sep :: b) = [a, b] := by
  induction a with
  | nil => simp [stringsSplit, stringsSplit_of_not_mem sep b hb]
  | cons c cs ih =>
    have hc : c ≠ sep := fun hcs => ha (hcs ▸ List.mem_cons_self _ _)
    have hcs : sep ∉ cs := fun hm => ha (List.mem_cons_of_mem _ hm)
    rw [List.cons_append]
    unfold stringsSplit
    rw [if_neg hc, ih hcs]

theorem contains_dot_iff (s : List Char) : s.contains '.' = true ↔ 0 < s.count '.' := by
  rw [List.count_pos_iff, List.contains, List.elem_iff]

theorem String.length_pos_of_data (ts : String) (h : ts.data ≠ []) : ¬ ts.length ≤ 0 := by
  cases ts with
  | mk d =>
    have : 0 < d.length := List.length_pos.mpr h
    show ¬ d.length ≤ 0
    omega

theorem parseDigits_no_dot :
    ∀ (s : List Char) (acc n : Nat), parseDigits s acc = some n → '.' ∉ s := by
  intro s
  induction s with
  | nil => intro acc n _; simp
  | cons c cs ih =>
    intro acc n h
    unfold parseDigits at h
    cases hd : digitValue c with
    | none => rw [hd] at h; cases h
    | some d =>
      rw [hd] at h
      have hc : c ≠ '.' := by
        rintro rfl
        have hnone : digitValue '.' = none := by decide
        rw [hnone] at hd
        cases hd
      intro hmem
      rcases List.mem_cons.mp hmem with heq | hmem'
      · exact hc heq.symm
      · exact ih _ _ h hmem'

theorem parseDecimal_no_dot (s : List Char) (i : Int) (h : parseDecimal s = some i) :
    '.' ∉ s ∧ s ≠ [] := by
  unfold parseDecimal at h
  split at h
  · cases h
  · rename_i cs
    split_ifs at h with hcs
    cases hp : parseDigits cs 0 with
    | none => rw [hp] at h; simp at h
    | some n =>
      have := parseDigits_no_dot cs 0 n hp
      refine ⟨?_, by simp⟩
      intro hmem
      rcases List.mem_cons.mp hmem with heq | hmem'
      · exact absurd heq (by decide)
      · exact this hmem'
  · rename_i cs
    split_ifs at h with hcs
    cases hp : parseDigits cs 0 with
    | none => rw [hp] at h; simp at h
    | some n =>
      have := parseDigits_no_dot cs 0 n hp
      refine ⟨?_, by simp⟩
      intro hmem
      rcases List.mem_cons.mp hmem with heq | hmem'
      · exact absurd heq (by decide)
      · exact this hmem'
  · rename_i hnil _ _
    cases hp : parseDigits s 0 with
    | none => rw [hp] at h; simp at h
    | some n => exact ⟨parseDigits_no_dot s 0 n hp, fun hs => hnil hs⟩

theorem ParseInt_no_dot (s : List Char) (i : Int) (h : ParseInt s = some i) :
    '.' ∉ s ∧ s ≠ [] := by
  unfold ParseInt at h
  split at h
  · cases h
  · rename_i j hj
    exact parseDecimal_no_dot s j hj

/-- A non-empty string of digits whose value fits in 64 bits is accepted by
`strconv.ParseInt`, with that value. -/
theorem ParseInt_digits (s : List Char) (n : Nat) (hne : s ≠ [])
    (hval : parseDigits s 0 = some n) (hfit : n < 2 ^ 63) : ParseInt s = some (n : Int) := by
  have hdec : parseDecimal s = some (n : Int) := by
    unfold parseDecimal
    split
    · exact absurd rfl hne
    · rename_i cs
      simp [parseDigits, digitValue] at hval
    · rename_i cs
      simp [parseDigits, digitValue] at hval
    · rw [hval]; rfl
  unfold ParseInt
  rw [hdec]
  have h1 : -(2 : Int) ^ 63 ≤ (n : Int) := by
    have : (0 : Int) ≤ (n : Int) := Int.ofNat_nonneg n
    have h2 : -(2 : Int) ^ 63 ≤ 0 := by norm_num
    omega
  have h2 : (n : Int) < (2 : Int) ^ 63 := by exact_mod_cast hfit
  show (if -(2 : Int) ^ 63 ≤ (n : Int) ∧ (n : Int) < (2 : Int) ^ 63 then some (n : Int)
    else none) = some (n : Int)
  rw [if_pos ⟨h1, h2⟩]

theorem parseTimestamp_whole (loc : Int) (ts : String) (hne : ts.data ≠ [])
    (hdot : '.' ∉ ts.data) :
    parseTimestamp loc ts =
      match ParseInt ts.data with
      | none => .panic .parseError
      | some i => .ok (some { unix := i, offset := loc }) := by
  unfold parseTimestamp
  have h1 : ¬ ts.length ≤ 0 := String.length_pos_of_data ts hne
  have h2 : ¬ ts.data.contains '.' = true := by
    rw [List.contains, List.elem_iff]; exact hdot
  rw [if_neg h1, if_neg h2]

theorem parseTimestamp_dotted (loc : Int) (ts : String) (hdot : ts.data.count '.' = 1) :
    parseTimestamp loc ts =
      match ParseInt (secondsPart ts) with
      | none => .panic .parseError
      | some i => .ok (some { unix := i, offset := loc }) := by
  unfold parseTimestamp
  have hpos : 0 < ts.data.count '.' := by omega
  have hmem : '.' ∈ ts.data := List.count_pos_iff.mp hpos
  have h1 : ¬ ts.length ≤ 0 := String.length_pos_of_data ts (List.ne_nil_of_mem hmem)
  have h2 : ts.data.contains '.' = true := (contains_dot_iff _).mpr hpos
  have h3 : ¬ (stringsSplit '.' ts.data).length ≠ 2 := by
    rw [stringsSplit_length, hdot]; simp
  rw [if_neg h1, if_pos h2]
  simp only [if_neg h3]
  rfl

/-- C13 as stated fails: on "1.2.3", which contains more than one '.',
`parseTimestamp` does not abort but returns the nil pointer. -/
theorem parseTimestamp_two_dots_returns_nil :
    parseTimestamp 0 "1.2.3" = .ok none ∧ parseTimestamp 0 "1.2.3" ≠ .panic .parseError := by
  decide

/-- C13 (amended): `parseTimestamp` aborts with the parse error whenever its
input is not empty, contains at most one '.', and its seconds component (what
stands before the '.') is rejected by `strconv.ParseInt`; whenever the input
contains more than one '.', it returns the nil pointer ("no value") and does not
abort. -/
theorem parseTimestamp_malformed (loc : Int) (ts : String) :
    (ts.data ≠ [] → ts.data.count '.' ≤ 1 → ParseInt (secondsPart ts) = none →
      parseTimestamp loc ts = .panic .parseError) ∧
    (2 ≤ ts.data.count '.' → parseTimestamp loc ts = .ok none) := by
  constructor
  · intro hne hcount hbad
    rcases Nat.lt_or_ge 0 (ts.data.count '.') with hpos | hzero
    · rw [parseTimestamp_dotted loc ts (by omega), hbad]
    · have hdot : '.' ∉ ts.data := by
        intro hmem
        have := List.count_pos_iff.mpr hmem
        omega
      rw [parseTimestamp_whole loc ts hne hdot]
      unfold secondsPart at hbad
      rw [stringsSplit_of_not_mem '.' ts.data hdot] at hbad
      simp only [List.headD_cons] at hbad
      rw [hbad]
  · intro hcount
    unfold parseTimestamp
    have hpos : 0 < ts.data.count '.' := by omega
    have hmem : '.' ∈ ts.data := List.count_pos_iff.mp hpos
    have h1 : ¬ ts.length ≤ 0 := String.length_pos_of_data ts (List.ne_nil_of_mem hmem)
    have h2 : ts.data.contains '.' = true := (contains_dot_iff _).mpr hpos
    have h3 : (stringsSplit '.' ts.data).length ≠ 2 := by
      rw [stringsSplit_length]; omega
    rw [if_neg h1, if_pos h2]
    simp only [if_pos h3]

theorem parseTimestamp_malformed_witness :
    parseTimestamp 0 "abc.5" = .panic .parseError ∧ parseTimestamp 0 "1.2.3" = .ok none :=
  ⟨(parseTimestamp_malformed 0 "abc.5").1 (by decide) (by decide) (by decide),
   (parseTimestamp_malformed 0 "1.2.3").2 (by decide)⟩

/-- C14 as stated fails: "9223372036854775808" is a decimal integer string, but it
does not fit in 64 bits and `parseTimestamp` aborts on it, with or without a
fraction, instead of returning an instant. -/
theorem parseTimestamp_aborts_on_large_seconds :
    parseDigits "9223372036854775808".data 0 = some 9223372036854775808 ∧
      parseTimestamp 0 "9223372036854775808" = .panic .parseError ∧
      parseTimestamp 0 "9223372036854775808.000200" = .panic .parseError := by
  decide

/-- C14 (amended): `parseTimestamp` returns the nil pointer on the empty string,
and for every string `s` that `strconv.ParseInt` accepts as a 64-bit decimal
integer `i` (every non-empty string of digits whose value is below 2^63 is one,
with that value) and every fraction `f` without '.', `parseTimestamp s` and
`parseTimestamp (s ++ "." ++ f)` return the same instant: `i` seconds after the
epoch, with no sub-second part. -/
theorem parseTimestamp_discards_fraction (loc : Int) :
    parseTimestamp loc "" = .ok none ∧
    (∀ (s f : String) (i : Int), ParseInt s.data = some i → '.' ∉ f.data →
      parseTimestamp loc s = .ok (some { unix := i, offset := loc }) ∧
      parseTimestamp loc (s ++ "." ++ f) = .ok (some { unix := i, offset := loc })) ∧
    (∀ (s : String) (n : Nat), s.data ≠ [] → parseDigits s.data 0 = some n → n < 2 ^ 63 →
      ParseInt s.data = some (n : Int)) := by
  refine ⟨rfl, ?_, fun s n hne hval hfit => ParseInt_digits s.data n hne hval hfit⟩
  intro s f i hs hf
  obtain ⟨hdot, hne⟩ := ParseInt_no_dot s.data i hs
  constructor
  · rw [parseTimestamp_whole loc s hne hdot, hs]
  · have hdata : (s ++ "." ++ f).data = s.data ++ '.' :: f.data := by
      simp [String.data_append]
    have hcount : (s ++ "." ++ f).data.count '.' = 1 := by
      rw [hdata, List.count_append, List.count_cons_self, List.count_eq_zero_of_not_mem hdot,
        List.count_eq_zero_of_not_mem hf]
    rw [parseTimestamp_dotted loc _ hcount]
    unfold secondsPart
    rw [hdata, stringsSplit_one_sep '.' s.data f.data hdot hf]
    simp only [List.headD_cons]
    rw [hs]

theorem parseTimestamp_discards_fraction_witness :
    parseTimestamp 3600 "1446768000" = .ok (some { unix := 1446768000, offset := 3600 }) ∧
      parseTimestamp 3600 ("1446768000" ++ "." ++ "000002") =
        .ok (some { unix := 1446768000, offset := 3600 }) ∧
      ParseInt "1446768000".data = some ((1446768000 : Nat) : Int) :=
  have h := parseTimestamp_discards_fraction 3600
  ⟨(h.2.1 "1446768000" "000002" 1446768000 (by decide) (by decide)).1,
   (h.2.1 "1446768000" "000002" 1446768000 (by decide) (by decide)).2,
   h.2.2 "1446768000" 1446768000 (by decide) (by decide) (by norm_num)⟩


/-! ## Theorems: the requests of the pagination engine -/

theorem requestsFrom_getElem? (hp : HistoryParameters) :
    ∀ (pages : List History) (latest : String) (k : Nat), k < pages.length →
      (requestsFrom hp latest pages)[k]? =
        some { hp with Latest := watermark latest (pages.take k) } := by
  intro pages
  induction pages with
  | nil => intro latest k hk; simp at hk
  | cons p ps ih =>
    intro latest k hk
    cases k with
    | zero => simp [requestsFrom, watermark]
    | succ k =>
      simp only [requestsFrom, List.getElem?_cons_succ, List.take_succ_cons, watermark,
        List.foldl_cons]
      exact ih (nextLatest latest p) k (by simpa using hk)

theorem requestsFrom_length (hp : HistoryParameters) :
    ∀ (pages : List History) (latest : String), (requestsFrom hp latest pages).length =
      pages.length := by
  intro pages
  induction pages with
  | nil => intro latest; rfl
  | cons p ps ih => intro latest; simp [requestsFrom, ih]

/-- The watermark is the timestamp of the last message of the last non-empty
page. -/
theorem watermark_last_nonempty (start : String) (a b : List History) (p : History)
    (hp : p.Messages ≠ []) (hb : ∀ q ∈ b, q.Messages = []) :
    watermark start (a ++ p :: b) = (p.Messages.getLast hp).Timestamp := by
  unfold watermark
  rw [List.foldl_append, List.foldl_cons]
  have hnext : ∀ l, nextLatest l p = (p.Messages.getLast hp).Timestamp := by
    intro l
    simp [nextLatest, List.getLast?_eq_getLast _ hp]
  rw [hnext]
  clear hnext
  induction b with
  | nil => rfl
  | cons q qs ih =>
    rw [List.foldl_cons]
    have hq : q.Messages = [] := hb q (List.mem_cons_self _ _)
    have : nextLatest (p.Messages.getLast hp).Timestamp q = (p.Messages.getLast hp).Timestamp := by
      simp [nextLatest, hq]
    rw [this]
    exact ih (fun q' hq' => hb q' (List.mem_cons_of_mem _ hq'))

/-- The requests the loop sends against a script. -/
theorem channelHistoryLoop_script_requests (ID : String) (last : History)
    (extra : List History) (hlast : last.HasMore = false) (hp0 : HistoryParameters) :
    ∀ (pre : List History) (fuel : Nat) (l0 : String) (h : History)
      (latest : String) (ms : List Message) (reqs : List HistoryParameters),
      h.HasMore = true → (∀ p ∈ pre, p.HasMore = true) → pre.length + 1 ≤ fuel →
      ∃ r, channelHistoryLoop scriptClient ID fuel { hp0 with Latest := l0 } h latest ms reqs
            (pre ++ last :: extra) = .ok r ∧
          r.requests = reqs ++ requestsFrom hp0 latest (pre ++ [last]) := by
  intro pre
  induction pre with
  | nil =>
    intro fuel l0 h latest ms reqs hh _ hfuel
    obtain ⟨n, rfl⟩ : ∃ n, fuel = n + 1 := ⟨fuel - 1, by simp at hfuel; omega⟩
    rw [List.nil_append,
      channelHistoryLoop_step scriptClient ID n _ h latest ms reqs (last :: extra) extra last
        hh rfl]
    rw [channelHistoryLoop_done _ _ _ _ _ _ _ _ _ hlast]
    exact ⟨_, rfl, by simp [requestsFrom]⟩
  | cons p pre ih =>
    intro fuel l0 h latest ms reqs hh hpre hfuel
    obtain ⟨n, rfl⟩ : ∃ n, fuel = n + 1 := ⟨fuel - 1, by simp at hfuel; omega⟩
    rw [List.cons_append,
      channelHistoryLoop_step scriptClient ID n _ h latest ms reqs
        (p :: (pre ++ last :: extra)) (pre ++ last :: extra) p hh rfl]
    have hp' : p.HasMore = true := hpre p (List.mem_cons_self _ _)
    have hpre' : ∀ q ∈ pre, q.HasMore = true := fun q hq => hpre q (List.mem_cons_of_mem _ hq)
    obtain ⟨r, hr, hq⟩ := ih n latest p (nextLatest latest p) (ms ++ p.Messages)
      (reqs ++ [{ hp0 with Latest := latest }]) hp' hpre' (by simp at hfuel; omega)
    refine ⟨r, hr, ?_⟩
    rw [hq]
    simp [requestsFrom]

theorem fetchChannelHistory_script_requests (ID : String) (pre : List History)
    (last : History) (extra : List History) (fuel : Nat)
    (hne : ∀ p, (pre ++ [last]).head? = some p → p.Messages ≠ [])
    (hmore : ∀ p ∈ pre, p.HasMore = true) (hlast : last.HasMore = false)
    (hfuel : pre.length ≤ fuel) :
    ∃ r, fetchChannelHistory scriptClient ID fuel (pre ++ last :: extra) = .ok r ∧
      r.requests = { NewHistoryParameters with Count := 1000 } ::
        requestsFrom { NewHistoryParameters with Count := 1000 }
          (watermark "" ((pre ++ [last]).take 1)) ((pre ++ [last]).drop 1) := by
  cases pre with
  | nil =>
    have h1 : last.Messages ≠ [] := hne last rfl
    rw [List.nil_append, fetchChannelHistory_script_single ID last extra fuel h1 hlast]
    exact ⟨_, rfl, by simp [requestsFrom]⟩
  | cons first mid =>
    have h1 : first.Messages ≠ [] := hne first rfl
    simp only [fetchChannelHistory, scriptClient, scriptCall, List.cons_append,
      goIndex_last _ h1]
    obtain ⟨r, hr, hq⟩ := channelHistoryLoop_script_requests ID last extra hlast
      { NewHistoryParameters with Count := 1000 } mid fuel "" first
      (first.Messages.getLast h1).Timestamp first.Messages
      [{ NewHistoryParameters with Count := 1000 }] (hmore first (List.mem_cons_self _ _))
      (fun p hp => hmore p (List.mem_cons_of_mem _ hp)) (by simpa using hfuel)
    refine ⟨r, hr, ?_⟩
    rw [hq]
    simp [watermark, nextLatest, List.getLast?_eq_getLast _ h1]

/-- C15: against pages `p1..pn` (here `pre ++ [last]`, the first one non-empty,
`HasMore` true on all but the last), `fetchChannelHistory` and `fetchGroupHistory`
send `n` requests: the first with `Count = 1000` and the empty `Latest` (no
bound), and the request number `k` (for `1 ≤ k < n`) with `Count = 1000` and
`Latest` equal to the timestamp of the last message of the most recent non-empty
page among the `k` pages received so far. When the messages of that page are
ordered newest first, that timestamp is the smallest of the page. -/
theorem fetchHistory_requests (ID : String) (pre : List History) (last : History)
    (extra : List History) (fuel : Nat)
    (hne : ∀ p, (pre ++ [last]).head? = some p → p.Messages ≠ [])
    (hmore : ∀ p ∈ pre, p.HasMore = true) (hlast : last.HasMore = false)
    (hfuel : pre.length ≤ fuel) :
    (∃ r, fetchChannelHistory scriptClient ID fuel (pre ++ last :: extra) = .ok r ∧
      fetchGroupHistory scriptClient ID fuel (pre ++ last :: extra) = .ok r ∧
      r.requests.length = pre.length + 1 ∧
      r.requests[0]? = some { Latest := "", Oldest := "0", Count := 1000, Inclusive := false } ∧
      ∀ (k : Nat) (a b : List History) (p : History) (hp : p.Messages ≠ []),
        1 ≤ k → k < pre.length + 1 → (pre ++ [last]).take k = a ++ p :: b →
        (∀ q ∈ b, q.Messages = []) →
        r.requests[k]? = some { Latest := (p.Messages.getLast hp).Timestamp, Oldest := "0",
                                Count := 1000, Inclusive := false }) ∧
    (∀ (p : History) (hp : p.Messages ≠ []),
      p.Messages.Pairwise (fun x y => y.Timestamp ≤ x.Timestamp) →
      ∀ m ∈ p.Messages, (p.Messages.getLast hp).Timestamp ≤ m.Timestamp) := by
  constructor
  · obtain ⟨r, hr, hq⟩ := fetchChannelHistory_script_requests ID pre last extra fuel hne hmore
      hlast hfuel
    have hlen : r.requests.length = pre.length + 1 := by
      rw [hq]
      simp [requestsFrom_length]
    refine ⟨r, hr, ?_, hlen, by rw [hq, List.getElem?_cons_zero]; rfl, ?_⟩
    · rw [fetchGroupHistory_eq]
      exact hr
    · intro k a b p hp hk1 hk2 htake hb
      obtain ⟨j, rfl⟩ : ∃ j, k = j + 1 := ⟨k - 1, by omega⟩
      rw [hq, List.getElem?_cons_succ,
        requestsFrom_getElem? _ _ _ j (by simp; omega)]
      have hw : watermark (watermark "" ((pre ++ [last]).take 1))
          (((pre ++ [last]).drop 1).take j) = watermark "" ((pre ++ [last]).take (j + 1)) := by
        unfold watermark
        rw [← List.foldl_append]
        congr 1
        cases hl : pre ++ [last] with
        | nil => simp at hl
        | cons x xs => simp
      rw [hw, htake, watermark_last_nonempty "" a b p hp hb]
      rfl
  · intro p hp hsorted m hm
    have hsplit := List.dropLast_append_getLast hp
    rw [← hsplit] at hsorted hm
    rw [List.pairwise_append] at hsorted
    rcases List.mem_append.mp hm with h | h
    · exact hsorted.2.2 m h _ (List.mem_singleton_self _)
    · rw [List.mem_singleton] at h
      rw [h]

theorem fetchHistory_requests_witness :
    ∃ r, fetchChannelHistory scriptClient "C024BE91L" 2
        ([newerPage, emptyPageMore] ++ oldestPage :: []) = .ok r ∧
      fetchGroupHistory scriptClient "C024BE91L" 2
        ([newerPage, emptyPageMore] ++ oldestPage :: []) = .ok r ∧
      r.requests.length = [newerPage, emptyPageMore].length + 1 ∧
      r.requests[0]? = some { Latest := "", Oldest := "0", Count := 1000, Inclusive := false } ∧
      r.requests[2]? = some { Latest := "1000000002.0", Oldest := "0", Count := 1000,
                              Inclusive := false } :=
  have h := (fetchHistory_requests "C024BE91L" [newerPage, emptyPageMore] oldestPage [] 2
    (by decide) (by decide) rfl (by decide)).1
  match h with
  | ⟨r, h1, h2, h3, h4, h5⟩ =>
    ⟨r, h1, h2, h3, h4,
      h5 2 [] [emptyPageMore] newerPage (by decide) (by decide) (by decide) rfl (by decide)⟩


/-! ## Theorems: the order of the strings and the order of the seconds -/

theorem digitValue_some {c : Char} {v : Nat} (h : digitValue c = some v) :
    48 ≤ c.toNat ∧ c.toNat ≤ 57 ∧ v = c.toNat - 48 := by
  unfold digitValue at h
  split_ifs at h with hc
  obtain ⟨h0, h9⟩ := hc
  have h0' : (48 : Nat) ≤ c.toNat := by
    have := Char.le_def.mp h0
    exact this
  have h9' : c.toNat ≤ 57 := by
    have := Char.le_def.mp h9
    exact this
  refine ⟨h0', h9', ?_⟩
  simp only [Option.some.injEq] at h
  rw [← h]
  rfl

theorem digitValue_isSome {c : Char} (h : (digitValue c).isSome = true) :
    ∃ v, digitValue c = some v ∧ v < 10 ∧ v = c.toNat - 48 ∧ 48 ≤ c.toNat := by
  cases hd : digitValue c with
  | none => rw [hd] at h; cases h
  | some v =>
    obtain ⟨h1, h2, h3⟩ := digitValue_some hd
    exact ⟨v, rfl, by omega, h3, h1⟩

theorem digit_ne_dot {c : Char} (h : (digitValue c).isSome = true) : c ≠ '.' := by
  rintro rfl
  exact absurd h (by decide)

theorem Char.lt_iff_toNat {c d : Char} : c < d ↔ c.toNat < d.toNat := by
  rw [Char.lt_def]
  exact Iff.rfl

/-- The value of a string of digits read onto an accumulator. -/
theorem parseDigits_digits :
    ∀ (d : List Char), (∀ c ∈ d, (digitValue c).isSome = true) →
      ∃ v, v < 10 ^ d.length ∧ ∀ acc, parseDigits d acc = some (acc * 10 ^ d.length + v) := by
  intro d
  induction d with
  | nil => intro _; exact ⟨0, by simp, fun acc => by simp [parseDigits]⟩
  | cons c cs ih =>
    intro h
    obtain ⟨x, hx, hx10, _, _⟩ := digitValue_isSome (h c (List.mem_cons_self _ _))
    obtain ⟨v, hv, hacc⟩ := ih (fun c' hc' => h c' (List.mem_cons_of_mem _ hc'))
    refine ⟨x * 10 ^ cs.length + v, ?_, ?_⟩
    · rw [List.length_cons, pow_succ]
      nlinarith
    · intro acc
      simp only [parseDigits, hx, hacc, List.length_cons, pow_succ]
      congr 1
      ring

/-- Strings of equally many digits: the lexicographic order of what starts with
them bounds the order of their values. -/
theorem digits_value_le_of_lt :
    ∀ (d₁ d₂ f₁ f₂ : List Char), d₁.length = d₂.length →
      (∀ c ∈ d₁, (digitValue c).isSome = true) → (∀ c ∈ d₂, (digitValue c).isSome = true) →
      d₁ ++ f₁ < d₂ ++ f₂ →
      ∀ a₁ a₂ v₁ v₂, a₁ ≤ a₂ → parseDigits d₁ a₁ = some v₁ → parseDigits d₂ a₂ = some v₂ →
        v₁ ≤ v₂ := by
  intro d₁
  induction d₁ with
  | nil =>
    intro d₂ f₁ f₂ hlen _ _ _ a₁ a₂ v₁ v₂ ha h₁ h₂
    have hnil : d₂ = [] := List.length_eq_zero.mp hlen.symm
    subst hnil
    simp only [parseDigits, Option.some.injEq] at h₁ h₂
    omega
  | cons c r₁ ih =>
    intro d₂ f₁ f₂ hlen hd₁ hd₂ hlt a₁ a₂ v₁ v₂ ha h₁ h₂
    cases d₂ with
    | nil => simp at hlen
    | cons e r₂ =>
      have hlen' : r₁.length = r₂.length := by simpa using hlen
      obtain ⟨x, hx, _, hxv, hx48⟩ := digitValue_isSome (hd₁ c (List.mem_cons_self _ _))
      obtain ⟨y, hy, _, hyv, hy48⟩ := digitValue_isSome (hd₂ e (List.mem_cons_self _ _))
      have hr₁ : ∀ c' ∈ r₁, (digitValue c').isSome = true :=
        fun c' hc' => hd₁ c' (List.mem_cons_of_mem _ hc')
      have hr₂ : ∀ c' ∈ r₂, (digitValue c').isSome = true :=
        fun c' hc' => hd₂ c' (List.mem_cons_of_mem _ hc')
      simp only [parseDigits, hx] at h₁
      simp only [parseDigits, hy] at h₂
      rw [List.cons_append, List.cons_append] at hlt
      cases hlt with
      | rel hce =>
        have hxy : x < y := by
          have := Char.lt_iff_toNat.mp hce
          omega
        obtain ⟨w₁, hw₁, hacc₁⟩ := parseDigits_digits r₁ hr₁
        obtain ⟨w₂, _, hacc₂⟩ := parseDigits_digits r₂ hr₂
        rw [hacc₁] at h₁
        rw [hacc₂] at h₂
        simp only [Option.some.injEq] at h₁ h₂
        rw [← h₁, ← h₂, ← hlen']
        have hstep : (a₁ * 10 + x + 1) * 10 ^ r₁.length ≤ (a₂ * 10 + y) * 10 ^ r₁.length :=
          Nat.mul_le_mul_right _ (by omega)
        have hexp : (a₁ * 10 + x + 1) * 10 ^ r₁.length =
            (a₁ * 10 + x) * 10 ^ r₁.length + 10 ^ r₁.length := by ring
        omega
      | cons hrest =>
        have hxy : x = y := by
          rw [hx] at hy
          exact Option.some.inj hy
        subst hxy
        exact ih r₂ f₁ f₂ hlen' hr₁ hr₂ hrest _ _ v₁ v₂ (by omega) h₁ h₂

theorem ParseInt_value_of_digits (d : List Char) (s : Int) (v : Nat)
    (hs : ParseInt d = some s) (hv : parseDigits d 0 = some v) : s = (v : Int) := by
  unfold ParseInt at hs
  split at hs
  · cases hs
  · rename_i j hj
    split_ifs at hs
    simp only [Option.some.injEq] at hs
    subst hs
    unfold parseDecimal at hj
    split at hj
    · cases hj
    · simp [parseDigits, digitValue] at hv
    · simp [parseDigits, digitValue] at hv
    · rw [hv] at hj
      simpa using hj.symm

theorem secondsPart_wellFormed (ts : String) (d f : List Char) (hts : ts.data = d ++ f)
    (hd : ∀ c ∈ d, (digitValue c).isSome = true)
    (hf : f = [] ∨ ∃ g, f = '.' :: g ∧ ∀ c ∈ g, (digitValue c).isSome = true) :
    secondsPart ts = d ∧ ts.data.count '.' ≤ 1 := by
  have hdot : '.' ∉ d := fun hm => digit_ne_dot (hd _ hm) rfl
  unfold secondsPart
  rcases hf with rfl | ⟨g, rfl, hg⟩
  · rw [hts, List.append_nil, stringsSplit_of_not_mem '.' d hdot]
    exact ⟨rfl, by rw [List.count_eq_zero_of_not_mem hdot]; omega⟩
  · have hgdot : '.' ∉ g := fun hm => digit_ne_dot (hg _ hm) rfl
    rw [hts, stringsSplit_one_sep '.' d g hdot hgdot]
    refine ⟨rfl, ?_⟩
    rw [List.count_append, List.count_cons_self, List.count_eq_zero_of_not_mem hdot,
      List.count_eq_zero_of_not_mem hgdot]

theorem timestampSeconds_wellFormed (ts : String) (d f : List Char) (hts : ts.data = d ++ f)
    (hne : d ≠ []) (hd : ∀ c ∈ d, (digitValue c).isSome = true)
    (hf : f = [] ∨ ∃ g, f = '.' :: g ∧ ∀ c ∈ g, (digitValue c).isSome = true)
    (v : Nat) (hv : parseDigits d 0 = some v) (s : Int) (hs : timestampSeconds ts = some s) :
    s = (v : Int) := by
  obtain ⟨hsec, hcount⟩ := secondsPart_wellFormed ts d f hts hd hf
  have hdata : ts.data ≠ [] := by
    rw [hts]
    exact List.append_ne_nil_of_left_ne_nil hne _
  have hparse : parseTimestamp 0 ts =
      match ParseInt d with
      | none => .panic .parseError
      | some i => .ok (some { unix := i, offset := 0 }) := by
    rcases Nat.lt_or_ge 0 (ts.data.count '.') with hpos | hzero
    · rw [parseTimestamp_dotted 0 ts (by omega), hsec]
    · have hdot : '.' ∉ ts.data := by
        intro hmem
        have := List.count_pos_iff.mpr hmem
        omega
      rw [parseTimestamp_whole 0 ts hdata hdot]
      unfold secondsPart at hsec
      rw [stringsSplit_of_not_mem '.' ts.data hdot] at hsec
      simp only [List.headD_cons] at hsec
      rw [hsec]
  unfold timestampSeconds at hs
  rw [hparse] at hs
  cases hp : ParseInt d with
  | none => rw [hp] at hs; cases hs
  | some i =>
    rw [hp] at hs
    simp only [Option.some.injEq] at hs
    rw [← hs]
    exact ParseInt_value_of_digits d i v hp hv

/-- The first half of C17, on two timestamps. -/
theorem wellFormed_seconds_le (k : Nat) (a b : String) (ha : WellFormedTimestamp k a)
    (hb : WellFormedTimestamp k b) (hlt : stringLess a b = true) :
    ∃ na nb : Nat, parseDigits (secondsPart a) 0 = some na ∧
      parseDigits (secondsPart b) 0 = some nb ∧ na ≤ nb ∧
      (∀ sa, timestampSeconds a = some sa → sa = (na : Int)) ∧
      (∀ sb, timestampSeconds b = some sb → sb = (nb : Int)) := by
  obtain ⟨da, fa, hda, hla, hk, hdiga, hfa⟩ := ha
  obtain ⟨db, fb, hdb, hlb, _, hdigb, hfb⟩ := hb
  obtain ⟨va, _, hva⟩ := parseDigits_digits da hdiga
  obtain ⟨vb, _, hvb⟩ := parseDigits_digits db hdigb
  have hva0 : parseDigits da 0 = some va := by simpa using hva 0
  have hvb0 : parseDigits db 0 = some vb := by simpa using hvb 0
  have hlex : da ++ fa < db ++ fb := by
    unfold stringLess at hlt
    rw [hda, hdb] at hlt
    exact of_decide_eq_true hlt
  have hle : va ≤ vb :=
    digits_value_le_of_lt da db fa fb (by rw [hla, hlb]) hdiga hdigb hlex 0 0 va vb
      (Nat.le_refl 0) hva0 hvb0
  have hnea : da ≠ [] := by
    intro h; rw [h] at hla; simp at hla; omega
  have hneb : db ≠ [] := by
    intro h; rw [h] at hlb; simp at hlb; omega
  refine ⟨va, vb, ?_, ?_, hle, ?_, ?_⟩
  · rw [(secondsPart_wellFormed a da fa hda hdiga hfa).1]; exact hva0
  · rw [(secondsPart_wellFormed b db fb hdb hdigb hfb).1]; exact hvb0
  · exact fun sa hsa => timestampSeconds_wellFormed a da fa hda hnea hdiga hfa va hva0 sa hsa
  · exact fun sb hsb => timestampSeconds_wellFormed b db fb hdb hneb hdigb hfb vb hvb0 sb hsb

theorem timestampSeconds_of_parses {ts : String} (h : timestampParses ts = true) :
    ∃ s, timestampSeconds ts = some s := by
  unfold timestampParses at h
  unfold timestampSeconds
  split at h
  · rename_i t ht
    exact ⟨t.unix, rfl⟩
  · cases h

/-- C17: for two well-formed timestamps (digits, optionally followed by '.' and
digits) whose seconds parts have the same number `k` of digits, `a < b` in the
comparison of `byTimestamp.Less` implies that the seconds of `a` are at most the
seconds of `b`, both as numbers and as what `parseTimestamp` extracts; hence a
list of such timestamps that parse is sorted by `sort.Sort` into a sequence whose
parsed seconds never decrease. -/
theorem byTimestamp_order_is_seconds_order (k : Nat) :
    (∀ a b : String, WellFormedTimestamp k a → WellFormedTimestamp k b →
      stringLess a b = true →
      ∃ na nb : Nat, parseDigits (secondsPart a) 0 = some na ∧
        parseDigits (secondsPart b) 0 = some nb ∧ na ≤ nb ∧
        (∀ sa, timestampSeconds a = some sa → sa = (na : Int)) ∧
        (∀ sb, timestampSeconds b = some sb → sb = (nb : Int))) ∧
    (∀ alg : Nat → SortProg, SortContract alg → ∀ messages : List Message,
      (∀ m ∈ messages, WellFormedTimestamp k m.Timestamp ∧
        timestampParses m.Timestamp = true) →
      ∃ sorted, sortSort alg messages = some sorted ∧
        sorted.Pairwise (fun x y => secondsLE x.Timestamp y.Timestamp = true)) := by
  refine ⟨fun a b ha hb hlt => wellFormed_seconds_le k a b ha hb hlt, ?_⟩
  intro alg hc messages hall
  obtain ⟨sorted, hsort, hsorted, hperm⟩ := sortSort_sorted hc messages
  refine ⟨sorted, hsort, ?_⟩
  unfold SortedByTimestamp at hsorted
  refine List.Pairwise.imp_of_mem ?_ hsorted
  intro x y hx hy hle
  obtain ⟨hwx, hpx⟩ := hall x (hperm.subset hx)
  obtain ⟨hwy, hpy⟩ := hall y (hperm.subset hy)
  obtain ⟨sx, hsx⟩ := timestampSeconds_of_parses hpx
  obtain ⟨sy, hsy⟩ := timestampSeconds_of_parses hpy
  unfold secondsLE
  rw [hsx, hsy]
  apply decide_eq_true
  rcases eq_or_lt_of_le hle with heq | hlt
  · rw [heq, hsy] at hsx
    exact le_of_eq (Option.some.inj hsx).symm
  · obtain ⟨na, nb, _, _, hnab, ha, hb⟩ :=
      wellFormed_seconds_le k x.Timestamp y.Timestamp hwx hwy ((stringLess_iff _ _).mpr hlt)
    rw [ha sx hsx, hb sy hsy]
    exact_mod_cast hnab

theorem byTimestamp_order_is_seconds_order_witness :
    (∃ na nb : Nat, parseDigits (secondsPart "1446768000.000002") 0 = some na ∧
        parseDigits (secondsPart "1446771600") 0 = some nb ∧ na ≤ nb ∧
        (∀ sa, timestampSeconds "1446768000.000002" = some sa → sa = (na : Int)) ∧
        (∀ sb, timestampSeconds "1446771600" = some sb → sb = (nb : Int))) ∧
      ∃ sorted, sortSort insertionSort [msgAt "1446771600", msgAt "1446768000.000002"] =
          some sorted ∧
        sorted.Pairwise (fun x y => secondsLE x.Timestamp y.Timestamp = true) :=
  have hwa : WellFormedTimestamp 10 "1446768000.000002" :=
    ⟨"1446768000".data, ".000002".data, rfl, rfl, by decide, by decide,
      Or.inr ⟨"000002".data, rfl, by decide⟩⟩
  have hwb : WellFormedTimestamp 10 "1446771600" :=
    ⟨"1446771600".data, [], rfl, rfl, by decide, by decide, Or.inl rfl⟩
  ⟨(byTimestamp_order_is_seconds_order 10).1 "1446768000.000002" "1446771600" hwa hwb
      (by decide),
   (byTimestamp_order_is_seconds_order 10).2 insertionSort insertionSort_contract
      [msgAt "1446771600", msgAt "1446768000.000002"]
      (by
        intro m hm
        simp only [List.mem_cons, List.mem_singleton, List.not_mem_nil, or_false] at hm
        rcases hm with rfl | rfl
        · exact ⟨hwb, by decide⟩
        · exact ⟨hwa, by decide⟩)⟩


/-! ## Theorems: the sort is not stable -/

theorem byTimestamp.Swap_length {m m' : byTimestamp} {i j : Nat}
    (h : byTimestamp.Swap m i j = some m') : m'.length = m.length :=
  (byTimestamp.Swap_perm h).length_eq

theorem shellPass_run (next : SortProg) :
    ∀ (count i : Nat) (m : byTimestamp), 6 ≤ i → i + count ≤ m.length →
      ∃ m', m'.length = m.length ∧ (shellPass next count i).run m = next.run m' := by
  intro count
  induction count with
  | zero => intro i m _ _; exact ⟨m, rfl, rfl⟩
  | succ count ih =>
    intro i m hi hlen
    have h1 : i < m.length := by omega
    have h2 : i - 6 < m.length := by omega
    simp only [shellPass, SortProg.run, byTimestamp.Less, List.getElem?_eq_getElem h1,
      List.getElem?_eq_getElem h2]
    split_ifs
    · simp only [SortProg.run, byTimestamp.Swap, List.getElem?_eq_getElem h1,
        List.getElem?_eq_getElem h2]
      obtain ⟨m', hm', hrun⟩ := ih (i + 1) ((m.set i m[i - 6]).set (i - 6) m[i]) (by omega)
        (by simp; omega)
      exact ⟨m', by simpa using hm', hrun⟩
    · exact ih (i + 1) m (by omega) (by omega)

/-- The shell pass followed by insertion sort meets the contract of `sort.Sort`. -/
theorem shellInsertionSort_contract : SortContract shellInsertionSort := by
  intro m
  have hpass : ∃ m', m'.length = m.length ∧
      (shellPass (insertionSort m.length) (m.length - 6) 6).run m =
        (insertionSort m.length).run m' := by
    rcases Nat.lt_or_ge m.length 6 with hshort | hlong
    · have hzero : m.length - 6 = 0 := by omega
      rw [hzero]
      exact ⟨m, rfl, rfl⟩
    · exact shellPass_run (insertionSort m.length) (m.length - 6) 6 m (Nat.le_refl 6) (by omega)
  obtain ⟨m', hlen, hrun⟩ := hpass
  obtain ⟨out, hout, hsorted⟩ := insertionSort_contract m'
  refine ⟨out, ?_, hsorted⟩
  unfold sortSort byTimestamp.Len at hout ⊢
  unfold shellInsertionSort
  rw [hrun, ← hlen]
  exact hout

theorem map_injOn_eq {α β : Type} (f : α → β) :
    ∀ (l₁ l₂ : List α), (∀ x ∈ l₁, ∀ y ∈ l₂, f x = f y → x = y) → l₁.map f = l₂.map f →
      l₁ = l₂ := by
  intro l₁
  induction l₁ with
  | nil =>
    intro l₂ _ h
    cases l₂ with
    | nil => rfl
    | cons _ _ => simp at h
  | cons a as ih =>
    intro l₂ hinj h
    cases l₂ with
    | nil => simp at h
    | cons b bs =>
      simp only [List.map_cons, List.cons.injEq] at h
      have hab : a = b := hinj a (List.mem_cons_self _ _) b (List.mem_cons_self _ _) h.1
      have hrest : as = bs :=
        ih bs (fun x hx y hy => hinj x (List.mem_cons_of_mem _ hx) y (List.mem_cons_of_mem _ hy))
          h.2
      rw [hab, hrest]

/-- C16 as stated fails: `sort.Sort` is not stable. On `tiedMessages`, whose first
two messages have the same timestamp, the shell pass swaps the first message
with the last one, and the sorted list has the message fetched second before the
message fetched first. -/
theorem sortSort_reorders_equal_timestamps :
    sortSort shellInsertionSort tiedMessages =
      some [msgText "1446768001.000000" "", msgText "1446768002.000000" "second",
        msgText "1446768002.000000" "first", msgText "1446768003.000000" "",
        msgText "1446768004.000000" "", msgText "1446768005.000000" "",
        msgText "1446768006.000000" ""] ∧
      tiedMessages.indexOf (msgText "1446768002.000000" "first") <
        tiedMessages.indexOf (msgText "1446768002.000000" "second") := by
  decide

/-- C16 (amended): the ordering step of `dumpChannel` is not stable. What holds
for every message list is that the messages with one and the same `Timestamp`
string end up next to each other in the sorted output (whatever lies between two
of them has their timestamp), in an order that `sort.Sort` does not fix; and when
the `Timestamp` strings of the list are pairwise different, every fetch order of
the same messages is sorted into the same list. -/
theorem sortSort_equal_timestamps_adjacent (alg : Nat → SortProg) (hc : SortContract alg)
    (messages : List Message) :
    ∃ r, sortSort alg messages = some r ∧
      (∀ (i k j : Nat) (x y z : Message), i < k → k < j →
        r[i]? = some x → r[k]? = some y → r[j]? = some z →
        x.Timestamp = z.Timestamp → y.Timestamp = x.Timestamp) ∧
      ((messages.map (fun m => m.Timestamp)).Nodup →
        ∀ other, List.Perm other messages → sortSort alg other = some r) := by
  obtain ⟨r, hr, hs, hp⟩ := sortSort_sorted hc messages
  refine ⟨r, hr, ?_, ?_⟩
  · intro i k j x y z hik hkj hx hy hz hxz
    obtain ⟨hi, rfl⟩ := List.getElem?_eq_some.mp hx
    obtain ⟨hk, rfl⟩ := List.getElem?_eq_some.mp hy
    obtain ⟨hj, rfl⟩ := List.getElem?_eq_some.mp hz
    unfold SortedByTimestamp at hs
    rw [List.pairwise_iff_getElem] at hs
    have h1 := hs i k hi hk hik
    have h2 := hs k j hk hj hkj
    rw [← hxz] at h2
    exact le_antisymm h2 h1
  · intro hnodup other hother
    obtain ⟨r', hr', hs', hp'⟩ := sortSort_sorted hc other
    have hmap := sorted_timestamps_unique hs' hs ((hp'.trans hother).trans hp.symm)
    have hinj := List.inj_on_of_nodup_map hnodup
    have heq : r' = r := by
      apply map_injOn_eq (fun m => m.Timestamp) r' r _ hmap
      intro x hx y hy hxy
      exact hinj ((hp'.trans hother).subset hx) (hp.subset hy) hxy
    rw [hr', heq]

theorem sortSort_equal_timestamps_adjacent_witness :
    ∃ r, sortSort shellInsertionSort tiedMessages = some r ∧
      (∀ (i k j : Nat) (x y z : Message), i < k → k < j →
        r[i]? = some x → r[k]? = some y → r[j]? = some z →
        x.Timestamp = z.Timestamp → y.Timestamp = x.Timestamp) ∧
      ((tiedMessages.map (fun m => m.Timestamp)).Nodup →
        ∀ other, List.Perm other tiedMessages → sortSort shellInsertionSort other = some r) :=
  sortSort_equal_timestamps_adjacent shellInsertionSort shellInsertionSort_contract tiedMessages


/-! ## Theorems: room selection -/

theorem foldl_filter_append {α : Type} (fn : α → Bool) (s : List α) :
    ∀ p : List α, s.foldl (fun p v => if fn v then p ++ [v] else p) p = p ++ s.filter fn := by
  induction s with
  | nil => intro p; simp
  | cons v rest ih =>
    intro p
    rw [List.foldl_cons, ih]
    by_cases h : fn v = true
    · simp [h]
    · simp [h]

theorem FilterChannels_eq (s : List Channel) (fn : Channel → Bool) :
    FilterChannels s fn = s.filter fn := by
  unfold FilterChannels
  rw [foldl_filter_append]
  rfl

theorem FilterGroups_eq (s : List Group) (fn : Group → Bool) :
    FilterGroups s fn = s.filter fn := by
  unfold FilterGroups
  rw [foldl_filter_append]
  rfl

theorem roomSelected_iff (rooms : List String) (name : String) :
    roomSelected rooms name = true ↔ name ∈ rooms := by
  induction rooms with
  | nil => simp [roomSelected]
  | cons room rest ih =>
    unfold roomSelected
    by_cases h : room = name
    · simp [h]
    · have h' : ¬ name = room := fun e => h e.symm
      simp [h, h', ih]

theorem roomSelected_eq (rooms : List String) (name : String) :
    roomSelected rooms name = decide (name ∈ rooms) := by
  by_cases h : name ∈ rooms
  · rw [(roomSelected_iff rooms name).mpr h, decide_eq_true h]
  · have : roomSelected rooms name = false := by
      rw [← Bool.not_eq_true, roomSelected_iff]; exact h
    rw [this, decide_eq_false h]


theorem dumpChannel_eq {σ : Type} (alg : Nat → SortProg) (loc : Int) (api : Client σ)
    (dir id name channelType : String) (fuel : Nat) (w : σ) :
    dumpChannel alg loc api dir id name channelType fuel w =
      match fetchRoomHistory api channelType id fuel w with
      | .panic f => .panic f
      | .diverge => .diverge
      | .ok r =>
        match dumpMessages alg loc dir name r.messages with
        | .panic f => .panic f
        | .diverge => .diverge
        | .ok calls => .ok (calls, r.world) := rfl

/-- The loop over the rooms does what the specification's export of the rooms
does, adding to the calls made before it. -/
theorem dumpEach_exportRooms {σ : Type} (alg : Nat → SortProg) (loc : Int) (api : Client σ)
    (dir channelType : String) (fuel : Nat) :
    ∀ (pairs : List (String × String)) (dumped : List (String × String × String))
      (calls : List WriteCall) (w : σ),
      dumpEach alg loc api dir channelType fuel pairs dumped calls w =
        match exportRooms alg loc api dir channelType fuel pairs w with
        | .panic f => .panic f
        | .diverge => .diverge
        | .ok (more, w') =>
          .ok (dumped ++ pairs.map (fun p => (p.1, p.2, channelType)), calls ++ more, w') := by
  intro pairs
  induction pairs with
  | nil => intro dumped calls w; simp [dumpEach, exportRooms]
  | cons p rest ih =>
    intro dumped calls w
    obtain ⟨id, name⟩ := p
    simp only [dumpEach, exportRooms, dumpChannel_eq]
    cases fetchRoomHistory api channelType id fuel w with
    | panic f => rfl
    | diverge => rfl
    | ok r =>
      simp only
      cases dumpMessages alg loc dir name r.messages with
      | panic f => rfl
      | diverge => rfl
      | ok c =>
        simp only
        rw [ih]
        cases exportRooms alg loc api dir channelType fuel rest r.world with
        | panic f => rfl
        | diverge => rfl
        | ok q =>
          obtain ⟨more, w'⟩ := q
          simp

/-- The calls the loop adds carry the directory and the name of the room. -/
theorem partitionLoop_calls_room (loc : Int) (dir name : String) :
    ∀ (msgs : List Message) (cf : String) (cm : List Message) (calls : List WriteCall)
      (cf' : String) (cm' : List Message) (calls' : List WriteCall),
      partitionLoop loc dir name msgs cf cm calls = .ok (cf', cm', calls') →
      (∀ c ∈ calls, c.dir = dir ∧ c.name = name) →
      ∀ c ∈ calls', c.dir = dir ∧ c.name = name := by
  intro msgs
  induction msgs with
  | nil =>
    intro cf cm calls cf' cm' calls' h hcalls
    simp only [partitionLoop, Run.ok.injEq, Prod.mk.injEq] at h
    obtain ⟨_, _, rfl⟩ := h
    exact hcalls
  | cons x rest ih =>
    intro cf cm calls cf' cm' calls' h hcalls
    cases hx : parseTimestamp loc x.Timestamp with
    | panic f => simp [partitionLoop, hx] at h
    | diverge => simp [partitionLoop, hx] at h
    | ok r =>
      cases r with
      | none => simp [partitionLoop, hx] at h
      | some t =>
        simp only [partitionLoop, hx] at h
        split_ifs at h
        · refine ih _ _ _ _ _ _ h ?_
          intro c hc
          rcases List.mem_append.mp hc with hc | hc
          · exact hcalls c hc
          · rw [List.mem_singleton] at hc
            subst hc
            exact ⟨rfl, rfl⟩
        · exact ih _ _ _ _ _ _ h hcalls

theorem dumpMessages_calls_room (alg : Nat → SortProg) (loc : Int) (dir name : String)
    (messages : List Message) (calls : List WriteCall)
    (h : dumpMessages alg loc dir name messages = .ok calls) :
    ∀ c ∈ calls, c.dir = dir ∧ c.name = name := by
  unfold dumpMessages at h
  split_ifs at h
  · cases h
    intro c hc
    cases hc
  · cases hs : sortSort alg messages with
    | none => rw [hs] at h; cases h
    | some sorted =>
      rw [hs] at h
      simp only at h
      cases hp : partitionLoop loc dir name sorted "" [] [] with
      | panic f => rw [hp] at h; cases h
      | diverge => rw [hp] at h; cases h
      | ok q =>
        obtain ⟨cf', cm', calls'⟩ := q
        rw [hp] at h
        simp only [Run.ok.injEq] at h
        subst h
        intro c hc
        rcases List.mem_append.mp hc with hc | hc
        · exact partitionLoop_calls_room loc dir name sorted "" [] [] cf' cm' calls' hp
            (by intro c hc; cases hc) c hc
        · rw [List.mem_singleton] at hc
          subst hc
          exact ⟨rfl, rfl⟩

/-- Every call of `writeMessagesFile` in the export of a list of rooms is for the
export directory and the name of one of the rooms. -/
theorem exportRooms_calls_room {σ : Type} (alg : Nat → SortProg) (loc : Int) (api : Client σ)
    (dir channelType : String) (fuel : Nat) :
    ∀ (pairs : List (String × String)) (w : σ) (calls : List WriteCall) (w' : σ),
      exportRooms alg loc api dir channelType fuel pairs w = .ok (calls, w') →
      ∀ c ∈ calls, c.dir = dir ∧ ∃ p ∈ pairs, c.name = p.2 := by
  intro pairs
  induction pairs with
  | nil =>
    intro w calls w' h c hc
    simp only [exportRooms, Run.ok.injEq, Prod.mk.injEq] at h
    rw [← h.1] at hc
    cases hc
  | cons p rest ih =>
    intro w calls w' h c hc
    obtain ⟨id, name⟩ := p
    simp only [exportRooms] at h
    cases hf : fetchRoomHistory api channelType id fuel w with
    | panic f => rw [hf] at h; cases h
    | diverge => rw [hf] at h; cases h
    | ok r =>
      rw [hf] at h
      simp only at h
      cases hd : dumpMessages alg loc dir name r.messages with
      | panic f => rw [hd] at h; cases h
      | diverge => rw [hd] at h; cases h
      | ok cs =>
        rw [hd] at h
        simp only at h
        cases he : exportRooms alg loc api dir channelType fuel rest r.world with
        | panic f => rw [he] at h; cases h
        | diverge => rw [he] at h; cases h
        | ok q =>
          obtain ⟨more, w2⟩ := q
          rw [he] at h
          simp only [Run.ok.injEq, Prod.mk.injEq] at h
          obtain ⟨hcalls, _⟩ := h
          rw [← hcalls] at hc
          rcases List.mem_append.mp hc with hc | hc
          · have := dumpMessages_calls_room alg loc dir name r.messages cs hd c hc
            exact ⟨this.1, (id, name), List.mem_cons_self _ _, this.2⟩
          · obtain ⟨hdir, q, hq, hname⟩ := ih r.world more w2 he c hc
            exact ⟨hdir, q, List.mem_cons_of_mem _ hq, hname⟩

/-- The pagination loop changes the world only by history calls for its room. -/
theorem channelHistoryLoop_frame {σ : Type} (api : Client σ) (ID : String)
    (R : σ → σ → Prop) (hrefl : ∀ a, R a a) (htrans : ∀ a b c, R a b → R b c → R a c)
    (hstep : ∀ p a h b, api.GetChannelHistory ID p a = .ok (h, b) → R a b) :
    ∀ (fuel : Nat) (hp : HistoryParameters) (h : History) (latest : String)
      (ms : List Message) (reqs : List HistoryParameters) (w : σ) (r : Fetched σ),
      channelHistoryLoop api ID fuel hp h latest ms reqs w = .ok r → R w r.world := by
  intro fuel
  induction fuel with
  | zero =>
    intro hp h latest ms reqs w r hr
    simp only [channelHistoryLoop] at hr
    split_ifs at hr
    cases hr
    exact hrefl _
  | succ fuel ih =>
    intro hp h latest ms reqs w r hr
    simp only [channelHistoryLoop] at hr
    split_ifs at hr with hmore
    · cases hr
      exact hrefl _
    · cases hcall : api.GetChannelHistory ID { hp with Latest := latest } w with
      | error e => rw [hcall] at hr; cases hr
      | ok q =>
        obtain ⟨h2, w2⟩ := q
        rw [hcall] at hr
        simp only at hr
        have hw := hstep _ _ _ _ hcall
        split_ifs at hr
        · cases hg : goIndex h2.Messages ((h2.Messages.length : Int) - 1) with
          | none => rw [hg] at hr; cases hr
          | some m =>
            rw [hg] at hr
            exact htrans _ _ _ hw (ih _ _ _ _ _ _ _ hr)
        · exact htrans _ _ _ hw (ih _ _ _ _ _ _ _ hr)

theorem fetchChannelHistory_frame {σ : Type} (api : Client σ) (ID : String)
    (R : σ → σ → Prop) (hrefl : ∀ a, R a a) (htrans : ∀ a b c, R a b → R b c → R a c)
    (hstep : ∀ p a h b, api.GetChannelHistory ID p a = .ok (h, b) → R a b)
    (fuel : Nat) (w : σ) (r : Fetched σ)
    (hr : fetchChannelHistory api ID fuel w = .ok r) : R w r.world := by
  unfold fetchChannelHistory at hr
  simp only at hr
  cases hcall : api.GetChannelHistory ID { NewHistoryParameters with Count := 1000 } w with
  | error e => rw [hcall] at hr; cases hr
  | ok q =>
    obtain ⟨h, w2⟩ := q
    rw [hcall] at hr
    simp only at hr
    cases hg : goIndex h.Messages ((h.Messages.length : Int) - 1) with
    | none => rw [hg] at hr; cases hr
    | some m =>
      rw [hg] at hr
      exact htrans _ _ _ (hstep _ _ _ _ hcall)
        (channelHistoryLoop_frame api ID R hrefl htrans hstep _ _ _ _ _ _ _ _ hr)

theorem fetchGroupHistory_frame {σ : Type} (api : Client σ) (ID : String)
    (R : σ → σ → Prop) (hrefl : ∀ a, R a a) (htrans : ∀ a b c, R a b → R b c → R a c)
    (hstep : ∀ p a h b, api.GetGroupHistory ID p a = .ok (h, b) → R a b)
    (fuel : Nat) (w : σ) (r : Fetched σ)
    (hr : fetchGroupHistory api ID fuel w = .ok r) : R w r.world := by
  rw [fetchGroupHistory_eq] at hr
  exact fetchChannelHistory_frame ⟨api.GetGroupHistory, api.GetGroupHistory⟩ ID R hrefl htrans
    hstep fuel w r hr

/-- The export of a list of rooms changes the world only by the history fetches
for these rooms. -/
theorem exportRooms_frame {σ : Type} (alg : Nat → SortProg) (loc : Int) (api : Client σ)
    (dir channelType : String) (fuel : Nat)
    (R : σ → σ → Prop) (hrefl : ∀ a, R a a) (htrans : ∀ a b c, R a b → R b c → R a c) :
    ∀ (pairs : List (String × String)) (w : σ) (calls : List WriteCall) (w' : σ),
      (∀ p ∈ pairs, ∀ a r, fetchRoomHistory api channelType p.1 fuel a = .ok r → R a r.world) →
      exportRooms alg loc api dir channelType fuel pairs w = .ok (calls, w') → R w w' := by
  intro pairs
  induction pairs with
  | nil =>
    intro w calls w' _ h
    simp only [exportRooms, Run.ok.injEq, Prod.mk.injEq] at h
    rw [← h.2]
    exact hrefl _
  | cons p rest ih =>
    intro w calls w' hfetch h
    obtain ⟨id, name⟩ := p
    simp only [exportRooms] at h
    cases hf : fetchRoomHistory api channelType id fuel w with
    | panic f => rw [hf] at h; cases h
    | diverge => rw [hf] at h; cases h
    | ok r =>
      rw [hf] at h
      simp only at h
      cases hd : dumpMessages alg loc dir name r.messages with
      | panic f => rw [hd] at h; cases h
      | diverge => rw [hd] at h; cases h
      | ok cs =>
        rw [hd] at h
        simp only at h
        cases he : exportRooms alg loc api dir channelType fuel rest r.world with
        | panic f => rw [he] at h; cases h
        | diverge => rw [he] at h; cases h
        | ok q =>
          obtain ⟨more, w2⟩ := q
          rw [he] at h
          simp only [Run.ok.injEq, Prod.mk.injEq] at h
          obtain ⟨_, hw⟩ := h
          subst hw
          exact htrans _ _ _ (hfetch (id, name) (List.mem_cons_self _ _) w r hf)
            (ih r.world more w2 (fun q hq => hfetch q (List.mem_cons_of_mem _ hq)) he)

theorem selected_channels_eq (rooms : List String) (channels : List Channel) :
    (if rooms.length > 0 then
        FilterChannels channels (fun channel => roomSelected rooms channel.Name)
      else channels) =
      (if rooms = [] then channels else channels.filter (fun c => decide (c.Name ∈ rooms))) := by
  cases rooms with
  | nil => rfl
  | cons room rest =>
    simp only [List.length_cons, Nat.zero_lt_succ, if_true, FilterChannels_eq, roomSelected_eq]
    rfl

theorem selected_groups_eq (rooms : List String) (groups : List Group) :
    (if rooms.length > 0 then
        FilterGroups groups (fun group => roomSelected rooms group.Name)
      else groups) =
      (if rooms = [] then groups else groups.filter (fun g => decide (g.Name ∈ rooms))) := by
  cases rooms with
  | nil => rfl
  | cons room rest =>
    simp only [List.length_cons, Nat.zero_lt_succ, if_true, FilterGroups_eq, roomSelected_eq]
    rfl

/-- What `dumpChannels` does, given the list of rooms the API answers with. -/
theorem dumpChannels_eq {σ : Type} (alg : Nat → SortProg) (loc : Int) (api : RoomsClient σ)
    (dir : String) (rooms : List String) (fuel : Nat) (w wc : σ) (channels : List Channel)
    (hchannels : api.GetChannels false w = .ok (channels, wc)) (selected : List Channel)
    (hsel : selected = (if rooms = [] then channels
      else channels.filter (fun c => decide (c.Name ∈ rooms)))) :
    dumpChannels alg loc api dir rooms fuel w =
      match exportRooms alg loc api.history dir "channel" fuel
          (selected.map (fun c => (c.ID, c.Name))) wc with
      | .panic f => .panic f
      | .diverge => .diverge
      | .ok (calls, w') =>
        .ok { rooms := selected, dumped := selected.map (fun c => (c.ID, c.Name, "channel")),
              calls := calls, world := w' } := by
  simp only [dumpChannels, hchannels, selected_channels_eq, ← hsel]
  by_cases hempty : selected = []
  · subst hempty
    rfl
  · have hlen : (selected.length == 0) = false := by simpa using hempty
    simp only [hlen, Bool.false_eq_true, if_false, dumpEach_exportRooms]
    cases exportRooms alg loc api.history dir "channel" fuel
        (selected.map (fun c => (c.ID, c.Name))) wc with
    | panic f => rfl
    | diverge => rfl
    | ok q =>
      obtain ⟨calls, w'⟩ := q
      simp [List.map_map, Function.comp]

/-- What `dumpGroups` does, given the list of rooms the API answers with. -/
theorem dumpGroups_eq {σ : Type} (alg : Nat → SortProg) (loc : Int) (api : RoomsClient σ)
    (dir : String) (rooms : List String) (fuel : Nat) (w wg : σ) (groups : List Group)
    (hgroups : api.GetGroups false w = .ok (groups, wg)) (selected : List Group)
    (hsel : selected = (if rooms = [] then groups
      else groups.filter (fun g => decide (g.Name ∈ rooms)))) :
    dumpGroups alg loc api dir rooms fuel w =
      match exportRooms alg loc api.history dir "group" fuel
          (selected.map (fun g => (g.ID, g.Name))) wg with
      | .panic f => .panic f
      | .diverge => .diverge
      | .ok (calls, w') =>
        .ok { rooms := selected, dumped := selected.map (fun g => (g.ID, g.Name, "group")),
              calls := calls, world := w' } := by
  simp only [dumpGroups, hgroups, selected_groups_eq, ← hsel]
  by_cases hempty : selected = []
  · subst hempty
    rfl
  · have hlen : (selected.length == 0) = false := by simpa using hempty
    simp only [hlen, Bool.false_eq_true, if_false, dumpEach_exportRooms]
    cases exportRooms alg loc api.history dir "group" fuel
        (selected.map (fun g => (g.ID, g.Name))) wg with
    | panic f => rfl
    | diverge => rfl
    | ok q =>
      obtain ⟨calls, w'⟩ := q
      simp [List.map_map, Function.comp]

/-- C11: `dumpChannels` and `dumpGroups` select by exact name. Let `selected` be
every room the API lists when the selection is empty, and otherwise the rooms
whose `Name` is equal to some entry of the selection, in the original order.
Then the function does what the export of `selected` does (`exportRooms`: for
each room of `selected` in turn, its history is fetched under its `ID` and the
messages are written to its day files under its `Name`): it returns, aborts or
runs on as that export does, and when it returns it returns `selected` and has
made the calls of `writeMessagesFile` of that export. Every one of these calls
is for the export directory and the name of a room of `selected`. History is
fetched for no other room: between the listing of the rooms and the return the
world of the API has changed only by history calls (of the method for the room
type) for the `ID` of a room of `selected`. -/
theorem dumpChannels_dumpGroups_select {σ : Type} (alg : Nat → SortProg) (loc : Int)
    (api : RoomsClient σ) (dir : String) (rooms : List String) (fuel : Nat) :
    (∀ (w wc : σ) (channels selected : List Channel),
      api.GetChannels false w = .ok (channels, wc) →
      selected = (if rooms = [] then channels
        else channels.filter (fun c => decide (c.Name ∈ rooms))) →
      (dumpChannels alg loc api dir rooms fuel w =
        match exportRooms alg loc api.history dir "channel" fuel
            (selected.map (fun c => (c.ID, c.Name))) wc with
        | .panic f => .panic f
        | .diverge => .diverge
        | .ok (calls, w') =>
          .ok { rooms := selected, dumped := selected.map (fun c => (c.ID, c.Name, "channel")),
                calls := calls, world := w' }) ∧
      ∀ r, dumpChannels alg loc api dir rooms fuel w = .ok r →
        r.rooms = selected ∧
        (∀ c ∈ r.calls, c.dir = dir ∧ ∃ room ∈ selected, c.name = room.Name) ∧
        ∀ R : σ → σ → Prop, (∀ a, R a a) → (∀ a b c, R a b → R b c → R a c) →
          (∀ room ∈ selected, ∀ p a h b,
            api.history.GetChannelHistory room.ID p a = .ok (h, b) → R a b) →
          R wc r.world) ∧
    (∀ (w wg : σ) (groups selected : List Group),
      api.GetGroups false w = .ok (groups, wg) →
      selected = (if rooms = [] then groups
        else groups.filter (fun g => decide (g.Name ∈ rooms))) →
      (dumpGroups alg loc api dir rooms fuel w =
        match exportRooms alg loc api.history dir "group" fuel
            (selected.map (fun g => (g.ID, g.Name))) wg with
        | .panic f => .panic f
        | .diverge => .diverge
        | .ok (calls, w') =>
          .ok { rooms := selected, dumped := selected.map (fun g => (g.ID, g.Name, "group")),
                calls := calls, world := w' }) ∧
      ∀ r, dumpGroups alg loc api dir rooms fuel w = .ok r →
        r.rooms = selected ∧
        (∀ c ∈ r.calls, c.dir = dir ∧ ∃ room ∈ selected, c.name = room.Name) ∧
        ∀ R : σ → σ → Prop, (∀ a, R a a) → (∀ a b c, R a b → R b c → R a c) →
          (∀ room ∈ selected, ∀ p a h b,
            api.history.GetGroupHistory room.ID p a = .ok (h, b) → R a b) →
          R wg r.world) := by
  constructor
  · intro w wc channels selected hchannels hsel
    have heq := dumpChannels_eq alg loc api dir rooms fuel w wc channels hchannels selected hsel
    refine ⟨heq, ?_⟩
    intro r hr
    rw [heq] at hr
    cases he : exportRooms alg loc api.history dir "channel" fuel
        (selected.map (fun c => (c.ID, c.Name))) wc with
    | panic f => rw [he] at hr; cases hr
    | diverge => rw [he] at hr; cases hr
    | ok q =>
      obtain ⟨calls, w'⟩ := q
      rw [he] at hr
      simp only [Run.ok.injEq] at hr
      subst hr
      refine ⟨rfl, ?_, ?_⟩
      · intro c hc
        obtain ⟨hdir, p, hp, hname⟩ := exportRooms_calls_room alg loc api.history dir "channel"
          fuel _ wc calls w' he c hc
        obtain ⟨room, hroom, rfl⟩ := List.mem_map.mp hp
        exact ⟨hdir, room, hroom, hname⟩
      · intro R hrefl htrans hstep
        refine exportRooms_frame alg loc api.history dir "channel" fuel R hrefl htrans _ wc
          calls w' ?_ he
        intro p hp a r hf
        obtain ⟨room, hroom, rfl⟩ := List.mem_map.mp hp
        exact fetchChannelHistory_frame api.history room.ID R hrefl htrans (hstep room hroom)
          fuel a r hf
  · intro w wg groups selected hgroups hsel
    have heq := dumpGroups_eq alg loc api dir rooms fuel w wg groups hgroups selected hsel
    refine ⟨heq, ?_⟩
    intro r hr
    rw [heq] at hr
    cases he : exportRooms alg loc api.history dir "group" fuel
        (selected.map (fun g => (g.ID, g.Name))) wg with
    | panic f => rw [he] at hr; cases hr
    | diverge => rw [he] at hr; cases hr
    | ok q =>
      obtain ⟨calls, w'⟩ := q
      rw [he] at hr
      simp only [Run.ok.injEq] at hr
      subst hr
      refine ⟨rfl, ?_, ?_⟩
      · intro c hc
        obtain ⟨hdir, p, hp, hname⟩ := exportRooms_calls_room alg loc api.history dir "group"
          fuel _ wg calls w' he c hc
        obtain ⟨room, hroom, rfl⟩ := List.mem_map.mp hp
        exact ⟨hdir, room, hroom, hname⟩
      · intro R hrefl htrans hstep
        refine exportRooms_frame alg loc api.history dir "group" fuel R hrefl htrans _ wg
          calls w' ?_ he
        intro p hp a r hf
        obtain ⟨room, hroom, rfl⟩ := List.mem_map.mp hp
        exact fetchGroupHistory_frame api.history room.ID R hrefl htrans (hstep room hroom)
          fuel a r hf

theorem dumpChannels_dumpGroups_select_witness :
    dumpChannels insertionSort 0 sampleWorkspace "/tmp/slack-dump" ["b"] 5 [] =
      .ok { rooms := [channelNamed "C2" "b"], dumped := [("C2", "b", "channel")],
            calls := [{ messages := [], dir := "/tmp/slack-dump", name := "b", filename := "" },
              { messages := [msgAt "1000.1"], dir := "/tmp/slack-dump", name := "b",
                filename := "1970-01-01.json" }],
            world := [("channels.history", "C2")] } ∧
    dumpGroups insertionSort 0 sampleWorkspace "/tmp/slack-dump" ["b"] 5 [] =
      .ok { rooms := [groupNamed "G1" "b"], dumped := [("G1", "b", "group")],
            calls := [{ messages := [], dir := "/tmp/slack-dump", name := "b", filename := "" },
              { messages := [msgAt "1000.1"], dir := "/tmp/slack-dump", name := "b",
                filename := "1970-01-01.json" }],
            world := [("groups.history", "G1")] } :=
  have h := dumpChannels_dumpGroups_select insertionSort 0 sampleWorkspace "/tmp/slack-dump"
    ["b"] 5
  ⟨((h.1 [] [] [channelNamed "C1" "a", channelNamed "C2" "b", channelNamed "C3" "c"]
      [channelNamed "C2" "b"] rfl (by decide)).1).trans rfl,
    ((h.2 [] [] [groupNamed "G1" "b", groupNamed "G2" "d"]
      [groupNamed "G1" "b"] rfl (by decide)).1).trans rfl⟩


/-! ## Theorems: serialisation -/

theorem replaceFrom_skip (old new : List Char) :
    ∀ (s : List Char) (k : Nat), replaceFrom old new k s = replaceFrom old new 0 (s.drop k) := by
  intro s
  induction s with
  | nil => intro k; cases k <;> rfl
  | cons c cs ih =>
    intro k
    cases k with
    | zero => rfl
    | succ k => simp only [replaceFrom, List.drop_succ_cons]; exact ih k

theorem bytesReplace_nil (old new : List Char) : bytesReplace [] old new = [] := rfl

theorem bytesReplace_cons (old new : List Char) (c : Char) (cs : List Char) :
    bytesReplace (c :: cs) old new =
      if startsWith old (c :: cs) then new ++ bytesReplace (cs.drop (old.length - 1)) old new
      else c :: bytesReplace cs old new := by
  unfold bytesReplace
  simp only [replaceFrom]
  rw [replaceFrom_skip old new cs (old.length - 1)]

theorem startsWith_append (old : List Char) :
    ∀ (X Z : List Char), startsWith old X = true → startsWith old (X ++ Z) = true := by
  induction old with
  | nil => intro X Z _; simp [startsWith]
  | cons p ps ih =>
    intro X Z h
    cases X with
    | nil => simp [startsWith] at h
    | cons x xs =>
      simp only [startsWith, Bool.and_eq_true, List.cons_append] at h ⊢
      exact ⟨h.1, ih xs Z h.2⟩

theorem startsWith_of_append (old : List Char) :
    ∀ (X Z : List Char), old.length ≤ X.length → startsWith old (X ++ Z) = true →
      startsWith old X = true := by
  induction old with
  | nil => intro X Z _ _; simp [startsWith]
  | cons p ps ih =>
    intro X Z hlen h
    cases X with
    | nil => simp at hlen
    | cons x xs =>
      simp only [startsWith, Bool.and_eq_true, List.cons_append] at h ⊢
      exact ⟨h.1, ih xs Z (by simpa using hlen) h.2⟩

/-- A match that starts before a block and runs into it has the first character
of the block after its own first character. -/
theorem startsWith_straddle (t : Char) (Z : List Char) :
    ∀ (old X : List Char), startsWith old (X ++ t :: Z) = true → 0 < X.length →
      X.length < old.length → t ∈ old.tail := by
  intro old
  induction old with
  | nil => intro X _ _ h; simp at h
  | cons p ps ih =>
    intro X h hpos hlt
    cases X with
    | nil => simp at hpos
    | cons x xs =>
      simp only [startsWith, Bool.and_eq_true, List.cons_append] at h
      simp only [List.tail_cons]
      cases xs with
      | nil =>
        cases ps with
        | nil => simp at hlt
        | cons q qs =>
          simp only [List.nil_append, startsWith, Bool.and_eq_true, beq_iff_eq] at h
          rw [← h.2.1]
          exact List.mem_cons_self _ _
      | cons y ys =>
        have := ih (y :: ys) h.2 (by simp) (by simpa using hlt)
        exact List.mem_of_mem_tail this

/-- A block `T` that the scan rewrites to `T'` whatever follows, and whose first
character does not occur in `old` after the first place, is rewritten in place:
what stands before it and what stands after it are scanned on their own. -/
theorem bytesReplace_split (old new T' : List Char) (t : Char) (Trest : List Char)
    (ht : t ∉ old.tail)
    (hT : ∀ Y, bytesReplace (t :: Trest ++ Y) old new = T' ++ bytesReplace Y old new) :
    ∀ (n : Nat) (X Y : List Char), X.length = n →
      bytesReplace (X ++ (t :: Trest ++ Y)) old new =
        bytesReplace X old new ++ (T' ++ bytesReplace Y old new) := by
  intro n
  induction n using Nat.strong_induction_on with
  | _ n ih =>
    intro X Y hn
    cases X with
    | nil => rw [List.nil_append, bytesReplace_nil, List.nil_append]; exact hT Y
    | cons c cs =>
      rw [List.cons_append, bytesReplace_cons, bytesReplace_cons]
      by_cases hm : startsWith old (c :: (cs ++ (t :: Trest ++ Y))) = true
      · have hlen : old.length ≤ (c :: cs).length := by
          by_contra hshort
          have hst := startsWith_straddle t (Trest ++ Y) old (c :: cs)
            (by simpa using hm) (by simp) (by omega)
          exact ht hst
        have hmX : startsWith old (c :: cs) = true :=
          startsWith_of_append old (c :: cs) (t :: Trest ++ Y) hlen (by simpa using hm)
        rw [if_pos hm, if_pos hmX]
        have hdrop : (cs ++ (t :: Trest ++ Y)).drop (old.length - 1) =
            cs.drop (old.length - 1) ++ (t :: Trest ++ Y) := by
          apply List.drop_append_of_le_length
          simp at hlen
          omega
        rw [hdrop, ih (cs.drop (old.length - 1)).length (by simp at hn ⊢; omega) _ Y rfl]
        simp
      · have hmX : ¬ startsWith old (c :: cs) = true := by
          intro h
          exact hm (by simpa using startsWith_append old (c :: cs) (t :: Trest ++ Y) h)
        rw [if_neg hm, if_neg hmX, ih cs.length (by simp at hn; omega) cs Y rfl]
        simp

/-- A character that does not occur in `old` stays where it is. -/
theorem bytesReplace_keep_char (old new : List Char) (c : Char) (hold : old ≠ [])
    (hc : c ∉ old) (X Y : List Char) :
    bytesReplace (X ++ c :: Y) old new = bytesReplace X old new ++ c :: bytesReplace Y old new := by
  have hT : ∀ Y, bytesReplace (c :: [] ++ Y) old new = [c] ++ bytesReplace Y old new := by
    intro Y
    rw [List.cons_append, List.nil_append, bytesReplace_cons]
    have : ¬ startsWith old (c :: Y) = true := by
      cases old with
      | nil => exact absurd rfl hold
      | cons p ps =>
        simp only [startsWith, Bool.and_eq_true, beq_iff_eq, not_and]
        intro h
        exact absurd (h ▸ List.mem_cons_self _ _) hc
    rw [if_neg this]
    rfl
  have := bytesReplace_split old new [c] c [] (fun h => hc (List.mem_of_mem_tail h)) hT
    X.length X Y rfl
  simpa using this

theorem replace_lt (X Y : List Char) :
    bytesReplace (X ++ ("\\u003c".data ++ Y)) "\\u003c".data "<".data =
      bytesReplace X "\\u003c".data "<".data ++ ('<' :: bytesReplace Y "\\u003c".data "<".data) := by
  have hT : ∀ Y, bytesReplace ('\\' :: ['u', '0', '0', '3', 'c'] ++ Y) "\\u003c".data "<".data =
      ['<'] ++ bytesReplace Y "\\u003c".data "<".data := by
    intro Y
    simp [bytesReplace_cons, startsWith]
  exact bytesReplace_split "\\u003c".data "<".data ['<'] '\\' ['u', '0', '0', '3', 'c']
    (by decide) hT X.length X Y rfl

theorem replace_gt (X Y : List Char) :
    bytesReplace (X ++ ("\\u003e".data ++ Y)) "\\u003e".data ">".data =
      bytesReplace X "\\u003e".data ">".data ++ ('>' :: bytesReplace Y "\\u003e".data ">".data) := by
  have hT : ∀ Y, bytesReplace ('\\' :: ['u', '0', '0', '3', 'e'] ++ Y) "\\u003e".data ">".data =
      ['>'] ++ bytesReplace Y "\\u003e".data ">".data := by
    intro Y
    simp [bytesReplace_cons, startsWith]
  exact bytesReplace_split "\\u003e".data ">".data ['>'] '\\' ['u', '0', '0', '3', 'e']
    (by decide) hT X.length X Y rfl

theorem replace_amp (X Y : List Char) :
    bytesReplace (X ++ ("\\u0026".data ++ Y)) "\\u0026".data "&".data =
      bytesReplace X "\\u0026".data "&".data ++ ('&' :: bytesReplace Y "\\u0026".data "&".data) := by
  have hT : ∀ Y, bytesReplace ('\\' :: ['u', '0', '0', '2', '6'] ++ Y) "\\u0026".data "&".data =
      ['&'] ++ bytesReplace Y "\\u0026".data "&".data := by
    intro Y
    simp [bytesReplace_cons, startsWith]
  exact bytesReplace_split "\\u0026".data "&".data ['&'] '\\' ['u', '0', '0', '2', '6']
    (by decide) hT X.length X Y rfl

theorem replace_slash (X Y : List Char) :
    bytesReplace (X ++ '/' :: Y) "/".data "\\/".data =
      bytesReplace X "/".data "\\/".data ++ ('\\' :: '/' :: bytesReplace Y "/".data "\\/".data) := by
  have hT : ∀ Y, bytesReplace ('/' :: [] ++ Y) "/".data "\\/".data =
      ['\\', '/'] ++ bytesReplace Y "/".data "\\/".data := by
    intro Y
    simp [bytesReplace_cons, startsWith]
  have := bytesReplace_split "/".data "\\/".data ['\\', '/'] '/' [] (by decide) hT X.length X Y rfl
  simpa using this

/-- The scan for the escape of `<` passes over the escape of `>`. -/
theorem keep_gt_under_lt (X Y : List Char) :
    bytesReplace (X ++ ("\\u003e".data ++ Y)) "\\u003c".data "<".data =
      bytesReplace X "\\u003c".data "<".data ++
        ("\\u003e".data ++ bytesReplace Y "\\u003c".data "<".data) := by
  have hT : ∀ Y, bytesReplace ('\\' :: ['u', '0', '0', '3', 'e'] ++ Y) "\\u003c".data "<".data =
      "\\u003e".data ++ bytesReplace Y "\\u003c".data "<".data := by
    intro Y
    simp [bytesReplace_cons, startsWith]
  exact bytesReplace_split "\\u003c".data "<".data "\\u003e".data '\\' ['u', '0', '0', '3', 'e']
    (by decide) hT X.length X Y rfl

theorem keep_amp_under_lt (X Y : List Char) :
    bytesReplace (X ++ ("\\u0026".data ++ Y)) "\\u003c".data "<".data =
      bytesReplace X "\\u003c".data "<".data ++
        ("\\u0026".data ++ bytesReplace Y "\\u003c".data "<".data) := by
  have hT : ∀ Y, bytesReplace ('\\' :: ['u', '0', '0', '2', '6'] ++ Y) "\\u003c".data "<".data =
      "\\u0026".data ++ bytesReplace Y "\\u003c".data "<".data := by
    intro Y
    simp [bytesReplace_cons, startsWith]
  exact bytesReplace_split "\\u003c".data "<".data "\\u0026".data '\\' ['u', '0', '0', '2', '6']
    (by decide) hT X.length X Y rfl

theorem keep_amp_under_gt (X Y : List Char) :
    bytesReplace (X ++ ("\\u0026".data ++ Y)) "\\u003e".data ">".data =
      bytesReplace X "\\u003e".data ">".data ++
        ("\\u0026".data ++ bytesReplace Y "\\u003e".data ">".data) := by
  have hT : ∀ Y, bytesReplace ('\\' :: ['u', '0', '0', '2', '6'] ++ Y) "\\u003e".data ">".data =
      "\\u0026".data ++ bytesReplace Y "\\u003e".data ">".data := by
    intro Y
    simp [bytesReplace_cons, startsWith]
  exact bytesReplace_split "\\u003e".data ">".data "\\u0026".data '\\' ['u', '0', '0', '2', '6']
    (by decide) hT X.length X Y rfl

theorem slackEscapes_lt (X Y : List Char) :
    slackEscapes (X ++ ("\\u003c".data ++ Y)) = slackEscapes X ++ '<' :: slackEscapes Y := by
  unfold slackEscapes
  rw [replace_lt, bytesReplace_keep_char "\\u003e".data ">".data '<' (by decide) (by decide),
    bytesReplace_keep_char "\\u0026".data "&".data '<' (by decide) (by decide),
    bytesReplace_keep_char "/".data "\\/".data '<' (by decide) (by decide)]

theorem slackEscapes_gt (X Y : List Char) :
    slackEscapes (X ++ ("\\u003e".data ++ Y)) = slackEscapes X ++ '>' :: slackEscapes Y := by
  unfold slackEscapes
  rw [keep_gt_under_lt, replace_gt,
    bytesReplace_keep_char "\\u0026".data "&".data '>' (by decide) (by decide),
    bytesReplace_keep_char "/".data "\\/".data '>' (by decide) (by decide)]

theorem slackEscapes_amp (X Y : List Char) :
    slackEscapes (X ++ ("\\u0026".data ++ Y)) = slackEscapes X ++ '&' :: slackEscapes Y := by
  unfold slackEscapes
  rw [keep_amp_under_lt, keep_amp_under_gt, replace_amp,
    bytesReplace_keep_char "/".data "\\/".data '&' (by decide) (by decide)]

theorem slackEscapes_slash (X Y : List Char) :
    slackEscapes (X ++ '/' :: Y) = slackEscapes X ++ '\\' :: '/' :: slackEscapes Y := by
  unfold slackEscapes
  rw [bytesReplace_keep_char "\\u003c".data "<".data '/' (by decide) (by decide),
    bytesReplace_keep_char "\\u003e".data ">".data '/' (by decide) (by decide),
    bytesReplace_keep_char "\\u0026".data "&".data '/' (by decide) (by decide), replace_slash]

/-- After the last replacement every '/' stands right after a backslash. -/
theorem replace_slash_escaped (b : List Char) :
    (bytesReplace b "/".data "\\/".data).head? ≠ some '/' ∧
      (bytesReplace b "/".data "\\/".data).Chain' (fun a c => c = '/' → a = '\\') := by
  induction b with
  | nil => simp [bytesReplace_nil]
  | cons c cs ih =>
    rw [bytesReplace_cons]
    by_cases hc : c = '/'
    · subst hc
      have hm : startsWith "/".data ('/' :: cs) = true := by simp [startsWith]
      rw [if_pos hm]
      refine ⟨by simp, ?_⟩
      show List.Chain' _ ('\\' :: '/' :: bytesReplace (List.drop 0 cs) "/".data "\\/".data)
      rw [List.drop_zero, List.chain'_cons, List.chain'_cons']
      refine ⟨fun _ => rfl, ?_, ih.2⟩
      intro y hy h
      exact absurd (h ▸ hy) (by simpa using ih.1)
    · have hm : ¬ startsWith "/".data (c :: cs) = true := by
        simp only [startsWith, Bool.and_true, beq_iff_eq]
        exact fun h => hc h.symm
      rw [if_neg hm]
      refine ⟨by simpa using hc, ?_⟩
      rw [List.chain'_cons']
      refine ⟨?_, ih.2⟩
      intro y hy h
      exact absurd (h ▸ hy) (by simpa using ih.1)

theorem jsonString_split (s₁ s₂ : String) (c : Char) :
    jsonString (s₁ ++ String.singleton c ++ s₂) =
      ('"' :: s₁.data.flatMap jsonEscape) ++ (jsonEscape c ++ (s₂.data.flatMap jsonEscape ++ ['"'])) := by
  unfold jsonString
  simp [String.data_append, String.singleton, List.flatMap_append]

theorem specEscapesFrom_skip :
    ∀ (s : List Char) (k : Nat), specEscapesFrom k s = specEscapesFrom 0 (s.drop k) := by
  intro s
  induction s with
  | nil => intro k; cases k <;> rfl
  | cons c cs ih =>
    intro k
    cases k with
    | zero => rfl
    | succ k => simp only [specEscapesFrom, List.drop_succ_cons]; exact ih k

theorem specEscapes_cons (c : Char) (cs : List Char) :
    specEscapes (c :: cs) =
      if startsWith "\\u003c".data (c :: cs) then '<' :: specEscapes (cs.drop 5)
      else if startsWith "\\u003e".data (c :: cs) then '>' :: specEscapes (cs.drop 5)
      else if startsWith "\\u0026".data (c :: cs) then '&' :: specEscapes (cs.drop 5)
      else if c = '/' then '\\' :: '/' :: specEscapes cs
      else c :: specEscapes cs := by
  unfold specEscapes
  simp only [specEscapesFrom]
  rw [specEscapesFrom_skip cs 5]

theorem startsWith_eq_append (p : List Char) :
    ∀ b : List Char, startsWith p b = true → b = p ++ b.drop p.length := by
  induction p with
  | nil => intro b _; rfl
  | cons x xs ih =>
    intro b h
    cases b with
    | nil => simp [startsWith] at h
    | cons y ys =>
      simp only [startsWith, Bool.and_eq_true, beq_iff_eq] at h
      rw [List.length_cons, List.drop_succ_cons, List.cons_append, ← ih ys h.2, h.1]

/-- A scan whose pattern and replacement start with other characters than the
ones looked for does not change whether the text starts with them. -/
theorem startsWith_bytesReplace (o n : Char) (os ns tl : List Char)
    (h : ∀ t ∈ tl, t ≠ o ∧ t ≠ n) :
    ∀ cs, startsWith tl (bytesReplace cs (o :: os) (n :: ns)) = startsWith tl cs := by
  induction tl with
  | nil => intro cs; simp [startsWith]
  | cons t tl ih =>
    intro cs
    have ht := h t (List.mem_cons_self _ _)
    have ih := ih (fun u hu => h u (List.mem_cons_of_mem _ hu))
    cases cs with
    | nil => rfl
    | cons d ds =>
      rw [bytesReplace_cons]
      by_cases hm : startsWith (o :: os) (d :: ds) = true
      · rw [if_pos hm]
        simp only [startsWith, Bool.and_eq_true, beq_iff_eq] at hm
        have h1 : (t == n) = false := by simpa using ht.2
        have h2 : (t == d) = false := by rw [← hm.1]; simpa using ht.1
        simp [startsWith, h1, h2]
      · rw [if_neg hm]
        simp only [startsWith]
        rw [ih ds]

/-- A character at which none of the four patterns starts is copied. -/
theorem slackEscapes_keep (c : Char) (cs : List Char)
    (h1 : ¬ startsWith "\\u003c".data (c :: cs) = true)
    (h2 : ¬ startsWith "\\u003e".data (c :: cs) = true)
    (h3 : ¬ startsWith "\\u0026".data (c :: cs) = true) (h4 : c ≠ '/') :
    slackEscapes (c :: cs) = c :: slackEscapes cs := by
  have e2 : startsWith "\\u003e".data (c :: bytesReplace cs "\\u003c".data "<".data) =
      startsWith "\\u003e".data (c :: cs) := by
    show (('\\' == c) && startsWith ['u', '0', '0', '3', 'e']
        (bytesReplace cs ('\\' :: ['u', '0', '0', '3', 'c']) ('<' :: []))) =
      (('\\' == c) && startsWith ['u', '0', '0', '3', 'e'] cs)
    rw [startsWith_bytesReplace '\\' '<' _ _ _ (by decide)]
  have e3 : startsWith "\\u0026".data
      (c :: bytesReplace (bytesReplace cs "\\u003c".data "<".data) "\\u003e".data ">".data) =
      startsWith "\\u0026".data (c :: cs) := by
    show (('\\' == c) && startsWith ['u', '0', '0', '2', '6']
        (bytesReplace (bytesReplace cs ('\\' :: ['u', '0', '0', '3', 'c']) ('<' :: []))
          ('\\' :: ['u', '0', '0', '3', 'e']) ('>' :: []))) =
      (('\\' == c) && startsWith ['u', '0', '0', '2', '6'] cs)
    rw [startsWith_bytesReplace '\\' '>' _ _ _ (by decide),
      startsWith_bytesReplace '\\' '<' _ _ _ (by decide)]
  have e4 : ¬ startsWith "/".data (c :: bytesReplace (bytesReplace
      (bytesReplace cs "\\u003c".data "<".data) "\\u003e".data ">".data) "\\u0026".data "&".data) =
      true := by
    simp only [startsWith, Bool.and_true, beq_iff_eq]
    exact fun h => h4 h.symm
  unfold slackEscapes
  rw [bytesReplace_cons _ _ c cs, if_neg h1, bytesReplace_cons, if_neg (by rw [e2]; exact h2),
    bytesReplace_cons, if_neg (by rw [e3]; exact h3), bytesReplace_cons, if_neg e4]

/-- The four replacements one after the other give the text the specification
describes. -/
theorem slackEscapes_eq_specEscapes_aux :
    ∀ (n : Nat) (b : List Char), b.length ≤ n → slackEscapes b = specEscapes b := by
  intro n
  induction n with
  | zero =>
    intro b hb
    have : b = [] := List.length_eq_zero.mp (Nat.le_zero.mp hb)
    subst this
    rfl
  | succ n ih =>
    intro b hb
    cases b with
    | nil => rfl
    | cons c cs =>
      have hcs : cs.length ≤ n := by simpa using hb
      have hdrop : (cs.drop 5).length ≤ n := by rw [List.length_drop]; omega
      rw [specEscapes_cons]
      by_cases h1 : startsWith "\\u003c".data (c :: cs) = true
      · rw [if_pos h1]
        have hb := startsWith_eq_append _ _ h1
        have := slackEscapes_lt [] (cs.drop 5)
        rw [List.nil_append] at this
        rw [hb]
        exact this.trans (by rw [ih _ hdrop]; rfl)
      rw [if_neg h1]
      by_cases h2 : startsWith "\\u003e".data (c :: cs) = true
      · rw [if_pos h2]
        have hb := startsWith_eq_append _ _ h2
        have := slackEscapes_gt [] (cs.drop 5)
        rw [List.nil_append] at this
        rw [hb]
        exact this.trans (by rw [ih _ hdrop]; rfl)
      rw [if_neg h2]
      by_cases h3 : startsWith "\\u0026".data (c :: cs) = true
      · rw [if_pos h3]
        have hb := startsWith_eq_append _ _ h3
        have := slackEscapes_amp [] (cs.drop 5)
        rw [List.nil_append] at this
        rw [hb]
        exact this.trans (by rw [ih _ hdrop]; rfl)
      rw [if_neg h3]
      by_cases h4 : c = '/'
      · rw [if_pos h4]
        subst h4
        have := slackEscapes_slash [] cs
        rw [List.nil_append] at this
        exact this.trans (by rw [ih _ hcs]; rfl)
      · rw [if_neg h4, slackEscapes_keep c cs h1 h2 h3 h4, ih _ hcs]

theorem slackEscapes_eq_specEscapes (b : List Char) : slackEscapes b = specEscapes b :=
  slackEscapes_eq_specEscapes_aux b.length b (Nat.le_refl _)

theorem MarshalIndent_eq {α : Type}
    (marshal : α → String → String → Except String (List Char)) (v : α) (pfx indent : String) :
    MarshalIndent marshal v pfx indent =
      match marshal v "" "    " with
      | .error err => .error err
      | .ok b => .ok (slackEscapes b) := by
  unfold MarshalIndent
  cases marshal v "" "    " <;> rfl

theorem MarshalIndent_string (s pfx indent : String) :
    MarshalIndent jsonMarshalIndentString s pfx indent = .ok (slackEscapes (jsonString s)) :=
  MarshalIndent_eq jsonMarshalIndentString s pfx indent

/-- C12: `MarshalIndent` returns the standard serialiser's output for the empty
prefix and four spaces of indentation in which every `\u003c`, `\u003e` and
`\u0026` is replaced by `<`, `>` and `&` and every '/' by a backslash and '/' (the
text `specEscapes` of the specification), or the serialiser's error. Wherever one
of the four patterns stands in the serialiser's output, its replacement stands in
the result between the results for what is before and what is after it. In the
result no '/' is first and every '/' follows a backslash. A string payload
with `<`, `>`, `&` or '/' in it has that character rendered as `<`, `>`, `&` and
backslash-'/', and the payload `<>&/` is rendered as `"<>&\/"`. -/
theorem MarshalIndent_escapes {α : Type}
    (marshal : α → String → String → Except String (List Char)) (v : α) (pfx indent : String) :
    (MarshalIndent marshal v pfx indent =
      match marshal v "" "    " with
      | .error err => .error err
      | .ok b => .ok (specEscapes b)) ∧
    (∀ X Y : List Char,
      specEscapes (X ++ ("\\u003c".data ++ Y)) = specEscapes X ++ '<' :: specEscapes Y ∧
      specEscapes (X ++ ("\\u003e".data ++ Y)) = specEscapes X ++ '>' :: specEscapes Y ∧
      specEscapes (X ++ ("\\u0026".data ++ Y)) = specEscapes X ++ '&' :: specEscapes Y ∧
      specEscapes (X ++ '/' :: Y) = specEscapes X ++ '\\' :: '/' :: specEscapes Y) ∧
    (∀ b : List Char, (specEscapes b).head? ≠ some '/' ∧
      (specEscapes b).Chain' (fun a c => c = '/' → a = '\\')) ∧
    (∀ s₁ s₂ : String,
      MarshalIndent jsonMarshalIndentString (s₁ ++ "<" ++ s₂) pfx indent =
        .ok (specEscapes ('"' :: s₁.data.flatMap jsonEscape) ++
          '<' :: specEscapes (s₂.data.flatMap jsonEscape ++ ['"'])) ∧
      MarshalIndent jsonMarshalIndentString (s₁ ++ ">" ++ s₂) pfx indent =
        .ok (specEscapes ('"' :: s₁.data.flatMap jsonEscape) ++
          '>' :: specEscapes (s₂.data.flatMap jsonEscape ++ ['"'])) ∧
      MarshalIndent jsonMarshalIndentString (s₁ ++ "&" ++ s₂) pfx indent =
        .ok (specEscapes ('"' :: s₁.data.flatMap jsonEscape) ++
          '&' :: specEscapes (s₂.data.flatMap jsonEscape ++ ['"'])) ∧
      MarshalIndent jsonMarshalIndentString (s₁ ++ "/" ++ s₂) pfx indent =
        .ok (specEscapes ('"' :: s₁.data.flatMap jsonEscape) ++
          '\\' :: '/' :: specEscapes (s₂.data.flatMap jsonEscape ++ ['"']))) ∧
    MarshalIndent jsonMarshalIndentString "<>&/" pfx indent = .ok "\"<>&\\/\"".data := by
  refine ⟨?_, ?_, ?_, ?_, ?_⟩
  · rw [MarshalIndent_eq]
    cases marshal v "" "    " with
    | error e => rfl
    | ok b => simp only [slackEscapes_eq_specEscapes]
  · intro X Y
    simp only [← slackEscapes_eq_specEscapes]
    exact ⟨slackEscapes_lt X Y, slackEscapes_gt X Y, slackEscapes_amp X Y, slackEscapes_slash X Y⟩
  · intro b
    rw [← slackEscapes_eq_specEscapes]
    exact replace_slash_escaped _
  · intro s₁ s₂
    simp only [← slackEscapes_eq_specEscapes, MarshalIndent_string]
    refine ⟨?_, ?_, ?_, ?_⟩
    · rw [← slackEscapes_lt]
      exact congrArg (fun t => Except.ok (slackEscapes t)) (jsonString_split s₁ s₂ '<')
    · rw [← slackEscapes_gt]
      exact congrArg (fun t => Except.ok (slackEscapes t)) (jsonString_split s₁ s₂ '>')
    · rw [← slackEscapes_amp]
      exact congrArg (fun t => Except.ok (slackEscapes t)) (jsonString_split s₁ s₂ '&')
    · rw [← slackEscapes_slash]
      exact congrArg (fun t => Except.ok (slackEscapes t)) (jsonString_split s₁ s₂ '/')
  · rfl

/-- C20: the string of the six characters backslash, u, 0, 0, 3, c is a value
for which the claim fails. The serialiser writes it with the backslash doubled,
a text that decodes back to the string; `MarshalIndent` then replaces the second
backslash and the five characters after it by `<`, and what it returns, a quote,
a backslash, `<` and a quote, is not JSON: the decoder rejects it. -/
theorem MarshalIndent_breaks_escaped_backslash :
    jsonMarshalIndentString "\\u003c" "" "    " = .ok "\"\\\\u003c\"".data ∧
    jsonDecodeString "\"\\\\u003c\"".data = some "\\u003c" ∧
    MarshalIndent jsonMarshalIndentString "\\u003c" "" "    " = .ok "\"\\<\"".data ∧
    jsonDecodeString "\"\\<\"".data = none :=
  ⟨rfl, rfl, rfl, rfl⟩


end SlackDump
